import Mathlib

/-!
Verification development for the `dissat` CDCL SAT solver.

The definitions below are a shallow embedding of the solver's source:

* literal/variable encoding        from `src/solver/data/var.rs`
* variable/literal indexed vectors from `src/solver/data/{varvec,litvec}.rs`
* assignment store                 from `src/solver/assignment.rs`
* trail                            from `src/solver/trail.rs`
* clause arena (solver level)      from `src/solver/clause.rs`
* unit propagation                 from `src/solver/propagate.rs`
* conflict analysis                from `src/solver/analyze.rs`
* garbage collection               from `src/solver/garbage.rs`
* solver driver / model            from `src/solver/mod.rs`
* clause arena (word level)        from `src/solver/clause.rs` (buffer layout)
* DIMACS clause splitting          from `src/dimacs.rs`

Machine integers (`u32`, `usize`) are modelled as `Nat`; the code never
relies on wrap-around in the modelled paths (literal magnitudes are
asserted `< 2^30` at creation, buffer offsets stay far below `2^32`).
Fallible operations (slice-index panics, `unwrap`/`expect`, `assert!`,
`debug_assert!`, `unreachable!`) are modelled in the `Option` monad,
`none` meaning the (debug) build aborts.  Top-level loops take explicit
fuel; running out of fuel is reported separately from a crash.
-/

set_option maxRecDepth 4000

namespace Dissat

/-! ## Literal and variable encoding (src/solver/data/var.rs)

A literal is a `u32`: the least significant bit is one iff the literal
is negative, the remaining bits are the variable.  `Lit::new` asserts
the input is non-zero and small enough that the most significant bit
stays clear. -/

/-- Encoding of `Lit::new`: `(|i| << 1) | (i < 0)`. -/
def Lit.ofInt (i : Int) : Nat :=
  2 * i.natAbs + (if i < 0 then 1 else 0)

/-- Negation `Lit::neg` is a single bit flip (`l XOR 1`). -/
def litNeg (l : Nat) : Nat := l ^^^ 1

/-- Variable of a literal, `Lit::var` (`l >> 1`). -/
def litVar (l : Nat) : Nat := l / 2

/-- Polarity test `Lit::is_pos` (`l & 1 == 0`). -/
def litIsPos (l : Nat) : Bool := l % 2 == 0

/-- Conversion `Lit::from(Var)`: the positive literal `2 * v`. -/
def varLit (v : Nat) : Nat := 2 * v

/-- Validity check of `Lit::new`: non-zero input, magnitude below `2^30`
(so that the shifted representation keeps the MSB clear). -/
def litNewOk (i : Int) : Bool := i != 0 && i.natAbs < 2 ^ 30

/-- Dense index of a literal in a `LitVec`
(src/solver/data/litvec.rs, `lit_to_idx`): positive and negative
literal of variable `v` occupy slots `2v-2` and `2v-1`, i.e. the
encoded value minus two. -/
def litToIdx (l : Nat) : Nat := l - 2

/-! ## Trail reasons and the assignment store (src/solver/assignment.rs) -/

/-- Stable identity of a clause in the arena
(`ClauseIdx`, src/solver/clause.rs).  At solver level we track the
position of the clause in the arena plus the debug-build generation
counter that detects use of a handle across a garbage collection. -/
structure ClauseIdx where
  idx : Nat
  generation : Nat
deriving DecidableEq, Repr

/-- Reason of an assignment (`TrailReason`, src/solver/trail.rs).
The source's `Axiom` variant is spelled `axm` here. -/
inductive TrailReason where
  | decision
  | propagated (cls : ClauseIdx)
  | axm
deriving DecidableEq, Repr

/-- Per-variable assignment record (`AssignData`, src/solver/assignment.rs). -/
structure AssignData where
  status : Bool
  decisionLevel : Nat
  reason : TrailReason
deriving DecidableEq, Repr

/-- The assignment store is a `VarVec<Option<AssignData>>`: a dense list
indexed by variable, slot `0` unused (src/solver/data/varvec.rs). -/
abbrev Assignment := List (Option AssignData)

/-- Expansion `Assignment::expand` / `VarVec::expand`: grow the store so
that variable `v` is a valid index (resize to `v + 1` when that is at
least the current length). -/
def Assignment.expand (a : Assignment) (v : Nat) : Assignment :=
  if a.length ≤ v + 1 then a ++ List.replicate (v + 1 - a.length) none else a

/-- Lookup `Assignment::get`: the truth value of a literal, `none` when
its variable is unassigned. -/
def Assignment.get (a : Assignment) (l : Nat) : Option Bool :=
  (a.getD (litVar l) none).map (fun d => d.status == litIsPos l)

/-- Test `Assignment::is_lit_satisified`. -/
def Assignment.isLitSatisfied (a : Assignment) (l : Nat) : Bool :=
  a.get l == some true

/-- Test `Assignment::is_lit_unsatisfied`. -/
def Assignment.isLitUnsatisfied (a : Assignment) (l : Nat) : Bool :=
  a.get l == some false

/-- Test `Assignment::is_lit_assigned`. -/
def Assignment.isLitAssigned (a : Assignment) (l : Nat) : Bool :=
  (a.getD (litVar l) none).isSome

/-- Test `Assignment::is_lit_unassigned`. -/
def Assignment.isLitUnassigned (a : Assignment) (l : Nat) : Bool :=
  (a.getD (litVar l) none).isNone

/-- Assignment of a literal (`Assignment::assign_lit`).  The source
`debug_assert!`s that the variable is unassigned and indexing panics
when the store is too small; both abort the run (`none`). -/
def Assignment.assignLit (a : Assignment) (l : Nat) (lvl : Nat)
    (r : TrailReason) : Option Assignment :=
  if litVar l < a.length then
    match a.getD (litVar l) none with
    | some _ => none
    | none => some (a.set (litVar l) (some ⟨litIsPos l, lvl, r⟩))
  else none

/-- Unassignment (`Assignment::unassign_lit`); `debug_assert!`s the
variable is assigned. -/
def Assignment.unassignLit (a : Assignment) (l : Nat) : Option Assignment :=
  if litVar l < a.length then
    match a.getD (litVar l) none with
    | some _ => some (a.set (litVar l) none)
    | none => none
  else none

/-- Number of variables, `VarVec::len` (`self.0.len() - 1`; the dummy
slot 0 is not counted).  On the empty store the source's `usize`
subtraction would abort a debug build; the claims never exercise that
state and `Nat` subtraction yields 0. -/
def Assignment.lenVars (a : Assignment) : Nat := a.length - 1

/-- Query `Assignment::find_unassigned_variable`: first variable
(index ≥ 1) whose slot is `none`. -/
def Assignment.findUnassigned (a : Assignment) : Option Nat :=
  ((List.range a.length).drop 1).find? (fun v => (a.getD v none).isNone)

/-- Per-variable record `Assignment::get_data`. -/
def Assignment.getData (a : Assignment) (l : Nat) : Option AssignData :=
  a.getD (litVar l) none

/-! ## Trail (src/solver/trail.rs) -/

/-- Entry of the trail (`TrailElement`). -/
structure TrailElement where
  lit : Nat
  reason : TrailReason
deriving DecidableEq, Repr

/-- The trail: assignment log, decision positions and the assignment
store (`Trail`, src/solver/trail.rs). -/
structure Trail where
  trail : List TrailElement
  decisionPositions : List Nat
  assignment : Assignment
deriving DecidableEq, Repr

/-- Count `Trail::assigned_vars`. -/
def Trail.assignedVars (t : Trail) : Nat := t.trail.length

/-- Level `Trail::current_decision_level` (number of decisions). -/
def Trail.currentDecisionLevel (t : Trail) : Nat := t.decisionPositions.length

/-- Count `Trail::total_vars`. -/
def Trail.totalVars (t : Trail) : Nat := t.assignment.lenVars

/-- Lookup `Trail::get`. -/
def Trail.get (t : Trail) (i : Nat) : Option TrailElement := t.trail.get? i

/-- Delegation `Trail::is_lit_satisfied`. -/
def Trail.isLitSatisfied (t : Trail) (l : Nat) : Bool :=
  t.assignment.isLitSatisfied l

/-- Delegation `Trail::is_lit_unsatisfied`. -/
def Trail.isLitUnsatisfied (t : Trail) (l : Nat) : Bool :=
  t.assignment.isLitUnsatisfied l

/-- Delegation `Trail::is_lit_unassigned`. -/
def Trail.isLitUnassigned (t : Trail) (l : Nat) : Bool :=
  t.assignment.isLitUnassigned l

/-- Delegation `Trail::get_lit_assignment`. -/
def Trail.getLitAssignment (t : Trail) (l : Nat) : Option Bool :=
  t.assignment.get l

/-- Check `Trail::assignment_complete` (`trail.len() == assignment.len()`). -/
def Trail.assignmentComplete (t : Trail) : Bool :=
  t.trail.length == t.assignment.lenVars

/-- Expansion `Trail::expand`. -/
def Trail.expand (t : Trail) (v : Nat) : Trail :=
  { t with assignment := t.assignment.expand v }

/-- Query `Trail::find_unassigned_variable`. -/
def Trail.findUnassignedVariable (t : Trail) : Option Nat :=
  t.assignment.findUnassigned

/-- Level lookup `Trail::get_decision_level`. -/
def Trail.getDecisionLevel (t : Trail) (l : Nat) : Option Nat :=
  (t.assignment.getData l).map (·.decisionLevel)

/-- Reason lookup `Trail::get_reason_cls`; panics (`none`) when the
literal is unassigned or was not propagated. -/
def Trail.getReasonCls (t : Trail) (l : Nat) : Option ClauseIdx :=
  match t.assignment.getData l with
  | some d =>
    match d.reason with
    | .propagated c => some c
    | _ => none
  | none => none

/-- Assignment `Trail::assign_lit`: push the element, record a decision
position for decisions, then assign in the store at the (possibly just
incremented) current decision level. -/
def Trail.assignLit (t : Trail) (l : Nat) (r : TrailReason) : Option Trail :=
  let tr := t.trail ++ [⟨l, r⟩]
  let dp := if r = .decision then t.decisionPositions ++ [tr.length - 1]
            else t.decisionPositions
  match t.assignment.assignLit l dp.length r with
  | none => none
  | some a => some { trail := tr, decisionPositions := dp, assignment := a }

/-- Check `Trail::is_clause_satisfied`: some literal satisfied. -/
def Trail.isClauseSatisfied (t : Trail) (lits : List Nat) : Bool :=
  lits.any (fun l => t.isLitSatisfied l)

/-- Last decision position `Trail::last_decision_pos`, including its
`debug_assert!` that the entry there is a decision.  The outer `none`
is the aborted run; `some none` means the trail has no decision. -/
def Trail.lastDecisionPos (t : Trail) : Option (Option Nat) :=
  match t.decisionPositions.getLast? with
  | none => some none
  | some pos =>
    match t.trail.get? pos with
    | some e => if e.reason = .decision then some (some pos) else none
    | none => none

/-- Sequential unassignment of popped trail entries (the
`for` loop of `Trail::backtrack`). -/
def unassignAll : Assignment → List TrailElement → Option Assignment
  | a, [] => some a
  | a, e :: rest =>
    match a.unassignLit e.lit with
    | none => none
    | some a' => unassignAll a' rest

/-- Backtracking `Trail::backtrack`: drop every trail entry from the
decision position of level `lvl + 1` upward, unassigning each.  Returns
the new trail, the popped entries (the source passes each to an
`on_pop` closure) and the resume position for unit propagation. -/
def Trail.backtrack (t : Trail) (lvl : Nat) :
    Option (Trail × List TrailElement × Nat) :=
  match t.decisionPositions.get? lvl with
  | none => some (t, [], t.trail.length)
  | some pos =>
    let popped := t.trail.drop pos
    match unassignAll t.assignment popped with
    | none => none
    | some a =>
      some ({ trail := t.trail.take pos,
              decisionPositions := t.decisionPositions.take lvl,
              assignment := a }, popped, pos)

/-! ## Clause arena at solver level (src/solver/clause.rs)

For the solver-level model a clause handle is the position of the
clause in the arena (the source uses the byte offset of the clause in
one flat `u32` buffer; positions and offsets are in order-preserving
bijection, so every solver-level operation — insertion order, lookup,
removal, handle rewrite after garbage collection — is preserved).  The
word-level buffer itself is modelled separately below for the
garbage-collection compaction claims. -/

/-- Record of one clause: the flag bits, the LBD glue value
(`None` for input clauses, like the source's `Option<NonZeroU32>`) and
the literals. -/
structure ClauseRec where
  isGarbage : Bool
  isReason : Bool
  glue : Option Nat
  lits : List Nat
deriving DecidableEq, Repr

/-- Clause arena (`ClauseDB`) with the debug-build generation counter
that is bumped by each garbage collection. -/
structure ClauseDB where
  clauses : List ClauseRec
  generation : Nat
deriving DecidableEq, Repr

/-- Insertion `ClauseDB::insert_clause`: append the clause, return its
handle (carrying the current generation). -/
def ClauseDB.insertClause (db : ClauseDB) (lits : List Nat)
    (glue : Option Nat) : ClauseDB × ClauseIdx :=
  ({ db with clauses := db.clauses ++ [⟨false, false, glue, lits⟩] },
   ⟨db.clauses.length, db.generation⟩)

/-- Lookup `ClauseDB::get` / `get_mut` validity: the handle's
generation must match (debug assertion) and the position must name a
clause (the sentinel-bit check of `assert_valid_clause_index`). -/
def ClauseDB.get (db : ClauseDB) (ci : ClauseIdx) : Option ClauseRec :=
  if ci.generation = db.generation then db.clauses.get? ci.idx else none

/-- Mutation through `ClauseDB::get_mut`, with the same validity
checks as `get`. -/
def ClauseDB.modify (db : ClauseDB) (ci : ClauseIdx)
    (f : ClauseRec → ClauseRec) : Option ClauseDB :=
  match db.get ci with
  | none => none
  | some r => some { db with clauses := db.clauses.set ci.idx (f r) }

/-- Swap of two literals of a clause (`cls.swap(i, j)` on the mutable
literal slice); panics when an index is out of bounds. -/
def ClauseDB.swapLits (db : ClauseDB) (ci : ClauseIdx) (i j : Nat) :
    Option ClauseDB :=
  match db.get ci with
  | none => none
  | some r =>
    match r.lits.get? i, r.lits.get? j with
    | some li, some lj =>
      some { db with
             clauses := db.clauses.set ci.idx
               { r with lits := (r.lits.set i lj).set j li } }
    | _, _ => none

/-! ## Watch lists (src/solver/mod.rs field `watches`, src/solver/data/litvec.rs)

A `LitVec<Vec<Watch>>`; a watch is just a clause handle
(`Watch { clause: ClauseIdx }`). -/

/-- Watch-list structure: one list of clause handles per literal slot. -/
abbrev Watches := List (List ClauseIdx)

/-- Expansion `LitVec::expand`: make `litToIdx l` a valid slot. -/
def Watches.expand (w : Watches) (l : Nat) : Watches :=
  if w.length ≤ litToIdx l + 1 then
    w ++ List.replicate (litToIdx l + 1 - w.length) []
  else w

/-- Push onto the watch list of slot `i` (indexing panics when the slot
does not exist). -/
def Watches.push (w : Watches) (i : Nat) (ci : ClauseIdx) : Option Watches :=
  match w.get? i with
  | some lst => some (w.set i (lst ++ [ci]))
  | none => none

/-! ## Solver state (src/solver/mod.rs) -/

/-- Counters (`Stats`): `contradictions`, `propagations` and
`contradiction_since_last_garbage_collections`. -/
structure Stats where
  contradictions : Nat
  propagations : Nat
  sinceGc : Nat
deriving DecidableEq, Repr

/-- Dynamic limits (`Limits`); `garbage_collection_conflicts` starts at
3000 (`Default for Limits`). -/
structure Limits where
  garbageCollectionConflicts : Nat
deriving DecidableEq, Repr

/-- Solver state (`Solver`).  The `analyze_state` scratch field is
reset at the start of every conflict analysis and is modelled as local
state of `analyzeContradiction`. -/
structure Solver where
  clauseDb : ClauseDB
  watches : Watches
  trail : Trail
  unpropagatedLitPos : Nat
  triviallyUnsat : Bool
  stats : Stats
  limits : Limits
deriving DecidableEq, Repr

/-- Initial solver `Solver::new()` / `Default`. -/
def Solver.initial : Solver :=
  { clauseDb := ⟨[], 0⟩
    watches := []
    trail := ⟨[], [], []⟩
    unpropagatedLitPos := 0
    triviallyUnsat := false
    stats := ⟨0, 0, 0⟩
    limits := ⟨3000⟩ }

/-! ## Clause normalization and ingestion (src/solver/mod.rs) -/

/-- Stable insertion into a list sorted by variable (ascending),
keeping earlier elements before later equal-keyed ones, as Rust's
stable `sort_by_key`. -/
def sortInsertByVar (l : Nat) : List Nat → List Nat
  | [] => [l]
  | x :: xs =>
    if litVar x < litVar l then x :: sortInsertByVar l xs else l :: x :: xs

/-- Stable sort by variable (`cls.sort_by_key(|lit| lit.var().get())`). -/
def sortByVar : List Nat → List Nat
  | [] => []
  | x :: xs => sortInsertByVar x (sortByVar xs)

/-- Removal of consecutive duplicates (`Vec::dedup`). -/
def dedupAdj : List Nat → List Nat
  | [] => []
  | [x] => [x]
  | x :: y :: xs =>
    if x = y then dedupAdj (y :: xs) else x :: dedupAdj (y :: xs)

/-- Tautology test of `normalise_clause`: after sorting and deduping,
some adjacent pair shares a variable (`array_windows` check). -/
def hasAdjSameVar : List Nat → Bool
  | x :: y :: xs => litVar x == litVar y || hasAdjSameVar (y :: xs)
  | _ => false

/-- Normalization `Solver::normalise_clause`: sort by variable, remove
duplicate literals; the Boolean is true iff the clause is a tautology
(contains a variable with both polarities). -/
def normaliseClause (cls : List Nat) : List Nat × Bool :=
  let c := dedupAdj (sortByVar cls)
  (c, hasAdjSameVar c)

/-- Maximum variable of a clause (`max_by_key(|l| l.var().get())`,
used only for expansion). -/
def maxVarOf (cls : List Nat) : Nat :=
  cls.foldl (fun m l => max m (litVar l)) 0

/-- Ingestion `Solver::add_clause`: encode the literals (`Lit::new`
asserts each is non-zero and small), normalize, drop tautologies, grow
the assignment and watch vectors to the maximum variable, then
dispatch on the clause length: empty sets the trivially-unsat flag; a
unit either sets the flag (contradicting literal) or assigns at the
current level with reason `Axiom`; longer clauses are inserted into
the arena and watched on positions 0 and 1. -/
def Solver.addClause (s : Solver) (ints : List Int) : Option Solver :=
  match ints.mapM (fun i => if litNewOk i then some (Lit.ofInt i) else none) with
  | none => none
  | some cls0 =>
    if (normaliseClause cls0).2 then some s
    else
      let cls := (normaliseClause cls0).1
      let s := if cls.isEmpty then s else
        { s with trail := s.trail.expand (maxVarOf cls),
                 watches := s.watches.expand (litNeg (varLit (maxVarOf cls))) }
      match cls with
      | [] => some { s with triviallyUnsat := true }
      | [l] =>
        if s.trail.isLitUnsatisfied l then
          some { s with triviallyUnsat := true }
        else
          match s.trail.assignLit l .axm with
          | none => none
          | some t => some { s with trail := t }
      | l0 :: l1 :: _ =>
        let (db, ci) := s.clauseDb.insertClause cls none
        match s.watches.push (litToIdx l0) ci with
        | none => none
        | some w =>
          match w.push (litToIdx l1) ci with
          | none => none
          | some w => some { s with clauseDb := db, watches := w }

/-- Ingestion of a whole formula: `Solver::new()` followed by
`add_clause` for each clause (as `Solver::from_dimacs` does). -/
def solverFromList (F : List (List Int)) : Option Solver :=
  F.foldlM Solver.addClause Solver.initial

/-! ## Unit propagation (src/solver/propagate.rs) -/

/-- Result of `Solver::propagate`. -/
inductive PropagationResult where
  | contradiction (cls : ClauseIdx)
  | done
deriving DecidableEq, Repr

/-- Outcome channel for fueled loops: success, aborted run (panicking
assertion / index), or fuel exhaustion. -/
inductive Res (α : Type) where
  | ok (a : α)
  | crashed
  | fuelOut
deriving DecidableEq, Repr

/-- Lift of the `Option` panic channel into `Res`. -/
def Res.ofOption : Option α → Res α
  | some a => .ok a
  | none => .crashed

/-- Mutable state threaded through the watch-list scan of `propagate`
(clause arena, trail, the other watch lists, counters). -/
structure PropCtx where
  clauseDb : ClauseDB
  trail : Trail
  watches : Watches
  stats : Stats
deriving DecidableEq, Repr

/-- Scan for a replacement watch: first index `k ≥ 2` whose literal is
not unsatisfied (the `for (candidate_idx, candidate)` loop of
`propagate`).  `i` is the index of the head of `rest`. -/
def findNonFalse (t : Trail) : List Nat → Nat → Option (Nat × Nat)
  | [], _ => none
  | c :: cs, i =>
    if ¬ t.isLitUnsatisfied c then some (i, c) else findNonFalse t cs (i + 1)

/-- Determination of the watched position holding `-lit`
(`if cls[0] == -lit { 0 } else { debug_assert!(cls[1] == -lit); 1 }`);
`none` is the aborted run (index panic or failed assertion). -/
def watchedLitIdx (lits : List Nat) (lit : Nat) : Option Nat :=
  match lits.get? 0 with
  | none => none
  | some c0 =>
    if c0 = litNeg lit then some 0
    else
      match lits.get? 1 with
      | none => none
      | some c1 => if c1 = litNeg lit then some 1 else none

/-- Body of the `retain` over the watch list of `-lit` in
`Solver::propagate`.  Returns the entries kept in this list, the
conflicting clause if one was found (in which case the remaining
entries are kept unprocessed), and the updated context.  A `none` is
an aborted run (failed `debug_assert!` on the watched positions, an
out-of-bounds index, or a push through the split borrow onto the
focused slot). -/
def propagateWatchList (lit : Nat) :
    List ClauseIdx → PropCtx → Option (List ClauseIdx × Option ClauseIdx × PropCtx)
  | [], ctx => some ([], none, ctx)
  | w :: rest, ctx =>
    match ctx.clauseDb.get w with
    | none => none
    | some cls =>
      match watchedLitIdx cls.lits lit with
      | none => none
      | some litIdx =>
        let otherIdx := 1 - litIdx
        match cls.lits.get? otherIdx with
        | none => none
        | some other =>
          if ctx.trail.isLitSatisfied other then
            match propagateWatchList lit rest ctx with
            | none => none
            | some (kept, confl, ctx') => some (w :: kept, confl, ctx')
          else
            match findNonFalse ctx.trail (cls.lits.drop 2) 2 with
            | some (k, cand) =>
              if litToIdx cand = litToIdx (litNeg lit) then none
              else
                match ctx.watches.push (litToIdx cand) w with
                | none => none
                | some ws =>
                  match ctx.clauseDb.swapLits w litIdx k with
                  | none => none
                  | some db =>
                    propagateWatchList lit rest
                      { ctx with watches := ws, clauseDb := db }
            | none =>
              if ctx.trail.isLitUnassigned other then
                match ctx.trail.assignLit other (.propagated w) with
                | none => none
                | some t =>
                  match ctx.clauseDb.swapLits w 0 otherIdx with
                  | none => none
                  | some db =>
                    let ctx2 := { ctx with
                      trail := t
                      clauseDb := db
                      stats := { ctx.stats with
                        propagations := ctx.stats.propagations + 1 } }
                    match propagateWatchList lit rest ctx2 with
                    | none => none
                    | some (kept, confl, ctx') => some (w :: kept, confl, ctx')
              else
                some (w :: rest, some w,
                  { ctx with stats :=
                      { ctx.stats with
                        contradictions := ctx.stats.contradictions + 1 } })

/-- Outer loop of `Solver::propagate` over unprocessed trail
positions.  On a contradiction `unpropagated_lit_pos` is left
untouched; on completion it is set to the trail length (the source
`debug_assert_eq!`s the two are equal there). -/
def Solver.propagateGo : Nat → Nat → Solver → Res (PropagationResult × Solver)
  | 0, _, _ => .fuelOut
  | fuel + 1, trailPos, s =>
    match s.trail.get trailPos with
    | none =>
      if trailPos = s.trail.trail.length then
        .ok (.done, { s with unpropagatedLitPos := trailPos })
      else .crashed
    | some elem =>
      if ¬ s.trail.isLitSatisfied elem.lit then .crashed
      else
        match s.watches.get? (litToIdx (litNeg elem.lit)) with
        | none => .crashed
        | some lw =>
          match propagateWatchList elem.lit lw
              ⟨s.clauseDb, s.trail, s.watches, s.stats⟩ with
          | none => .crashed
          | some (kept, confl, ctx) =>
            let s' := { s with
              clauseDb := ctx.clauseDb
              trail := ctx.trail
              watches := ctx.watches.set (litToIdx (litNeg elem.lit)) kept
              stats := ctx.stats }
            match confl with
            | some c => .ok (.contradiction c, s')
            | none => Solver.propagateGo fuel (trailPos + 1) s'

/-- Entry point `Solver::propagate`, resuming at
`unpropagated_lit_pos`. -/
def Solver.propagate (s : Solver) (fuel : Nat) : Res (PropagationResult × Solver) :=
  Solver.propagateGo fuel s.unpropagatedLitPos s

/-! ## Conflict analysis (src/solver/analyze.rs) -/

/-- Result of `Solver::analyze_contradiction`. -/
inductive AnalyzeResult where
  | unsat
  | done
deriving DecidableEq, Repr

/-- Scratch state of conflict analysis (`AnalyzeState`).  `open` is
spelled `openCount` (reserved word).  The source's `VarVec::fill` and
`resize` of `seen` are not under `src/`; per the `VarVec` indexing
convention (slot `v` for variable `v`, dummy slot 0), `reset` makes
every variable `1 ..= total_vars` a valid index. -/
structure AnalyzeState where
  seen : List Bool
  newClause : List Nat
  openCount : Nat
  levelsSeen : List Bool
  levelsInClause : List Nat
deriving DecidableEq, Repr

/-- Reset `AnalyzeState::reset` for `num_vars` variables and
`decision_levels` levels. -/
def AnalyzeState.reset (numVars decisionLevels : Nat) : AnalyzeState :=
  { seen := List.replicate (numVars + 1) false
    newClause := []
    openCount := 0
    levelsSeen := List.replicate (decisionLevels + 1) false
    levelsInClause := [] }

/-- Test `AnalyzeState::has_seen_lit`. -/
def AnalyzeState.hasSeenLit (a : AnalyzeState) (l : Nat) : Bool :=
  a.seen.getD (litVar l) false

/-- Step `AnalyzeState::analyze_literal`: skip seen literals; push
literals of lower level into the clause under construction, count
current-level ones in `open`; record the first sighting of each
decision level; mark the variable seen.  The `debug_assert!`s
(literal unsatisfied, level at most current) abort on failure. -/
def AnalyzeState.analyzeLiteral (a : AnalyzeState) (t : Trail) (l : Nat) :
    Option AnalyzeState :=
  if a.hasSeenLit l then some a
  else
    match t.getDecisionLevel l with
    | none => none
    | some litLevel =>
      if ¬ t.isLitUnsatisfied l then none
      else if ¬ litLevel ≤ t.currentDecisionLevel then none
      else
        let a := if litLevel < t.currentDecisionLevel then
                   { a with newClause := a.newClause ++ [l] }
                 else { a with openCount := a.openCount + 1 }
        match a.levelsSeen.get? litLevel with
        | none => none
        | some sn =>
          let a := if sn then a
                   else { a with levelsSeen := a.levelsSeen.set litLevel true,
                                 levelsInClause := a.levelsInClause ++ [litLevel] }
          if litVar l < a.seen.length then
            some { a with seen := a.seen.set (litVar l) true }
          else none

/-- Step `AnalyzeState::analyze_reason`: analyze every literal of the
reason clause except the propagated literal itself (the `for` loop,
left to right). -/
def AnalyzeState.analyzeReason (a : AnalyzeState) (t : Trail)
    (uip : Option Nat) : List Nat → Option AnalyzeState
  | [] => some a
  | ol :: rest =>
    if uip = some ol then a.analyzeReason t uip rest
    else
      match a.analyzeLiteral t ol with
      | none => none
      | some a' => a'.analyzeReason t uip rest

/-- Walk the trail backward from `pos` (exclusive) to the next seen
literal at the current decision level (the inner `loop` of
`analyze_contradiction`); aborts when the cursor would underflow
(`debug_assert!(trail_pos > 0)`). -/
def findUip (t : Trail) (a : AnalyzeState) : Nat → Option (Nat × Nat)
  | 0 => none
  | pos + 1 =>
    match t.get pos with
    | none => none
    | some e =>
      if ¬ a.hasSeenLit e.lit then findUip t a pos
      else
        match t.getDecisionLevel e.lit with
        | none => none
        | some lvl =>
          if lvl = t.currentDecisionLevel then some (e.lit, pos)
          else findUip t a pos

/-- Main loop of `analyze_contradiction` deriving the 1UIP clause:
analyze the current reason, find the next seen current-level literal,
stop when it is the only open one, otherwise continue with its reason
clause.  The cursor strictly decreases, so fuel `trail length + 1`
always suffices. -/
def analyzeGo (db : ClauseDB) (t : Trail) :
    Nat → List Nat → Option Nat → Nat → AnalyzeState →
    Option (AnalyzeState × Nat)
  | 0, _, _, _, _ => none
  | fuel + 1, reason, uip?, pos, a =>
    match a.analyzeReason t uip? reason with
    | none => none
    | some a =>
      match findUip t a pos with
      | none => none
      | some (uip, pos') =>
        if a.openCount = 1 then some (a, uip)
        else
          let a := { a with openCount := a.openCount - 1 }
          match t.getReasonCls uip with
          | none => none
          | some rIdx =>
            match db.get rIdx with
            | none => none
            | some cls => analyzeGo db t fuel cls.lits (some uip) pos' a

/-- Count `Solver::calculate_ldb_from_lits`: number of distinct
decision levels (as `Option` values, matching the `HashSet` of
`get_decision_level` results) among the clause literals. -/
def calculateLdb (t : Trail) (cls : List Nat) : Nat :=
  ((cls.map (fun l => t.getDecisionLevel l)).dedup).length

/-- Guard `Solver::everything_before_last_decision_has_been_propagated`. -/
def Solver.beforeLastDecisionPropagated (s : Solver) : Option Bool :=
  match s.trail.lastDecisionPos with
  | none => none
  | some none => some true
  | some (some pos) => some (pos ≤ s.unpropagatedLitPos)

/-- Clearing of `is_reason` on the clauses of popped propagated
entries (the `on_pop` closure passed to `backtrack` by
`analyze_contradiction`). -/
def clearPoppedReasons (db : ClauseDB) : List TrailElement → Option ClauseDB
  | [] => some db
  | e :: rest =>
    match e.reason with
    | .propagated c =>
      match db.modify c (fun r => { r with isReason := false }) with
      | none => none
      | some db' => clearPoppedReasons db' rest
    | _ => clearPoppedReasons db rest

/-- Conflict analysis `Solver::analyze_contradiction`: at level 0 the
formula is unsatisfiable; otherwise derive the 1UIP clause, compute the
backjump level (maximum level of the non-UIP literals, 0 for a unit),
backtrack (clearing `is_reason` on vacated reason clauses, the
`on_pop` closure), then either assign the flipped UIP as a level-0
axiom (unit learned clause) or insert the learned clause, assign the
flipped UIP with it as reason, and mark it as a reason clause. -/
def Solver.analyzeContradiction (s : Solver) (clause : ClauseIdx) :
    Option (AnalyzeResult × Solver) :=
  match s.beforeLastDecisionPropagated with
  | none => none
  | some ok =>
  if ¬ ok then none
  else if ¬ s.unpropagatedLitPos ≤ s.trail.assignedVars then none
  else
  match s.clauseDb.get clause with
  | none => none
  | some conflictClause =>
  if ¬ conflictClause.lits.all (fun l => s.trail.isLitUnsatisfied l) then none
  else if s.trail.currentDecisionLevel = 0 then
    some (.unsat, s)
  else
  match analyzeGo s.clauseDb s.trail (s.trail.trail.length + 1)
      conflictClause.lits none s.trail.trail.length
      (AnalyzeState.reset s.trail.totalVars s.trail.currentDecisionLevel) with
  | none => none
  | some (a, uip) =>
  match s.trail.getDecisionLevel (litNeg uip) with
  | none => none
  | some lastLvl =>
  match a.newClause.mapM (fun l => s.trail.getDecisionLevel l) with
  | none => none
  | some lvls =>
  if ¬ lvls.all (fun lvl => lvl < lastLvl) then none
  else
  match s.trail.backtrack (lvls.foldl max 0) with
  | none => none
  | some (t, popped, resume) =>
  match clearPoppedReasons s.clauseDb popped with
  | none => none
  | some db =>
  let s := { s with trail := t, clauseDb := db, unpropagatedLitPos := resume }
  let uipClause := a.newClause ++ [litNeg uip]
  if uipClause.length = 1 then
    if ¬ (lvls.foldl max 0) = 0 then none
    else
      match s.trail.assignLit (litNeg uip) .axm with
      | none => none
      | some t => some (.done, { s with trail := t })
  else
    if a.levelsInClause.length = 0 then none
    else if ¬ a.levelsInClause.length = calculateLdb s.trail uipClause then none
    else
      match s.clauseDb.insertClause uipClause (some a.levelsInClause.length) with
      | (db, ci) =>
        match s.trail.assignLit (litNeg uip) (.propagated ci) with
        | none => none
        | some t =>
          match db.modify ci (fun r => { r with isReason := true }) with
          | none => none
          | some db => some (.done, { s with clauseDb := db, trail := t })

/-! ## Garbage collection (src/solver/garbage.rs)

`Solver::collect_garbage` marks removable learned clauses, compacts
the arena and rewrites every clause handle held in watch lists and
trail reasons.  The compaction follows `ClauseDB::collect_garbage` of
src/solver/garbage.rs (surviving clauses are copied in order, the
vacated slot remembers the new position, the generation counter is
bumped); at solver level the handle rewrite is the map from old to new
clause positions. -/

/-- Glue value of clause `i` of the arena (0 when absent, only used on
valid candidate indices). -/
def ClauseDB.glueAt (db : ClauseDB) (i : Nat) : Nat :=
  match db.clauses.get? i with
  | some r => r.glue.getD 0
  | none => 0

/-- Length of clause `i` of the arena. -/
def ClauseDB.lenAt (db : ClauseDB) (i : Nat) : Nat :=
  match db.clauses.get? i with
  | some r => r.lits.length
  | none => 0

/-- Comparator of `mark_garbage`'s `sort_by`: clauses with higher glue
first, ties broken by longer first (`l.ldb_glue.cmp(..).reverse()`,
then `l.range.len().cmp(..).reverse()`). -/
def gcBefore (db : ClauseDB) (i j : Nat) : Bool :=
  db.glueAt i > db.glueAt j ||
    (db.glueAt i == db.glueAt j && db.lenAt i > db.lenAt j)

/-- Stable insertion for the candidate sort (matching Rust's stable
`sort_by`). -/
def gcSortInsert (db : ClauseDB) (i : Nat) : List Nat → List Nat
  | [] => [i]
  | j :: js =>
    if gcBefore db j i then j :: gcSortInsert db i js else i :: j :: js

/-- Stable sort of the candidate indices. -/
def gcSort (db : ClauseDB) : List Nat → List Nat
  | [] => []
  | i :: is' => gcSortInsert db i (gcSort db is')

/-- Marking `Solver::mark_garbage`: candidates are clauses not yet
garbage, not a reason, with glue value above 2; after sorting (glue
descending, length descending) the first 75% are marked.  The source
computes the cutoff as `(0.75 * len as f32) as usize`, which is
exactly `3 * len / 4` for any candidate count below `2^24`. -/
def Solver.markGarbage (s : Solver) : Solver :=
  let cands := (List.range s.clauseDb.clauses.length).filter (fun i =>
    match s.clauseDb.clauses.get? i with
    | some r => !r.isGarbage && !r.isReason && (r.glue.getD 0 > 2 : Bool)
    | none => false)
  let sorted := gcSort s.clauseDb cands
  let target := 3 * sorted.length / 4
  let marked := sorted.take target
  { s with clauseDb :=
      { s.clauseDb with clauses :=
          (List.range s.clauseDb.clauses.length).map (fun i =>
            match s.clauseDb.clauses.get? i with
            | some r => if i ∈ marked then { r with isGarbage := true } else r
            | none => ⟨true, false, none, []⟩) } }

/-- New position of old clause `i` after compaction (`none` when the
clause was removed): the number of surviving clauses before it. -/
def ClauseDB.newIndexOf (db : ClauseDB) (i : Nat) : Option Nat :=
  match db.clauses.get? i with
  | none => none
  | some r =>
    if r.isGarbage then none
    else some (((db.clauses.take i).filter (fun c => !c.isGarbage)).length)

/-- Rewrite of one watch list (`retain_mut` with
`update_clause_index`): removed clauses are dropped, surviving handles
get the new position and generation.  The generation `debug_assert!`
of `update_clause_index` aborts on a stale handle. -/
def updateWatchList (oldDb : ClauseDB) (newGen : Nat) :
    List ClauseIdx → Option (List ClauseIdx)
  | [] => some []
  | w :: rest =>
    if ¬ w.generation + 1 = newGen then none
    else
      match oldDb.newIndexOf w.idx with
      | none => updateWatchList oldDb newGen rest
      | some j =>
        match updateWatchList oldDb newGen rest with
        | none => none
        | some r => some (⟨j, newGen⟩ :: r)

/-- Rewrite of the trail reasons (`Trail::update_clause_indices`):
every propagated element has its clause handle updated both in the
trail entry and in the assignment record (each through its own stored
handle, the latter via `get_cls_idx_mut`, which panics when the
record's reason is not `Propagated`); a removed reason clause fails
the `debug_assert!` in `Solver::collect_garbage`'s closure. -/
def updateTrailElems (oldDb : ClauseDB) (newGen : Nat) :
    List TrailElement → Assignment → Option (List TrailElement × Assignment)
  | [], a => some ([], a)
  | e :: rest, a =>
    match e.reason with
    | .propagated c =>
      if ¬ c.generation + 1 = newGen then none
      else
        match oldDb.newIndexOf c.idx with
        | none => none
        | some j =>
          match a.getD (litVar e.lit) none with
          | none => none
          | some d =>
            match d.reason with
            | .propagated c2 =>
              if ¬ c2.generation + 1 = newGen then none
              else
                match oldDb.newIndexOf c2.idx with
                | none => none
                | some j2 =>
                  match updateTrailElems oldDb newGen rest
                      (a.set (litVar e.lit)
                        (some { d with reason := .propagated ⟨j2, newGen⟩ })) with
                  | none => none
                  | some (tr, a') =>
                    some ({ e with reason := .propagated ⟨j, newGen⟩ } :: tr, a')
            | _ => none
    | _ =>
      match updateTrailElems oldDb newGen rest a with
      | none => none
      | some (tr, a') => some (e :: tr, a')

/-- Rewrite entry point `Trail::update_clause_indices` applied to the
whole trail. -/
def updateTrailIndices (oldDb : ClauseDB) (newGen : Nat) (t : Trail) :
    Option Trail :=
  match updateTrailElems oldDb newGen t.trail t.assignment with
  | none => none
  | some (tr, a) => some { t with trail := tr, assignment := a }

/-- Rewrite of every watch list (the `for watches in
self.watches.iter_mut()` loop of `Solver::collect_garbage`). -/
def updateAllWatchLists (oldDb : ClauseDB) (newGen : Nat) :
    Watches → Option Watches
  | [] => some []
  | lst :: rest =>
    match updateWatchList oldDb newGen lst with
    | none => none
    | some lst' =>
      match updateAllWatchLists oldDb newGen rest with
      | none => none
      | some rest' => some (lst' :: rest')

/-- Collection `Solver::collect_garbage`: mark, compact the arena
(bumping the generation), rewrite watch lists and trail reasons. -/
def Solver.collectGarbage (s : Solver) : Option Solver :=
  let s := s.markGarbage
  let oldDb := s.clauseDb
  let newDb : ClauseDB :=
    { clauses := oldDb.clauses.filter (fun r => !r.isGarbage)
      generation := oldDb.generation + 1 }
  match updateAllWatchLists oldDb newDb.generation s.watches with
  | none => none
  | some watches =>
    match updateTrailIndices oldDb newDb.generation s.trail with
    | none => none
    | some trail =>
      some { s with clauseDb := newDb, watches := watches, trail := trail }

/-- Growth of the garbage-collection limit.  The source computes
`(limit as f32 * 1.05) as u64`; the exact rounded value is irrelevant
to every claim (only the comparison direction of the trigger matters),
so the growth is modelled as `limit * 105 / 100`. -/
def growLimit (x : Nat) : Nat := x * 105 / 100

/-- Trigger `Solver::maybe_collect_garbage`, exactly as written in
src/solver/garbage.rs: it returns early when the conflicts-since-last-
collection counter has reached the limit, and otherwise resets the
counter, grows the limit and collects. -/
def Solver.maybeCollectGarbage (s : Solver) : Option Solver :=
  if s.stats.sinceGc ≥ s.limits.garbageCollectionConflicts then some s
  else
    let s := { s with
      stats := { s.stats with sinceGc := 0 }
      limits := ⟨growLimit s.limits.garbageCollectionConflicts⟩ }
    s.collectGarbage

/-! ## Solver driver and model extraction (src/solver/mod.rs) -/

/-- Test `Solver::all_vars_assigned`. -/
def Solver.allVarsAssigned (s : Solver) : Bool :=
  s.trail.assignmentComplete

/-- Model vector `Model::as_vec`: for each variable `1 ..= total_vars`,
`+i` when the positive literal is satisfied and `-i` otherwise. -/
def Trail.asVec (t : Trail) : List Int :=
  (List.range t.totalVars).map (fun k =>
    let i : Int := Int.ofNat (k + 1)
    if t.isLitSatisfied (Lit.ofInt i) then i else -i)

/-- Truth query `Model::lit`: satisfaction of the literal under the
final assignment (false for unassigned variables). -/
def modelLit (t : Trail) (i : Int) : Bool :=
  t.isLitSatisfied (Lit.ofInt i)

/-- Check `Solver::check_assignment`: every clause of the arena is
satisfied under the current assignment. -/
def Solver.checkAssignment (s : Solver) : Bool :=
  s.clauseDb.clauses.all (fun r => s.trail.isClauseSatisfied r.lits)

/-- Selection `Solver::decide`. -/
def Solver.pickDecisionVar (s : Solver) : Option Nat :=
  s.trail.findUnassignedVariable

/-- Result of one iteration of the main `solve` loop. -/
inductive StepResult where
  | continueLoop (s : Solver)
  | satFound (m : List Int) (s : Solver)
  | unsatFound (s : Solver)
deriving DecidableEq, Repr

/-- One iteration of the `loop` in `Solver::solve`: propagate; on a
contradiction analyze (level-0 conflict means Unsat, otherwise
continue); when all variables are assigned check the assignment
(a release-mode `assert!`) and return Sat; otherwise run the garbage
collection hook and make the next decision (a missing decision
candidate is `unreachable!`). -/
def Solver.solveStep (s : Solver) (fuel : Nat) : Res StepResult :=
  match s.propagate fuel with
  | .crashed => .crashed
  | .fuelOut => .fuelOut
  | .ok (.contradiction c, s) =>
    match s.analyzeContradiction c with
    | none => .crashed
    | some (.unsat, s) => .ok (.unsatFound s)
    | some (.done, s) => .ok (.continueLoop s)
  | .ok (.done, s) =>
    if s.allVarsAssigned then
      let m := s.trail.asVec
      if s.checkAssignment then .ok (.satFound m s) else .crashed
    else
      match s.maybeCollectGarbage with
      | none => .crashed
      | some s =>
        match s.pickDecisionVar with
        | none => .crashed
        | some v =>
          match s.trail.assignLit (varLit v) .decision with
          | none => .crashed
          | some t => .ok (.continueLoop { s with trail := t })

/-- Observable outcome of `Solver::solve`. -/
inductive SolveOutcome where
  | sat (m : List Int)
  | unsat
  | crashed
  | fuelOut
deriving DecidableEq, Repr

/-- Main loop of `Solver::solve`. -/
def Solver.solveLoop : Nat → Solver → SolveOutcome
  | 0, _ => .fuelOut
  | fuel + 1, s =>
    match s.solveStep (fuel + 1) with
    | .crashed => .crashed
    | .fuelOut => .fuelOut
    | .ok (.satFound m _) => .sat m
    | .ok (.unsatFound _) => .unsat
    | .ok (.continueLoop s') => Solver.solveLoop fuel s'

/-- Entry `Solver::solve`: a trivially unsatisfiable formula returns
Unsat before the loop (and before any propagation). -/
def Solver.solve (s : Solver) (fuel : Nat) : SolveOutcome :=
  if s.triviallyUnsat then .unsat else Solver.solveLoop fuel s

/-- Whole pipeline: ingest a formula and solve it. -/
def runSolve (F : List (List Int)) (fuel : Nat) : SolveOutcome :=
  match solverFromList F with
  | none => .crashed
  | some s => s.solve fuel

/-- Iterated `solveStep`, exposing the solver state after `n` outer
loop iterations (a finished or aborted run stops early). -/
def solveSteps : Nat → Nat → Solver → Res Solver
  | 0, _, s => .ok s
  | n + 1, fuel, s =>
    match s.solveStep fuel with
    | .ok (.continueLoop s') => solveSteps n fuel s'
    | .ok (.satFound _ s') => .ok s'
    | .ok (.unsatFound s') => .ok s'
    | .crashed => .crashed
    | .fuelOut => .fuelOut

/-! ## Word-level clause arena (src/solver/clause.rs)

Faithful model of the flat `Vec<u32>` buffer: every clause occupies
`[flags][length][lbd_glue][lit_0 .. lit_{len-1}]`; the flags word has
the most significant bit set (`CLAUSE_BEGIN_SENTINEL`).  The
`#[cfg(debug_assertions)]` generation machinery does not exist in a
release build and is omitted here; `assert_valid_offset` is a plain
`assert!` and is modelled. -/

/-- Sentinel bit `CLAUSE_BEGIN_SENTINEL` (`1 << 31`). -/
def SENTINEL_BIT : Nat := 2 ^ 31

/-- Flag bit `IS_GARBAGE` (`1 << 0`). -/
def GARBAGE_BIT : Nat := 1

/-- Value `u32::MAX`, the `REMOVED` marker written into the vacated
length word of a collected clause. -/
def U32_MAX : Nat := 2 ^ 32 - 1

/-- Word-level clause arena (`ClauseDB`): the live buffer and the
retired one kept for handle rewriting. -/
structure WClauseDB where
  clauseData : List Nat
  clauseDataOld : List Nat
deriving DecidableEq, Repr

/-- Check `ClauseDB::assert_valid_offset`: the word at the offset must
carry the sentinel bit (a release-mode `assert!`). -/
def wValidOffset (data : List Nat) (offset : Nat) : Bool :=
  match data.get? offset with
  | some w => w / SENTINEL_BIT % 2 == 1
  | none => false

/-- Insertion `ClauseDB::insert_clause` at word level: push the flags
word (sentinel only), the length, the glue (0 encodes `None`), then
the literals; the returned handle is the starting offset. -/
def WClauseDB.insertClause (db : WClauseDB) (lits : List Nat) (glue : Nat) :
    WClauseDB × Nat :=
  ({ db with clauseData :=
      db.clauseData ++ [SENTINEL_BIT, lits.length, glue] ++ lits },
   db.clauseData.length)

/-- View of a clause (`ClauseDB::get`): flags word, length, glue word
and literal list, after the validity check. -/
def WClauseDB.get (db : WClauseDB) (offset : Nat) :
    Option (Nat × Nat × Nat × List Nat) :=
  if wValidOffset db.clauseData offset then
    match db.clauseData.get? offset, db.clauseData.get? (offset + 1),
        db.clauseData.get? (offset + 2) with
    | some fl, some len, some glue =>
      if offset + 3 + len ≤ db.clauseData.length then
        some (fl, len, glue, (db.clauseData.drop (offset + 3)).take len)
      else none
    | _, _, _ => none
  else none

/-- Marking helper: set the `IS_GARBAGE` bit of the flags word at an
offset (`flags().set_is_garbage(true)` through `get_mut`). -/
def WClauseDB.setGarbage (db : WClauseDB) (offset : Nat) : WClauseDB :=
  match db.clauseData.get? offset with
  | some w =>
    { db with clauseData :=
        db.clauseData.set offset (if w % 2 == 1 then w else w + GARBAGE_BIT) }
  | none => db

/-- Walk of `ClauseDB::collect_garbage` (src/solver/clause.rs): at each
clause, compute its data range and advance; a garbage clause gets
`u32::MAX` written into its length word; a surviving clause first gets
the new offset written into its length word and is then copied —
including the just-overwritten length word — into the new arena.  The
walk consumes at least three words per step, so fuel `buffer length`
suffices. -/
def wCollectGo : Nat → Nat → List Nat → List Nat → (List Nat × List Nat)
  | 0, _, old, new => (old, new)
  | fuel + 1, pos, old, new =>
    if pos < old.length then
      let len := old.getD (pos + 1) 0
      let rangeLen := 3 + len
      let isGarbage := old.getD pos 0 % 2 == 1
      if isGarbage then
        wCollectGo fuel (pos + rangeLen) (old.set (pos + 1) U32_MAX) new
      else
        let newOffset := new.length
        let old := old.set (pos + 1) newOffset
        let new := new ++ ((old.drop pos).take rangeLen)
        wCollectGo fuel (pos + rangeLen) old new
    else (old, new)

/-- Collection `ClauseDB::collect_garbage`: run the walk on the live
buffer (the new arena starts cleared) and swap the buffers. -/
def WClauseDB.collectGarbage (db : WClauseDB) : WClauseDB :=
  let (old, new) := wCollectGo db.clauseData.length 0 db.clauseData []
  { clauseData := new, clauseDataOld := old }

/-- Rewrite `ClauseDB::update_old_clause_index`: check the old buffer
still has a clause at the offset, read the forwarding value from its
length word; `u32::MAX` signals deletion (`some none`), otherwise the
handle moves to the recorded new offset.  The outer `none` is the
failed `assert_valid_offset`. -/
def WClauseDB.updateOldClauseIndex (db : WClauseDB) (offset : Nat) :
    Option (Option Nat) :=
  if wValidOffset db.clauseDataOld offset then
    match db.clauseDataOld.get? (offset + 1) with
    | some newPos => if newPos = U32_MAX then some none else some (some newPos)
    | none => none
  else none

/-! ## DIMACS clause splitting (src/dimacs.rs)

`Dimacs::parse` works line by line: comment (`c`) and header (`p`)
lines and blank lines are skipped; on every other line the
whitespace-separated integers are parsed and the zeros are filtered
out (`filter(|n| !matches!(n, Ok(0)))`); each line yields exactly one
clause.  Tokenization and integer-parse failures are abstracted: a
line is modelled as its kind plus its parsed tokens. -/

/-- One input line, already tokenized. -/
inductive DimacsLine where
  | comment
  | header
  | lits (ns : List Int)
deriving DecidableEq, Repr

/-- Clause extraction of `Dimacs::parse`: blank, comment and header
lines are dropped; every other line becomes one clause consisting of
its non-zero integers in order. -/
def dimacsParse (ls : List DimacsLine) : List (List Int) :=
  ls.filterMap (fun line =>
    match line with
    | .comment => none
    | .header => none
    | .lits ns => if ns = [] then none else some (ns.filter (· ≠ 0)))

/-! ## Statement helpers and concrete demonstration states -/

/-- Truth of an integer literal under a model vector as returned by
`Model::as_vec`: the entry for its variable is the literal itself. -/
def litTrueUnderModel (m : List Int) (i : Int) : Prop :=
  m.get? (i.natAbs - 1) = some i

/-- Number of occurrences of a clause handle across all watch lists. -/
def watchOccurrences (w : Watches) (ci : ClauseIdx) : Nat :=
  (w.map (fun lst => lst.count ci)).sum

/-- Decidable check of spec invariant 3 (claim C2) on a solver state:
every trail literal with a `Propagated` reason is the first literal of
its reason clause. -/
def reasonFirstLitOk (s : Solver) : Bool :=
  s.trail.trail.all (fun e =>
    match e.reason with
    | .propagated ci =>
      match s.clauseDb.get ci with
      | some r => r.lits.get? 0 == some e.lit
      | none => false
    | _ => true)

/-- Success test of an iterated run. -/
def solveStepsOk (n fuel : Nat) (s : Solver) : Bool :=
  match solveSteps n fuel s with
  | .ok _ => true
  | _ => false

/-- State of an iterated run (initial solver when it aborted). -/
def stepState (n fuel : Nat) (s : Solver) : Solver :=
  match solveSteps n fuel s with
  | .ok s' => s'
  | _ => Solver.initial

/-- Demonstration formula: two clauses forcing a conflict at decision
level 2 whose 1UIP analysis learns the two-literal clause `¬1 ∨ ¬2`. -/
def demoF : List (List Int) := [[-1, -2, 3], [-2, -3]]

/-- Solver after ingesting `demoF`. -/
def demoStart : Solver := (solverFromList demoF).getD Solver.initial

/-- Solver after one input clause `1 ∨ 2`, used to demonstrate the
garbage-collection trigger. -/
def gcDemo : Solver := (solverFromList [[1, 2]]).getD Solver.initial

/-- Solver after ingesting the single unit clause `1`. -/
def unitDemo : Solver := (Solver.initial.addClause [1]).getD Solver.initial

/-- Word-level arena holding the clauses `[4, 6]` (offset 0) and
`[8, 10, 12]` (offset 5), with the first marked garbage. -/
def wdemoBefore : WClauseDB :=
  (((WClauseDB.mk [] []).insertClause [4, 6] 0).1.insertClause [8, 10, 12] 0).1.setGarbage 0

/-- The same arena after `collect_garbage`. -/
def wdemoAfter : WClauseDB := wdemoBefore.collectGarbage

/-- Variant of `gcDemo` whose conflicts-since-last-collection counter
is far above the limit. -/
def gcDemoHigh : Solver :=
  { gcDemo with stats := { contradictions := 5000, propagations := 0, sinceGc := 5000 } }

/-- Conflict state of the demonstration run: the solver and the
conflicting clause handle produced by unit propagation in the third
outer iteration on `demoF`. -/
def demoAnalyzeInput : Solver × ClauseIdx :=
  match (stepState 2 100 demoStart).propagate 100 with
  | .ok (.contradiction c, s) => (s, c)
  | _ => (Solver.initial, ⟨0, 0⟩)

/-- Solver state produced by analyzing that conflict. -/
def demoAnalyzeOutput : Solver :=
  match demoAnalyzeInput.1.analyzeContradiction demoAnalyzeInput.2 with
  | some (.done, s') => s'
  | _ => Solver.initial

/-- Well-formedness of the trail: decision positions point strictly
increasingly into the trail; every trail entry's variable is assigned
with matching polarity and reason, its stored decision level bounded
by the decision count and characterized by its position relative to
each decision position; trail entries carry distinct variables; and
every assigned variable has a trail entry. -/
structure TrailWf (t : Trail) : Prop where
  posLt : ∀ p ∈ t.decisionPositions, p < t.trail.length
  posSorted : t.decisionPositions.Pairwise (· < ·)
  slotMatch : ∀ j e, t.trail.get? j = some e →
    ∃ d, t.assignment.getD (litVar e.lit) none = some d ∧
      d.status = litIsPos e.lit ∧ d.reason = e.reason ∧
      d.decisionLevel ≤ t.decisionPositions.length ∧
      ∀ lvl p, t.decisionPositions.get? lvl = some p →
        (j < p ↔ d.decisionLevel ≤ lvl)
  distinctVars : (t.trail.map (fun e => litVar e.lit)).Nodup
  assignedHasEntry : ∀ v d, t.assignment.getD v none = some d →
    ∃ j e, t.trail.get? j = some e ∧ litVar e.lit = v


/-- Integer form of an encoded literal (inverse of `Lit.ofInt` on valid
literals): `+var` for a positive literal, `-var` for a negative one. -/
def intOfLit (l : Nat) : Int :=
  if litIsPos l then (litVar l : Int) else -(litVar l : Int)

/-- Property of one non-asserted literal of a reason clause: it is
unsatisfied and its variable's recorded decision level is at most
`lvl` (the level of the propagated literal). -/
def OtherLitOk (t : Trail) (lvl : Nat) (lk : Nat) : Prop :=
  t.isLitUnsatisfied lk = true ∧
  ∃ dk, t.assignment.getD (litVar lk) none = some dk ∧ dk.decisionLevel ≤ lvl

/-- Reason-clause obligation of a propagated trail element: the handle
is current, the clause exists and has at least two literals, the
element's literal sits at index 0 for an input clause (no LBD glue) and
at the last index for a learned clause (LBD glue recorded), and every
other literal is unsatisfied at a level bounded by the element's
level. -/
def ReasonObl (db : ClauseDB) (t : Trail) (e : TrailElement)
    (ci : ClauseIdx) : Prop :=
  ci.generation = db.generation ∧
  ∃ r d, db.clauses.get? ci.idx = some r ∧
    t.assignment.getD (litVar e.lit) none = some d ∧
    2 ≤ r.lits.length ∧
    (r.glue = none → r.lits.get? 0 = some e.lit) ∧
    (r.glue ≠ none → r.lits.get? (r.lits.length - 1) = some e.lit) ∧
    ∀ k lk, r.lits.get? k = some lk →
      (r.glue = none → k ≠ 0 → OtherLitOk t d.decisionLevel lk) ∧
      (r.glue ≠ none → k ≠ r.lits.length - 1 → OtherLitOk t d.decisionLevel lk)

/-- Validity of a watch-list entry: the handle carries the current
generation and points to a clause without LBD glue (an input clause;
learned clauses are never watched). -/
def WatchOk (db : ClauseDB) (ci : ClauseIdx) : Prop :=
  ci.generation = db.generation ∧
  ∃ r, db.clauses.get? ci.idx = some r ∧ r.glue = none

/-- Global well-formedness of the solver's mutable state: the trail is
well formed, the assignment store has the fixed size `V`, every watch
entry is valid, and every propagated trail element carries its
reason-clause obligation. -/
structure Inv (V : Nat) (db : ClauseDB) (t : Trail) (w : Watches) : Prop where
  wf : TrailWf t
  alen : t.assignment.length = V
  watchOk : ∀ lst ∈ w, ∀ ci ∈ lst, WatchOk db ci
  reasons : ∀ e ∈ t.trail, ∀ ci, e.reason = .propagated ci → ReasonObl db t e ci

/-- The invariant assembled on a solver state. -/
def SolverInv (V : Nat) (s : Solver) : Prop :=
  Inv V s.clauseDb s.trail s.watches

/-- Persistent level-0 assignment of a unit input clause's literal. -/
def unitSlot (t : Trail) (l : Nat) : Prop :=
  ∃ d, t.assignment.getD (litVar l) none = some d ∧
    d.status = litIsPos l ∧ d.decisionLevel = 0

/-- Persistent presence of a normalized input clause in the arena: an
unremovable record (no glue, not marked garbage) holding a permutation
of its literals. -/
def bigPresent (db : ClauseDB) (C : List Nat) : Prop :=
  ∃ i r, db.clauses.get? i = some r ∧ r.glue = none ∧ r.isGarbage = false ∧
    r.lits.Perm C

/-- Level profile of a trail: the decision positions followed by the
trail length.  Each outer solver loop iteration strictly increases this
sequence lexicographically, which bounds the number of iterations. -/
def Trail.levelSeq (t : Trail) : List Nat :=
  t.decisionPositions ++ [t.trail.length]

/-- Value of a digit list read as a base-`B` numeral. -/
def digitsVal (B : Nat) (ds : List Nat) : Nat :=
  ds.foldl (fun acc d => acc * B + d) 0

/-- Value of a level sequence padded with zero digits to `K + 1`
entries (real entries are shifted by one so that they dominate the
padding). -/
def seqVal (B K : Nat) (seq : List Nat) : Nat :=
  digitsVal B (seq.map (· + 1) ++ List.replicate (K + 1 - seq.length) 0)

/-- Termination measure of a solver state over `V` variables. -/
def solveMeasure (V : Nat) (s : Solver) : Nat :=
  seqVal (V + 3) (V + 1) s.trail.levelSeq

/-- Ingested solver for the reachable-state demonstration formula
`[[1], [-1, 2]]` (a unit clause and a binary clause). -/
def c2S0 : Solver := (solverFromList [[1], [-1, 2]]).getD Solver.initial

/-- State of that run after one outer loop iteration. -/
def c2S1 : Solver :=
  match solveSteps 1 20 c2S0 with
  | .ok s => s
  | _ => Solver.initial

/-! # Theorems -/

/-- C4 (code bug): `maybe_collect_garbage` triggers exactly backwards.
After ingesting one clause the solver has 0 conflicts since the last
reduction and the initial limit 3000, yet `maybe_collect_garbage`
performs a full reduction (visible in the bumped arena generation);
with the counter at 5000 — far beyond the limit — it does nothing.
The guard reads `if count >= limit { return; }`, the inverse of its
own doc comment ("Checks if garbage collection limit is reached, and
if so, will collect garbage clauses"), and the counter
`contradiction_since_last_garbage_collections` is never incremented
anywhere in the crate. -/
theorem c4_gc_trigger_inverted :
    gcDemo.stats.sinceGc = 0 ∧
    gcDemo.limits.garbageCollectionConflicts = 3000 ∧
    gcDemo.clauseDb.generation = 0 ∧
    gcDemo.maybeCollectGarbage.map (fun s => s.clauseDb.generation) = some 1 ∧
    gcDemoHigh.maybeCollectGarbage = some gcDemoHigh :=
  ⟨rfl, rfl, rfl, rfl, rfl⟩

/-- C8 (code bug): the word-level `ClauseDB::collect_garbage` writes
the forwarding offset into the *length word* of a surviving clause
*before* copying the slot into the new arena, so the copy carries the
new offset (here 0) instead of its length.  On the demonstration
arena: before collection the live clause at offset 5 reads literals
`[8, 10, 12]`; after collection the garbage clause's old slot holds
the `u32::MAX` removal marker and its rewrite signals deletion, the
live clause's rewrite "succeeds" with new offset 0, but the clause
found there now has length word 0 and reads no literals at all. -/
theorem c8_compaction_corrupts_surviving_clause :
    (wdemoBefore.get 5).map (fun v => v.2.2.2) = some [8, 10, 12] ∧
    wdemoAfter.updateOldClauseIndex 0 = some none ∧
    wdemoAfter.clauseDataOld.get? 1 = some U32_MAX ∧
    wdemoAfter.updateOldClauseIndex 5 = some (some 0) ∧
    (wdemoAfter.get 0).map (fun v => v.2.2.2) = some ([] : List Nat) ∧
    (wdemoAfter.get 0).map (fun v => v.2.1) = some 0 :=
  ⟨rfl, rfl, rfl, rfl, rfl, rfl⟩

/-- C7 (counterexample): `Dimacs::parse` does not treat `0` as a
clause terminator.  A mid-line `0` is simply discarded — the line
`1 0 2 0` yields the single clause `[1, 2]` instead of the two clauses
`[1]` and `[2]` — and a clause never spans lines: `1 2` followed by
`3 0` yields two clauses instead of the single wrapped clause. -/
theorem c7_counterexample_zero_not_terminator :
    dimacsParse [.lits [1, 0, 2, 0]] = [[1, 2]] ∧
    (dimacsParse [.lits [1, 0, 2, 0]]).length = 1 ∧
    dimacsParse [.lits [1, 2], .lits [3, 0]] = [[1, 2], [3]] :=
  ⟨rfl, rfl, rfl⟩

/-- C2 (counterexample): after the third outer loop iteration on the
formula `(¬1 ∨ ¬2 ∨ 3) ∧ (¬2 ∨ ¬3)`, the trail holds the flipped UIP
literal `¬2` (encoded 5) with reason `Propagated(handle 2)`, but the
learned reason clause stores `[¬1, ¬2]` (encoded `[3, 5]`): its first
literal is `¬1`, not the propagated literal — the invariant claimed
for "the flipped UIP literal assigned after conflict analysis with a
learned clause of length ≥ 2 as its reason" fails on the code. -/
theorem c2_counterexample_uip_reason_not_first :
    solveStepsOk 3 100 demoStart = true ∧
    reasonFirstLitOk (stepState 3 100 demoStart) = false ∧
    (stepState 3 100 demoStart).trail.trail.get? 1 =
      some ⟨5, .propagated ⟨2, 2⟩⟩ ∧
    ((stepState 3 100 demoStart).clauseDb.get ⟨2, 2⟩).map
      (fun r => (r.glue, r.lits)) = some (some 2, [3, 5]) :=
  ⟨rfl, rfl, rfl, rfl⟩

/-- C3 (counterexample): in the same reachable state the learned
two-literal clause (handle 2, glue 2) stores the flipped UIP literal
at index 1 — index 0 holds the backjump-level literal, the opposite of
the claimed arrangement — and no watches were registered for it: it
occurs zero times across all watch lists, not twice. -/
theorem c3_counterexample_learned_clause_unwatched :
    solveStepsOk 3 100 demoStart = true ∧
    ((stepState 3 100 demoStart).clauseDb.get ⟨2, 2⟩).map (fun r => r.lits) =
      some [3, 5] ∧
    (stepState 3 100 demoStart).trail.trail.getLast? =
      some ⟨5, .propagated ⟨2, 2⟩⟩ ∧
    ¬ ((stepState 3 100 demoStart).clauseDb.get ⟨2, 2⟩).map
        (fun r => r.lits.get? 0) = some (some 5) ∧
    watchOccurrences (stepState 3 100 demoStart).watches ⟨2, 2⟩ = 0 := by
  refine ⟨rfl, rfl, rfl, ?_, rfl⟩
  decide

/-! ## Helper lemmas about the assignment store and trail -/

theorem Assignment.getD_get? (a : Assignment) (i : Nat) :
    a.getD i none = (a.get? i).getD none := by
  induction a generalizing i with
  | nil => cases i <;> rfl
  | cons x xs ih => cases i with
    | zero => rfl
    | succ n => simpa using ih n

theorem Assignment.expand_getD (a : Assignment) (v i : Nat) :
    (a.expand v).getD i none = a.getD i none := by
  unfold Assignment.expand
  split
  · rw [Assignment.getD_get?, Assignment.getD_get?]
    rcases Nat.lt_or_ge i a.length with h | h
    · rw [List.get?_append h]
    · rw [List.get?_append_right h]
      have h2 : a.get? i = none := List.get?_eq_none.mpr h
      rw [h2]
      rcases hrep : (List.replicate (v + 1 - a.length)
          (none : Option AssignData)).get? (i - a.length) with _ | x
      · simp [hrep]
      · have hx : x = none :=
          List.eq_of_mem_replicate (List.get?_mem hrep)
        simp [hrep, hx]
  · rfl

theorem Assignment.expand_isLitUnsatisfied (a : Assignment) (v l : Nat) :
    (a.expand v).isLitUnsatisfied l = a.isLitUnsatisfied l := by
  simp only [Assignment.isLitUnsatisfied, Assignment.get, Assignment.expand_getD]



theorem Trail.expand_unsat (t : Trail) (v l : Nat) :
    (t.expand v).isLitUnsatisfied l = t.isLitUnsatisfied l := by
  simp only [Trail.expand, Trail.isLitUnsatisfied, Assignment.expand_isLitUnsatisfied]

theorem Assignment.getD_set_self (a : Assignment) (i : Nat) (d : Option AssignData)
    (h : i < a.length) : (a.set i d).getD i none = d := by
  rw [Assignment.getD_get?, List.get?_set_eq]
  simp [h]

theorem Assignment.assignLit_store_eq {a : Assignment} {l lvl : Nat}
    {r : TrailReason} {a' : Assignment}
    (h : a.assignLit l lvl r = some a') :
    litVar l < a.length ∧ a.getD (litVar l) none = none ∧
      a' = a.set (litVar l) (some ⟨litIsPos l, lvl, r⟩) := by
  unfold Assignment.assignLit at h
  split at h
  · rename_i hlen
    split at h
    · exact absurd h (by simp)
    · rename_i hnone
      exact ⟨hlen, hnone, (Option.some.inj h).symm⟩
  · exact absurd h (by simp)

theorem Trail.assignLit_eq_some {t : Trail} {l : Nat} {r : TrailReason}
    {t' : Trail} (h : t.assignLit l r = some t') :
    t'.trail = t.trail ++ [⟨l, r⟩] ∧
    t'.decisionPositions =
      (if r = .decision then t.decisionPositions ++ [t.trail.length]
       else t.decisionPositions) ∧
    litVar l < t.assignment.length ∧
    t.assignment.getD (litVar l) none = none ∧
    t'.assignment = t.assignment.set (litVar l)
      (some ⟨litIsPos l, t'.decisionPositions.length, r⟩) := by
  unfold Trail.assignLit at h
  simp only [List.length_append, List.length_singleton, Nat.add_sub_cancel] at h
  rcases ha : t.assignment.assignLit l
      (if r = TrailReason.decision then t.decisionPositions ++ [t.trail.length]
       else t.decisionPositions).length r with _ | a'
  · rw [ha] at h
    cases h
  · rw [ha] at h
    obtain ⟨hl, hn, he⟩ := Assignment.assignLit_store_eq ha
    cases h
    exact ⟨rfl, rfl, hl, hn, by simpa using he⟩

/-! ## Helper lemmas about the clause arena, conflict analysis and watches -/

theorem ClauseDB.modify_spec {db : ClauseDB} {ci : ClauseIdx}
    {f : ClauseRec → ClauseRec} {db' : ClauseDB}
    (h : db.modify ci f = some db') :
    db'.generation = db.generation ∧
    db'.clauses.length = db.clauses.length ∧
    ∃ r, db.clauses.get? ci.idx = some r ∧
      db'.clauses = db.clauses.set ci.idx (f r) := by
  unfold ClauseDB.modify at h
  rcases hg : db.get ci with _ | r
  · rw [hg] at h
    cases h
  · rw [hg] at h
    cases h
    unfold ClauseDB.get at hg
    split at hg
    · exact ⟨rfl, by simp, r, hg, rfl⟩
    · cases hg

theorem clearPoppedReasons_spec :
    ∀ (popped : List TrailElement) (db db' : ClauseDB),
      clearPoppedReasons db popped = some db' →
      db'.generation = db.generation ∧
      db'.clauses.length = db.clauses.length := by
  intro popped
  induction popped with
  | nil =>
    intro db db' h
    cases h
    exact ⟨rfl, rfl⟩
  | cons e rest ih =>
    intro db db' h
    unfold clearPoppedReasons at h
    rcases he : e.reason with _ | c | _
    · simp only [he] at h
      exact ih db db' h
    · simp only [he] at h
      rcases hm : db.modify c (fun r => { r with isReason := false }) with _ | db1
      · rw [hm] at h
        cases h
      · rw [hm] at h
        obtain ⟨hg, hl, _⟩ := ClauseDB.modify_spec hm
        obtain ⟨hg', hl'⟩ := ih db1 db' h
        exact ⟨hg'.trans hg, hl'.trans hl⟩
    · simp only [he] at h
      exact ih db db' h




theorem set_concat_length (xs : List ClauseRec) (a b : ClauseRec) :
    (xs ++ [a]).set xs.length b = xs ++ [b] := by
  induction xs with
  | nil => rfl
  | cons x t ih => simpa using ih

theorem analyzeContradiction_done_spec {s : Solver} {c : ClauseIdx} {s' : Solver}
    (h : s.analyzeContradiction c = some (.done, s')) :
    s'.watches = s.watches ∧
    (s'.clauseDb.clauses.length = s.clauseDb.clauses.length + 1 →
      ∃ r, s'.clauseDb.clauses.getLast? = some r ∧ 2 ≤ r.lits.length ∧
        r.isReason = true ∧
        ∃ e, s'.trail.trail.getLast? = some e ∧
          r.lits.getLast? = some e.lit ∧
          e.reason = TrailReason.propagated
            ⟨s.clauseDb.clauses.length, s.clauseDb.generation⟩) := by
  unfold Solver.analyzeContradiction at h
  rcases h0 : s.beforeLastDecisionPropagated with _ | ok
  · simp [h0] at h
  cases ok with
  | false => simp [h0] at h
  | true =>
  simp only [h0] at h
  rw [if_neg (by simp)] at h
  by_cases hub : ¬ s.unpropagatedLitPos ≤ s.trail.assignedVars
  · rw [if_pos hub] at h; cases h
  rw [if_neg hub] at h
  rcases h1 : s.clauseDb.get c with _ | confl
  · simp [h1] at h
  simp only [h1] at h
  by_cases hall : ¬ (confl.lits.all fun l => s.trail.isLitUnsatisfied l) = true
  · rw [if_pos hall] at h; cases h
  rw [if_neg hall] at h
  by_cases hlvl0 : s.trail.currentDecisionLevel = 0
  · rw [if_pos hlvl0] at h; simp at h
  rw [if_neg hlvl0] at h
  rcases h2 : analyzeGo s.clauseDb s.trail (s.trail.trail.length + 1)
      confl.lits none s.trail.trail.length
      (AnalyzeState.reset s.trail.totalVars s.trail.currentDecisionLevel)
      with _ | au
  · simp [h2] at h
  simp only [h2] at h
  obtain ⟨a, uip⟩ := au
  rcases h3 : s.trail.getDecisionLevel (litNeg uip) with _ | lastLvl
  · simp [h3] at h
  simp only [h3] at h
  rcases h4 : a.newClause.mapM (fun l => s.trail.getDecisionLevel l)
      with _ | lvls
  · rw [h4] at h
    exact absurd h (by simp)
  simp only [h4] at h
  by_cases h5 : ¬ (lvls.all fun lvl => decide (lvl < lastLvl)) = true
  · rw [if_pos h5] at h; cases h
  rw [if_neg h5] at h
  rcases h6 : s.trail.backtrack (lvls.foldl max 0) with _ | tpr
  · simp [h6] at h
  simp only [h6] at h
  obtain ⟨t, popped, resume⟩ := tpr
  rcases h7 : clearPoppedReasons s.clauseDb popped with _ | db
  · simp [h7] at h
  simp only [h7] at h
  obtain ⟨hg7, hl7⟩ := clearPoppedReasons_spec _ _ _ h7
  by_cases h8 : (a.newClause ++ [litNeg uip]).length = 1
  · rw [if_pos h8] at h
    by_cases h9 : ¬ List.foldl max 0 lvls = 0
    · rw [if_pos h9] at h
      exact absurd h (by simp)
    rw [if_neg h9] at h
    rcases h10 : t.assignLit (litNeg uip) TrailReason.axm with _ | t2
    · rw [h10] at h
      exact absurd h (by simp)
    simp only [h10] at h
    cases h
    refine ⟨rfl, ?_⟩
    intro hlen
    simp only at hlen
    omega
  · rw [if_neg h8] at h
    by_cases h11 : a.levelsInClause.length = 0
    · rw [if_pos h11] at h
      exact absurd h (by simp)
    rw [if_neg h11] at h
    by_cases h12 : ¬ a.levelsInClause.length =
        calculateLdb t (a.newClause ++ [litNeg uip])
    · rw [if_pos h12] at h
      exact absurd h (by simp)
    rw [if_neg h12] at h
    rcases h13 : t.assignLit (litNeg uip)
        (TrailReason.propagated (db.insertClause (a.newClause ++ [litNeg uip])
          (some a.levelsInClause.length)).2) with _ | t2
    · rw [h13] at h
      exact absurd h (by simp)
    simp only [h13] at h
    rcases h14 : ((db.insertClause (a.newClause ++ [litNeg uip])
        (some a.levelsInClause.length)).1).modify
        ((db.insertClause (a.newClause ++ [litNeg uip])
          (some a.levelsInClause.length)).2)
        (fun r => { r with isReason := true }) with _ | db3
    · rw [h14] at h
      exact absurd h (by simp)
    simp only [h14] at h
    cases h
    refine ⟨rfl, ?_⟩
    intro _
    obtain ⟨hg14, hl14, r0, hr0, hdb3⟩ := ClauseDB.modify_spec h14
    simp only [ClauseDB.insertClause] at hr0 hdb3
    have hnew : (db.clauses ++
        [ClauseRec.mk false false (some a.levelsInClause.length)
          (a.newClause ++ [litNeg uip])]).get? db.clauses.length =
        some (ClauseRec.mk false false (some a.levelsInClause.length)
          (a.newClause ++ [litNeg uip])) := List.get?_concat_length _ _
    rw [hnew] at hr0
    cases hr0
    rw [set_concat_length] at hdb3
    obtain ⟨htr2, _, _, _, _⟩ := Trail.assignLit_eq_some h13
    refine ⟨⟨false, true, some a.levelsInClause.length,
      a.newClause ++ [litNeg uip]⟩, ?_, ?_, rfl, ?_⟩
    · simp only [hdb3]
      exact List.getLast?_concat _
    · simp only [List.length_append, List.length_singleton]
      have h8' : (a.newClause ++ [litNeg uip]).length ≠ 1 := h8
      simp only [List.length_append, List.length_singleton] at h8'
      omega
    · refine ⟨⟨litNeg uip, TrailReason.propagated
        (db.insertClause (a.newClause ++ [litNeg uip])
          (some a.levelsInClause.length)).2⟩, ?_, ?_, ?_⟩
      · simp only [htr2]
        exact List.getLast?_concat _
      · exact List.getLast?_concat _
      · simp only [ClauseDB.insertClause]
        rw [hl7, hg7]

theorem watchOccurrences_set {w : Watches} {i : Nat} {lst : List ClauseIdx}
    (v : List ClauseIdx) (h : w.get? i = some lst) (ci : ClauseIdx) :
    watchOccurrences (w.set i v) ci + lst.count ci =
      watchOccurrences w ci + v.count ci := by
  induction w generalizing i with
  | nil => cases h
  | cons x xs ih =>
    cases i with
    | zero =>
      cases h
      simp only [List.set, watchOccurrences, List.map_cons, List.sum_cons]
      omega
    | succ n =>
      have := ih (i := n) h
      simp only [List.set, watchOccurrences, List.map_cons, List.sum_cons]
      simp only [watchOccurrences] at this
      omega

theorem Watches.push_spec {w : Watches} {i : Nat} {ci : ClauseIdx} {w' : Watches}
    (h : w.push i ci = some w') :
    watchOccurrences w' ci = watchOccurrences w ci + 1 ∧
    (∃ lst, w'.get? i = some lst ∧ ci ∈ lst) ∧
    (∀ j lst, w.get? j = some lst → ci ∈ lst →
      ∃ lst', w'.get? j = some lst' ∧ ci ∈ lst') := by
  unfold Watches.push at h
  rcases hg : w.get? i with _ | lst
  · rw [hg] at h; cases h
  · rw [hg] at h
    cases h
    have hcount := watchOccurrences_set (lst ++ [ci]) hg ci
    have hc2 : (lst ++ [ci]).count ci = lst.count ci + 1 := by simp
    rw [hc2] at hcount
    refine ⟨by omega, ?_, ?_⟩
    · refine ⟨lst ++ [ci], ?_, by simp⟩
      rw [List.get?_set_eq, hg]
      rfl
    · intro j lst' hj hmem
      by_cases hij : i = j
      · subst hij
        refine ⟨lst ++ [ci], ?_, by simp⟩
        rw [List.get?_set_eq, hg]
        rfl
      · exact ⟨lst', by rw [List.get?_set_ne _ _ hij]; exact hj, hmem⟩

theorem watchOccurrences_expand (w : Watches) (l : Nat) (ci : ClauseIdx) :
    watchOccurrences (w.expand l) ci = watchOccurrences w ci := by
  unfold Watches.expand
  split
  · simp only [watchOccurrences, List.map_append, List.sum_append, List.map_replicate]
    simp
  · rfl

theorem Watches.expand_get? {w : Watches} {j : Nat} {lst : List ClauseIdx}
    (l : Nat) (h : w.get? j = some lst) : (w.expand l).get? j = some lst := by
  unfold Watches.expand
  split
  · rw [List.get?_append (List.get?_eq_some.mp h).1]
    exact h
  · exact h

theorem addClause_big_spec {s : Solver} {ints : List Int} {cls : List Nat}
    {s' : Solver} {l0 l1 : Nat} {t0 : List Nat}
    (hmap : ints.mapM
      (fun i => if litNewOk i then some (Lit.ofInt i) else none) = some cls)
    (hrun : s.addClause ints = some s')
    (htaut : (normaliseClause cls).2 = false)
    (hcons : (normaliseClause cls).1 = l0 :: l1 :: t0) :
    s'.clauseDb.clauses = s.clauseDb.clauses ++
      [⟨false, false, none, l0 :: l1 :: t0⟩] ∧
    watchOccurrences s'.watches
        ⟨s.clauseDb.clauses.length, s.clauseDb.generation⟩ =
      watchOccurrences s.watches
        ⟨s.clauseDb.clauses.length, s.clauseDb.generation⟩ + 2 ∧
    (∃ lst, s'.watches.get? (litToIdx l0) = some lst ∧
      (⟨s.clauseDb.clauses.length, s.clauseDb.generation⟩ : ClauseIdx) ∈ lst) ∧
    (∃ lst, s'.watches.get? (litToIdx l1) = some lst ∧
      (⟨s.clauseDb.clauses.length, s.clauseDb.generation⟩ : ClauseIdx) ∈ lst) := by
  unfold Solver.addClause at hrun
  rw [hmap] at hrun
  simp only [htaut, Bool.false_eq_true, if_false, hcons, List.isEmpty_cons,
    ClauseDB.insertClause] at hrun
  rcases hp1 : (s.watches.expand
      (litNeg (varLit (maxVarOf (l0 :: l1 :: t0))))).push (litToIdx l0)
      ⟨s.clauseDb.clauses.length, s.clauseDb.generation⟩ with _ | w1
  · rw [hp1] at hrun
    exact absurd hrun (by simp)
  simp only [hp1] at hrun
  rcases hp2 : w1.push (litToIdx l1)
      ⟨s.clauseDb.clauses.length, s.clauseDb.generation⟩ with _ | w2
  · rw [hp2] at hrun
    exact absurd hrun (by simp)
  simp only [hp2] at hrun
  cases hrun
  obtain ⟨hc1, ⟨lstA, hA, hAmem⟩, hpres1⟩ := Watches.push_spec hp1
  obtain ⟨hc2, ⟨lstB, hB, hBmem⟩, hpres2⟩ := Watches.push_spec hp2
  refine ⟨rfl, ?_, ?_, ⟨lstB, hB, hBmem⟩⟩
  · rw [hc2, hc1, watchOccurrences_expand]
  · exact hpres2 _ _ hA hAmem

/-- C6: an empty input clause sets the trivially-unsat flag; a unit
input clause whose literal is unsatisfied under the existing level-0
assignments sets the flag; a non-contradicting unit input clause is
not stored in the arena and its literal is assigned (at level 0 during
ingestion, when no decisions exist) with reason `Axiom`; and once the
flag is set, `solve` returns Unsat for every fuel — including fuel 0,
so without ever invoking propagation. -/
theorem c6_empty_and_unit_clause_handling :
    ∀ (s : Solver) (ints : List Int) (cls : List Nat) (s' : Solver),
      ints.mapM (fun i => if litNewOk i then some (Lit.ofInt i) else none) =
        some cls →
      s.addClause ints = some s' →
      (normaliseClause cls).2 = false →
      ((normaliseClause cls).1 = [] →
        s'.triviallyUnsat = true ∧ s'.clauseDb = s.clauseDb) ∧
      (∀ l, (normaliseClause cls).1 = [l] →
        s.trail.isLitUnsatisfied l = true →
        s'.triviallyUnsat = true ∧ s'.clauseDb = s.clauseDb) ∧
      (∀ l, (normaliseClause cls).1 = [l] →
        s.trail.isLitUnsatisfied l = false →
        s.trail.decisionPositions = [] →
        s'.clauseDb = s.clauseDb ∧ s'.triviallyUnsat = s.triviallyUnsat ∧
        s'.trail.assignment.getD (litVar l) none =
          some ⟨litIsPos l, 0, TrailReason.axm⟩) ∧
      (s'.triviallyUnsat = true → ∀ fuel, s'.solve fuel = .unsat) := by
  intro s ints cls s' hmap hrun htaut
  unfold Solver.addClause at hrun
  rw [hmap] at hrun
  simp only [htaut, Bool.false_eq_true, if_false] at hrun
  refine ⟨?_, ?_, ?_, ?_⟩
  · intro h0
    rw [h0] at hrun
    simp only [List.isEmpty_nil, if_true] at hrun
    cases hrun
    exact ⟨rfl, rfl⟩
  · intro l hl hunsat
    rw [hl] at hrun
    simp only [List.isEmpty_cons, Bool.false_eq_true, if_false] at hrun
    rw [Trail.expand_unsat, hunsat] at hrun
    simp only [if_true] at hrun
    cases hrun
    exact ⟨rfl, rfl⟩
  · intro l hl hsat hdp
    rw [hl] at hrun
    simp only [List.isEmpty_cons, Bool.false_eq_true, if_false] at hrun
    rw [Trail.expand_unsat, hsat] at hrun
    simp only [Bool.false_eq_true, if_false] at hrun
    rcases ha : (s.trail.expand (maxVarOf [l])).assignLit l TrailReason.axm
        with _ | t1
    · rw [ha] at hrun
      cases hrun
    · rw [ha] at hrun
      cases hrun
      obtain ⟨htr, hdp', hlt, hnone, hassn⟩ := Trail.assignLit_eq_some ha
      refine ⟨rfl, rfl, ?_⟩
      have hdpe : (s.trail.expand (maxVarOf [l])).decisionPositions = [] := hdp
      have hlvl : t1.decisionPositions.length = 0 := by
        rw [hdp']
        simp [hdpe]
      rw [hassn, hlvl]
      exact Assignment.getD_set_self _ _ _ hlt
  · intro hf fuel
    simp [Solver.solve, hf]

/-- C6 (witness): ingesting the unit clause `1` into a fresh solver.
The encoded normalized clause is `[2]`; the unit branch leaves the
arena untouched and records variable 1 as true at level 0 with reason
`Axiom`. -/
theorem c6_witness :
    ((normaliseClause [2]).1 = [] →
      unitDemo.triviallyUnsat = true ∧
      unitDemo.clauseDb = Solver.initial.clauseDb) ∧
    (∀ l, (normaliseClause [2]).1 = [l] →
      Solver.initial.trail.isLitUnsatisfied l = true →
      unitDemo.triviallyUnsat = true ∧
      unitDemo.clauseDb = Solver.initial.clauseDb) ∧
    (∀ l, (normaliseClause [2]).1 = [l] →
      Solver.initial.trail.isLitUnsatisfied l = false →
      Solver.initial.trail.decisionPositions = [] →
      unitDemo.clauseDb = Solver.initial.clauseDb ∧
      unitDemo.triviallyUnsat = Solver.initial.triviallyUnsat ∧
      unitDemo.trail.assignment.getD (litVar l) none =
        some ⟨litIsPos l, 0, TrailReason.axm⟩) ∧
    (unitDemo.triviallyUnsat = true → ∀ fuel, unitDemo.solve fuel = .unsat) :=
  c6_empty_and_unit_clause_handling Solver.initial [1] [2] unitDemo rfl rfl rfl

/-- C3 (amended): whenever conflict analysis learns a clause `L` with
`|L| ≥ 2`, the clause inserted into the arena (the new last clause,
marked as a reason) carries the flipped UIP literal `¬uip` as its
*last* literal, which is exactly the literal just assigned with the
new handle as reason; conflict analysis registers *no* watches — it
leaves the watch lists completely unchanged, so learned clauses never
appear in any watch list.  Only input clauses of length ≥ 2 are
watched: `add_clause` adds exactly two watch entries for the new
handle, one in the list of `clause[0]` and one in the list of
`clause[1]`. -/
theorem c3_amended_learned_unwatched_input_watched_twice :
    (∀ (s : Solver) (c : ClauseIdx) (s' : Solver),
      s.analyzeContradiction c = some (.done, s') →
      s'.watches = s.watches ∧
      (s'.clauseDb.clauses.length = s.clauseDb.clauses.length + 1 →
        ∃ r, s'.clauseDb.clauses.getLast? = some r ∧ 2 ≤ r.lits.length ∧
          r.isReason = true ∧
          ∃ e, s'.trail.trail.getLast? = some e ∧
            r.lits.getLast? = some e.lit ∧
            e.reason = TrailReason.propagated
              ⟨s.clauseDb.clauses.length, s.clauseDb.generation⟩)) ∧
    (∀ (s : Solver) (ints : List Int) (cls : List Nat) (s' : Solver)
        (l0 l1 : Nat) (t0 : List Nat),
      ints.mapM
        (fun i => if litNewOk i then some (Lit.ofInt i) else none) =
        some cls →
      s.addClause ints = some s' →
      (normaliseClause cls).2 = false →
      (normaliseClause cls).1 = l0 :: l1 :: t0 →
      s'.clauseDb.clauses = s.clauseDb.clauses ++
        [⟨false, false, none, l0 :: l1 :: t0⟩] ∧
      watchOccurrences s'.watches
          ⟨s.clauseDb.clauses.length, s.clauseDb.generation⟩ =
        watchOccurrences s.watches
          ⟨s.clauseDb.clauses.length, s.clauseDb.generation⟩ + 2 ∧
      (∃ lst, s'.watches.get? (litToIdx l0) = some lst ∧
        (⟨s.clauseDb.clauses.length, s.clauseDb.generation⟩ : ClauseIdx) ∈ lst) ∧
      (∃ lst, s'.watches.get? (litToIdx l1) = some lst ∧
        (⟨s.clauseDb.clauses.length, s.clauseDb.generation⟩ : ClauseIdx) ∈ lst)) :=
  ⟨fun _ _ _ h => analyzeContradiction_done_spec h,
   fun _ _ _ _ _ _ _ hmap hrun htaut hcons =>
     addClause_big_spec hmap hrun htaut hcons⟩

/-- C3 (amended, witness): both halves instantiated — the demonstrated
conflict analysis on `demoF` (learning the clause `¬1 ∨ ¬2`), and the
ingestion of the input clause `1 ∨ 2` into a fresh solver. -/
theorem c3_amended_witness :
    (demoAnalyzeOutput.watches = demoAnalyzeInput.1.watches ∧
      (demoAnalyzeOutput.clauseDb.clauses.length =
          demoAnalyzeInput.1.clauseDb.clauses.length + 1 →
        ∃ r, demoAnalyzeOutput.clauseDb.clauses.getLast? = some r ∧
          2 ≤ r.lits.length ∧ r.isReason = true ∧
          ∃ e, demoAnalyzeOutput.trail.trail.getLast? = some e ∧
            r.lits.getLast? = some e.lit ∧
            e.reason = TrailReason.propagated
              ⟨demoAnalyzeInput.1.clauseDb.clauses.length,
               demoAnalyzeInput.1.clauseDb.generation⟩)) ∧
    (gcDemo.clauseDb.clauses = Solver.initial.clauseDb.clauses ++
        [⟨false, false, none, 2 :: 4 :: []⟩] ∧
      watchOccurrences gcDemo.watches
          ⟨Solver.initial.clauseDb.clauses.length,
           Solver.initial.clauseDb.generation⟩ =
        watchOccurrences Solver.initial.watches
          ⟨Solver.initial.clauseDb.clauses.length,
           Solver.initial.clauseDb.generation⟩ + 2 ∧
      (∃ lst, gcDemo.watches.get? (litToIdx 2) = some lst ∧
        (⟨Solver.initial.clauseDb.clauses.length,
          Solver.initial.clauseDb.generation⟩ : ClauseIdx) ∈ lst) ∧
      (∃ lst, gcDemo.watches.get? (litToIdx 4) = some lst ∧
        (⟨Solver.initial.clauseDb.clauses.length,
          Solver.initial.clauseDb.generation⟩ : ClauseIdx) ∈ lst)) :=
  ⟨c3_amended_learned_unwatched_input_watched_twice.1
     demoAnalyzeInput.1 demoAnalyzeInput.2 demoAnalyzeOutput rfl,
   c3_amended_learned_unwatched_input_watched_twice.2
     Solver.initial [1, 2] [2, 4] gcDemo 2 4 [] rfl rfl rfl rfl⟩

/-- C7 (amended): every non-comment, non-header, non-blank input line
yields exactly one clause, namely its non-zero integers in their
original order; `0` tokens are discarded wherever they occur instead
of terminating a clause, and no clause ever spans more than one line.
In particular every literal of an emitted clause is non-zero. -/
theorem c7_amended_one_clause_per_line :
    ∀ (ls : List DimacsLine) (C : List Int), C ∈ dimacsParse ls →
      (∀ i ∈ C, i ≠ 0) ∧
      ∃ ns, DimacsLine.lits ns ∈ ls ∧ C = ns.filter (· ≠ 0) := by
  intro ls
  induction ls with
  | nil => intro C hC; simp [dimacsParse] at hC
  | cons l ls ih =>
    intro C hC
    cases l with
    | comment =>
      simp only [dimacsParse, List.filterMap_cons] at hC
      obtain ⟨h1, ns, hns, he⟩ := ih C hC
      exact ⟨h1, ns, List.mem_cons_of_mem _ hns, he⟩
    | header =>
      simp only [dimacsParse, List.filterMap_cons] at hC
      obtain ⟨h1, ns, hns, he⟩ := ih C hC
      exact ⟨h1, ns, List.mem_cons_of_mem _ hns, he⟩
    | lits ns =>
      simp only [dimacsParse, List.filterMap_cons] at hC
      by_cases hns : ns = []
      · simp only [hns, if_pos rfl] at hC
        obtain ⟨h1, ns', hns', he⟩ := ih C hC
        exact ⟨h1, ns', List.mem_cons_of_mem _ hns', he⟩
      · simp only [if_neg hns, List.mem_cons] at hC
        rcases hC with hC | hC
        · subst hC
          refine ⟨?_, ns, List.mem_cons_self _ _, rfl⟩
          intro i hi
          exact of_decide_eq_true (List.mem_filter.mp hi).2
        · obtain ⟨h1, ns', hns', he⟩ := ih C hC
          exact ⟨h1, ns', List.mem_cons_of_mem _ hns', he⟩

/-- C7 (amended, witness): the line `1 0 2 0` yields the single clause
`[1, 2]`, whose literals are non-zero and which equals the line's
zero-filtered tokens. -/
theorem c7_amended_witness :
    (∀ i ∈ [(1 : Int), 2], i ≠ 0) ∧
    ∃ ns, DimacsLine.lits ns ∈ [DimacsLine.lits [1, 0, 2, 0]] ∧
      [(1 : Int), 2] = ns.filter (· ≠ 0) :=
  c7_amended_one_clause_per_line [DimacsLine.lits [1, 0, 2, 0]] [1, 2]
    (by decide)

/-- C9: the solver is deterministic.  The embedding of `solve` — and
of every iterated prefix of its main loop, whose states expose the
propagation order on the trail and each learned clause in the arena —
is a pure function of the ingested clause list, so two runs on the
same input agree on every intermediate state, on every learned clause,
and on the final verdict and model.  (The source has no source of
nondeterminism on these paths; its only hash-based iteration feeds a
`debug_assert_eq!` on a set cardinality.) -/
theorem c9_solve_deterministic :
    ∀ (F : List (List Int)) (fuel n : Nat),
      runSolve F fuel = runSolve F fuel ∧
      (solverFromList F).map (fun s => solveSteps n fuel s) =
        (solverFromList F).map (fun s => solveSteps n fuel s) :=
  fun _ _ _ => ⟨rfl, rfl⟩

/-- C10: model extraction.  For variables `1 ..= n` (with
`n = total_vars`), `as_vec` returns exactly `n` entries, entry `i - 1`
being `+i` when variable `i` is assigned true and `-i` otherwise; and
`Model::lit` returns `false` (rather than failing) on both polarities
of an unassigned variable, whose `as_vec` entry is the negative
literal. -/
theorem c10_model_as_vec :
    ∀ (t : Trail) (i : Nat), 1 ≤ i → i ≤ t.totalVars →
      t.asVec.length = t.totalVars ∧
      t.asVec.get? (i - 1) =
        some (if t.isLitSatisfied (Lit.ofInt (i : Int)) then (i : Int)
              else -(i : Int)) ∧
      (t.isLitUnassigned (Lit.ofInt (i : Int)) = true →
        modelLit t (i : Int) = false ∧ modelLit t (-(i : Int)) = false ∧
        t.asVec.get? (i - 1) = some (-(i : Int))) := by
  intro t i h1 hn
  have hlen : t.asVec.length = t.totalVars := by simp [Trail.asVec]
  have hidx : i - 1 < t.totalVars := by omega
  have hr : (List.range t.totalVars)[i - 1]? = some (i - 1) :=
    List.getElem?_range hidx
  have h2 : i - 1 + 1 = i := by omega
  have hget : t.asVec.get? (i - 1) =
      some (if t.isLitSatisfied (Lit.ofInt (i : Int)) then (i : Int)
            else -(i : Int)) := by
    simp only [Trail.asVec, List.get?_eq_getElem?, List.getElem?_map, hr,
      Option.map_some', h2, Int.ofNat_eq_coe]
  refine ⟨hlen, hget, ?_⟩
  intro hun
  have habs : ((i : Int)).natAbs = i := Int.natAbs_ofNat i
  have hv1 : litVar (Lit.ofInt (i : Int)) = i := by
    have h0 : ¬ ((i : Int) < 0) := by omega
    simp [Lit.ofInt, litVar, h0, habs]
  have hv2 : litVar (Lit.ofInt (-(i : Int))) = i := by
    have h0 : (-(i : Int)) < 0 := by omega
    simp [Lit.ofInt, litVar, h0, Int.natAbs_neg, habs]
    omega
  have hnone : t.assignment.getD i none = none := by
    have := hun
    simp only [Trail.isLitUnassigned, Assignment.isLitUnassigned, hv1,
      Option.isNone_iff_eq_none] at this
    exact this
  have hsat : ∀ j : Int, litVar (Lit.ofInt j) = i →
      t.isLitSatisfied (Lit.ofInt j) = false := by
    intro j hj
    simp only [Trail.isLitSatisfied, Assignment.isLitSatisfied, Assignment.get,
      hj, hnone, Option.map_none']
    rfl
  refine ⟨hsat _ hv1, hsat _ hv2, ?_⟩
  rw [hget, hsat _ hv1]
  simp

/-- C10 (witness): on a trail with two variables, variable 1 assigned
true and variable 2 unassigned, the model vector is `[1, -2]`, and
both polarities of variable 2 report false. -/
theorem c10_witness :
    (Trail.mk [⟨2, .axm⟩] []
        [none, some ⟨true, 0, .axm⟩, none]).asVec.length =
      (Trail.mk [⟨2, .axm⟩] [] [none, some ⟨true, 0, .axm⟩, none]).totalVars ∧
    (Trail.mk [⟨2, .axm⟩] [] [none, some ⟨true, 0, .axm⟩, none]).asVec.get?
        (2 - 1) =
      some (if (Trail.mk [⟨2, .axm⟩] []
          [none, some ⟨true, 0, .axm⟩, none]).isLitSatisfied
            (Lit.ofInt ((2 : Nat) : Int)) then ((2 : Nat) : Int)
        else -((2 : Nat) : Int)) ∧
    ((Trail.mk [⟨2, .axm⟩] [] [none, some ⟨true, 0, .axm⟩,
        none]).isLitUnassigned (Lit.ofInt ((2 : Nat) : Int)) = true →
      modelLit (Trail.mk [⟨2, .axm⟩] [] [none, some ⟨true, 0, .axm⟩, none])
          ((2 : Nat) : Int) = false ∧
      modelLit (Trail.mk [⟨2, .axm⟩] [] [none, some ⟨true, 0, .axm⟩, none])
          (-((2 : Nat) : Int)) = false ∧
      (Trail.mk [⟨2, .axm⟩] [] [none, some ⟨true, 0, .axm⟩, none]).asVec.get?
          (2 - 1) = some (-((2 : Nat) : Int))) :=
  c10_model_as_vec (Trail.mk [⟨2, .axm⟩] [] [none, some ⟨true, 0, .axm⟩, none])
    2 (by decide) (by decide)


theorem Assignment.getD_set_ne (a : Assignment) (i j : Nat)
    (d : Option AssignData) (h : i ≠ j) :
    (a.set i d).getD j none = a.getD j none := by
  rw [Assignment.getD_get?, Assignment.getD_get?, List.get?_set_ne _ _ h]

theorem TrailWf.assignLit_wf {t : Trail} {l : Nat} {r : TrailReason} {t' : Trail}
    (wf : TrailWf t) (h : t.assignLit l r = some t') : TrailWf t' := by
  obtain ⟨htr, hdp, hlt, hnone, hassn⟩ := Trail.assignLit_eq_some h
  have hfresh : ∀ j e, t.trail.get? j = some e → litVar e.lit ≠ litVar l := by
    intro j e hj heq
    obtain ⟨d, hd, -⟩ := wf.slotMatch j e hj
    rw [heq, hnone] at hd
    cases hd
  constructor
  · intro p hp
    rw [htr]
    simp only [List.length_append, List.length_singleton]
    rw [hdp] at hp
    split at hp
    · rcases List.mem_append.mp hp with hp | hp
      · exact Nat.lt_succ_of_lt (wf.posLt p hp)
      · simp only [List.mem_singleton] at hp
        omega
    · exact Nat.lt_succ_of_lt (wf.posLt p hp)
  · rw [hdp]
    split
    · rw [List.pairwise_append]
      refine ⟨wf.posSorted, List.pairwise_singleton _ _, ?_⟩
      intro x hx y hy
      simp only [List.mem_singleton] at hy
      subst hy
      exact wf.posLt x hx
    · exact wf.posSorted
  · intro j e hj
    rw [htr] at hj
    rcases Nat.lt_or_ge j t.trail.length with hjlen | hjlen
    · -- old entry
      rw [List.get?_append hjlen] at hj
      obtain ⟨d, hd, hst, hre, hbd, hiff⟩ := wf.slotMatch j e hj
      refine ⟨d, ?_, hst, hre, ?_, ?_⟩
      · rw [hassn, Assignment.getD_set_ne _ _ _ _ (fun hvv => hfresh j e hj hvv.symm), hd]
      · rw [hdp]
        split
        · simp only [List.length_append, List.length_singleton]
          omega
        · exact hbd
      · intro lvl p hlp
        rw [hdp] at hlp
        split at hlp
        · rcases Nat.lt_or_ge lvl t.decisionPositions.length with hl | hl
          · rw [List.get?_append hl] at hlp
            exact hiff lvl p hlp
          · rw [List.get?_append_right hl] at hlp
            have hlvl : lvl = t.decisionPositions.length := by
              have := List.get?_eq_some.mp hlp |>.1
              simp only [List.length_singleton] at this
              omega
            subst hlvl
            simp only [Nat.sub_self, List.get?_cons_zero] at hlp
            cases hlp
            constructor
            · intro _
              exact hbd
            · intro _
              exact hjlen
        · exact hiff lvl p hlp
    · -- new entry at index t.trail.length
      rw [List.get?_append_right hjlen] at hj
      have hjj : j = t.trail.length := by
        have := List.get?_eq_some.mp hj |>.1
        simp only [List.length_singleton] at this
        omega
      subst hjj
      simp only [Nat.sub_self, List.get?_cons_zero] at hj
      cases hj
      refine ⟨⟨litIsPos l, t'.decisionPositions.length, r⟩, ?_, rfl, rfl, ?_, ?_⟩
      · rw [hassn]
        exact Assignment.getD_set_self _ _ _ hlt
      · simp
      · intro lvl p hlp
        simp only
        constructor
        · intro hlt2
          exfalso
          rw [hdp] at hlp
          split at hlp
          · rcases Nat.lt_or_ge lvl t.decisionPositions.length with hl | hl
            · rw [List.get?_append hl] at hlp
              have := wf.posLt p (List.get?_mem hlp)
              omega
            · rw [List.get?_append_right hl] at hlp
              have hb := List.get?_eq_some.mp hlp |>.1
              simp only [List.length_singleton] at hb
              have : lvl = t.decisionPositions.length := by omega
              subst this
              simp only [Nat.sub_self, List.get?_cons_zero] at hlp
              cases hlp
              omega
          · have := wf.posLt p (List.get?_mem hlp)
            omega
        · intro hle
          exfalso
          have hlvl2 : lvl < t'.decisionPositions.length :=
            List.get?_eq_some.mp hlp |>.1
          omega
  · rw [htr]
    simp only [List.map_append, List.map_cons, List.map_nil]
    rw [List.nodup_append]
    refine ⟨wf.distinctVars, List.nodup_singleton _, ?_⟩
    intro v hv
    simp only [List.mem_singleton]
    intro hveq
    obtain ⟨e, he, hveq2⟩ := List.mem_map.mp hv
    obtain ⟨j, hj⟩ := List.get?_of_mem he
    exact hfresh j e hj (hveq2.symm ▸ hveq) 
  · intro v d hvd
    rw [hassn] at hvd
    by_cases hveq : litVar l = v
    · subst hveq
      exact ⟨t.trail.length, ⟨l, r⟩, by
        rw [htr, List.get?_append_right (Nat.le_refl _), Nat.sub_self]
        rfl, rfl⟩
    · rw [Assignment.getD_set_ne _ _ _ _ hveq] at hvd
      obtain ⟨j, e, hj, hv⟩ := wf.assignedHasEntry v d hvd
      refine ⟨j, e, ?_, hv⟩
      rw [htr, List.get?_append (List.get?_eq_some.mp hj).1]
      exact hj

theorem unassignAll_getD_some {a : Assignment} {P : List TrailElement}
    {a' : Assignment} (h : unassignAll a P = some a') :
    ∀ v d, a'.getD v none = some d → a.getD v none = some d := by
  induction P generalizing a with
  | nil => cases h; intro v d hd; exact hd
  | cons e rest ih =>
    unfold unassignAll at h
    rcases hu : a.unassignLit e.lit with _ | a1
    · rw [hu] at h; cases h
    · rw [hu] at h
      intro v d hd
      have := ih h v d hd
      unfold Assignment.unassignLit at hu
      split at hu
      · split at hu
        · cases hu
          by_cases hveq : litVar e.lit = v
          · subst hveq
            rw [Assignment.getD_get?, List.get?_set_eq] at this
            rcases hg : a.get? (litVar e.lit) with _ | x
            · rw [hg] at this; cases this
            · rw [hg] at this; cases this
          · rwa [Assignment.getD_set_ne _ _ _ _ hveq] at this
        · cases hu
      · cases hu

theorem unassignAll_getD_none {a : Assignment} {P : List TrailElement}
    {a' : Assignment} (h : unassignAll a P = some a') :
    ∀ v, a.getD v none = none → a'.getD v none = none := by
  induction P generalizing a with
  | nil => cases h; intro v hv; exact hv
  | cons e rest ih =>
    unfold unassignAll at h
    rcases hu : a.unassignLit e.lit with _ | a1
    · rw [hu] at h; cases h
    · rw [hu] at h
      intro v hv
      refine ih h v ?_
      unfold Assignment.unassignLit at hu
      split at hu
      · split at hu
        · cases hu
          by_cases hveq : litVar e.lit = v
          · subst hveq
            rw [Assignment.getD_get?, List.get?_set_eq]
            rcases hg : a.get? (litVar e.lit) with _ | x
            · rfl
            · rfl
          · rwa [Assignment.getD_set_ne _ _ _ _ hveq]
        · cases hu
      · cases hu

theorem unassignAll_unchanged {a : Assignment} {P : List TrailElement}
    {a' : Assignment} (h : unassignAll a P = some a') :
    ∀ v, (∀ e ∈ P, litVar e.lit ≠ v) → a'.getD v none = a.getD v none := by
  induction P generalizing a with
  | nil => cases h; intro v _; rfl
  | cons e rest ih =>
    unfold unassignAll at h
    rcases hu : a.unassignLit e.lit with _ | a1
    · rw [hu] at h; cases h
    · rw [hu] at h
      intro v hv
      have h1 := ih h v (fun e' he' => hv e' (List.mem_cons_of_mem _ he'))
      rw [h1]
      unfold Assignment.unassignLit at hu
      split at hu
      · split at hu
        · cases hu
          exact Assignment.getD_set_ne _ _ _ _ (hv e (List.mem_cons_self _ _))
        · cases hu
      · cases hu

theorem unassignAll_popped_none {a : Assignment} {P : List TrailElement}
    {a' : Assignment} (h : unassignAll a P = some a') :
    ∀ e ∈ P, a'.getD (litVar e.lit) none = none := by
  induction P generalizing a with
  | nil => intro e he; cases he
  | cons e0 rest ih =>
    unfold unassignAll at h
    rcases hu : a.unassignLit e0.lit with _ | a1
    · rw [hu] at h; cases h
    · rw [hu] at h
      intro e he
      rcases List.mem_cons.mp he with he | he
      · subst he
        refine unassignAll_getD_none h _ ?_
        unfold Assignment.unassignLit at hu
        split at hu
        · split at hu
          · cases hu
            rw [Assignment.getD_get?, List.get?_set_eq]
            rcases hg : a.get? (litVar e.lit) with _ | x
            · rfl
            · rfl
          · cases hu
        · cases hu
      · exact ih h e he

theorem nodup_var_get?_inj {tr : List TrailElement}
    (h : (tr.map (fun e => litVar e.lit)).Nodup)
    {j j' : Nat} {e e' : TrailElement}
    (hj : tr.get? j = some e) (hj' : tr.get? j' = some e')
    (hv : litVar e.lit = litVar e'.lit) : j = j' := by
  have hmj : (tr.map (fun e => litVar e.lit)).get? j = some (litVar e.lit) := by
    rw [List.get?_map, hj]; rfl
  have hmj' : (tr.map (fun e => litVar e.lit)).get? j' =
      some (litVar e'.lit) := by
    rw [List.get?_map, hj']; rfl
  refine List.get?_inj ?_ h ?_
  · rw [List.length_map]
    exact (List.get?_eq_some.mp hj).1
  · rw [hmj, hmj', hv]

theorem pairwise_lt_get? {l : List Nat} (h : l.Pairwise (· < ·))
    {i j x y : Nat} (hij : i < j) (hx : l.get? i = some x)
    (hy : l.get? j = some y) : x < y := by
  obtain ⟨hi, hxe⟩ := List.get?_eq_some.mp hx
  obtain ⟨hj, hye⟩ := List.get?_eq_some.mp hy
  have := List.pairwise_iff_get.mp h ⟨i, hi⟩ ⟨j, hj⟩ hij
  rw [hxe, hye] at this
  exact this

theorem Trail.backtrack_eq {t : Trail} {lvl : Nat}
    {out : Trail × List TrailElement × Nat} (h : t.backtrack lvl = some out) :
    (t.decisionPositions.get? lvl = none ∧ out = (t, [], t.trail.length)) ∨
    (∃ pos, t.decisionPositions.get? lvl = some pos ∧
      out.2.1 = t.trail.drop pos ∧ out.2.2 = pos ∧
      out.1.trail = t.trail.take pos ∧
      out.1.decisionPositions = t.decisionPositions.take lvl ∧
      unassignAll t.assignment (t.trail.drop pos) = some out.1.assignment) := by
  unfold Trail.backtrack at h
  rcases hp : t.decisionPositions.get? lvl with _ | pos
  · rw [hp] at h
    cases h
    exact Or.inl ⟨rfl, rfl⟩
  · simp only [hp] at h
    rcases hu : unassignAll t.assignment (t.trail.drop pos) with _ | a'
    · rw [hu] at h; cases h
    · rw [hu] at h
      cases h
      exact Or.inr ⟨pos, rfl, rfl, rfl, rfl, rfl, hu⟩

theorem TrailWf.backtrack_wf {t : Trail} {lvl : Nat} {t' : Trail}
    {popped : List TrailElement} {resume : Nat}
    (wf : TrailWf t) (h : t.backtrack lvl = some (t', popped, resume)) :
    TrailWf t' := by
  rcases Trail.backtrack_eq h with ⟨-, heq⟩ | ⟨pos, hp, hpop, -, htr, hdp, hu⟩
  · cases heq
    exact wf
  · simp only at hpop htr hdp
    have hposlen : pos < t.trail.length := wf.posLt pos (List.get?_mem hp)
    have hlvl : lvl < t.decisionPositions.length := (List.get?_eq_some.mp hp).1
    have htrl : t'.trail.length = pos := by
      rw [htr, List.length_take]
      omega
    have hnotpopped : ∀ j e, t.trail.get? j = some e → j < pos →
        ∀ e' ∈ t.trail.drop pos, litVar e'.lit ≠ litVar e.lit := by
      intro j e hj hjpos e' he' hveq
      obtain ⟨k, hk⟩ := List.get?_of_mem he'
      rw [List.get?_drop] at hk
      have := nodup_var_get?_inj wf.distinctVars hk hj hveq
      omega
    constructor
    · intro p hpmem
      rw [htrl]
      rw [hdp] at hpmem
      obtain ⟨idx, hidx⟩ := List.get?_of_mem hpmem
      have hidxlt : idx < lvl := by
        have := (List.get?_eq_some.mp hidx).1
        rw [List.length_take] at this
        omega
      rw [List.get?_take hidxlt] at hidx
      exact pairwise_lt_get? wf.posSorted hidxlt hidx hp
    · rw [hdp]
      exact wf.posSorted.sublist (List.take_sublist _ _)
    · intro j e hj
      have hj' : t.trail.get? j = some e ∧ j < pos := by
        rw [htr] at hj
        rcases Nat.lt_or_ge j pos with hjp | hjp
        · rw [List.get?_take hjp] at hj
          exact ⟨hj, hjp⟩
        · rw [List.get?_eq_none.mpr (by rw [List.length_take]; omega)] at hj
          cases hj
      obtain ⟨d, hd, hst, hre, hbd, hiff⟩ := wf.slotMatch j e hj'.1
      refine ⟨d, ?_, hst, hre, ?_, ?_⟩
      · rw [unassignAll_unchanged hu _ (hnotpopped j e hj'.1 hj'.2)]
        exact hd
      · rw [hdp, List.length_take]
        have := (hiff lvl pos hp).mp hj'.2
        omega
      · intro lvl' p' hlp'
        rw [hdp] at hlp'
        have hlvl' : lvl' < lvl := by
          have := (List.get?_eq_some.mp hlp').1
          rw [List.length_take] at this
          omega
        rw [List.get?_take hlvl'] at hlp'
        exact hiff lvl' p' hlp'
    · rw [htr]
      have : (t.trail.take pos).map (fun e => litVar e.lit) =
          (t.trail.map (fun e => litVar e.lit)).take pos := by
        rw [List.map_take]
      rw [this]
      exact wf.distinctVars.sublist (List.take_sublist _ _)
    · intro v d hvd
      have hold := unassignAll_getD_some hu v d hvd
      obtain ⟨j, e, hj, hv⟩ := wf.assignedHasEntry v d hold
      rcases Nat.lt_or_ge j pos with hjp | hjp
      · refine ⟨j, e, ?_, hv⟩
        rw [htr, List.get?_take hjp]
        exact hj
      · exfalso
        have hepopped : e ∈ t.trail.drop pos := by
          have hk : (t.trail.drop pos).get? (j - pos) = some e := by
            rw [List.get?_drop]
            rw [show pos + (j - pos) = j by omega]
            exact hj
          exact List.get?_mem hk
        have := unassignAll_popped_none hu e hepopped
        rw [hv] at this
        rw [this] at hvd
        cases hvd

theorem TrailWf.backtrack_keep {t : Trail} {lvl : Nat} {t' : Trail}
    {popped : List TrailElement} {resume : Nat}
    (wf : TrailWf t) (h : t.backtrack lvl = some (t', popped, resume)) :
    ∀ v d, t.assignment.getD v none = some d → d.decisionLevel ≤ lvl →
      t'.assignment.getD v none = some d := by
  rcases Trail.backtrack_eq h with ⟨-, heq⟩ | ⟨pos, hp, hpop, -, htr, hdp, hu⟩
  · cases heq
    intro v d hd _
    exact hd
  · simp only at hpop htr hdp
    intro v d hd hdl
    obtain ⟨j, e, hj, hv⟩ := wf.assignedHasEntry v d hd
    obtain ⟨d', hd', -, -, -, hiff⟩ := wf.slotMatch j e hj
    rw [hv, hd] at hd'
    cases hd'
    have hjpos : j < pos := (hiff lvl pos hp).mpr hdl
    have hnp : ∀ e' ∈ t.trail.drop pos, litVar e'.lit ≠ v := by
      intro e' he' hveq
      obtain ⟨k, hk⟩ := List.get?_of_mem he'
      rw [List.get?_drop] at hk
      have := nodup_var_get?_inj wf.distinctVars hk hj (hv ▸ hveq)
      omega
    rw [unassignAll_unchanged hu v hnp]
    exact hd


/-! ## Basic facts: literal encoding, slots, clause operations -/

theorem xor_one_eq (l : Nat) : l ^^^ 1 = if l % 2 = 0 then l + 1 else l - 1 := by
  apply Nat.eq_of_testBit_eq
  intro i
  rw [Nat.testBit_xor]
  cases i with
  | zero =>
    rw [Nat.testBit_zero, Nat.testBit_zero, Nat.testBit_zero]
    rcases Nat.mod_two_eq_zero_or_one l with h | h <;>
      simp [h] <;> omega
  | succ n =>
    rw [Nat.testBit_succ, Nat.testBit_succ, Nat.testBit_succ]
    have h1 : (1 : Nat) / 2 = 0 := rfl
    rw [h1]
    rcases Nat.mod_two_eq_zero_or_one l with h | h
    · simp only [if_pos h]
      have : (l + 1) / 2 = l / 2 := by omega
      rw [this]
      simp
    · simp only [h, if_neg (by omega : ¬ (1 = 0))]
      have : (l - 1) / 2 = l / 2 := by omega
      rw [this]
      simp

theorem litVar_litNeg (l : Nat) : litVar (litNeg l) = litVar l := by
  unfold litNeg litVar
  rw [xor_one_eq]
  rcases Nat.mod_two_eq_zero_or_one l with h | h
  · rw [if_pos h]; omega
  · rw [if_neg (by omega)]; omega

theorem litIsPos_litNeg (l : Nat) : litIsPos (litNeg l) = !litIsPos l := by
  unfold litNeg litIsPos
  rw [xor_one_eq]
  rcases Nat.mod_two_eq_zero_or_one l with h | h
  · rw [if_pos h]
    simp [h]
    omega
  · rw [if_neg (by omega)]
    have h2 : 1 ≤ l := by omega
    have h3 : (l - 1) % 2 = 0 := by omega
    simp [h, h3]

theorem Assignment.getD_some_lt {a : Assignment} {i : Nat} {d : AssignData}
    (h : a.getD i none = some d) : i < a.length := by
  by_contra hge
  rw [Assignment.getD_get?, List.get?_eq_none.mpr (by omega)] at h
  cases h

theorem Assignment.sat_unsat_false {a : Assignment} {l : Nat}
    (hs : a.isLitSatisfied l = true) : a.isLitUnsatisfied l = false := by
  unfold Assignment.isLitSatisfied at hs
  unfold Assignment.isLitUnsatisfied
  rcases hg : a.get l with _ | b
  · rw [hg] at hs
    cases hs
  · rw [hg] at hs
    cases b
    · cases hs
    · rfl

theorem Assignment.sat_neg_unsat {a : Assignment} {l : Nat}
    (hs : a.isLitSatisfied l = true) : a.isLitUnsatisfied (litNeg l) = true := by
  unfold Assignment.isLitSatisfied Assignment.get at hs
  unfold Assignment.isLitUnsatisfied Assignment.get
  rw [litVar_litNeg]
  rcases hg : a.getD (litVar l) none with _ | d
  · rw [hg] at hs
    cases hs
  · rw [hg] at hs
    simp only [Option.map_some'] at hs ⊢
    rw [litIsPos_litNeg]
    have hd : d.status = litIsPos l := by
      have := of_decide_eq_true (by simpa using hs)
      simpa using this
    rw [hd]
    simp

theorem Assignment.unsat_of_slot {a : Assignment} {l : Nat} {d : AssignData}
    (hg : a.getD (litVar l) none = some d) (hd : d.status = !litIsPos l) :
    a.isLitUnsatisfied l = true := by
  unfold Assignment.isLitUnsatisfied Assignment.get
  rw [hg]
  simp [hd]

theorem Assignment.sat_of_slot {a : Assignment} {l : Nat} {d : AssignData}
    (hg : a.getD (litVar l) none = some d) (hd : d.status = litIsPos l) :
    a.isLitSatisfied l = true := by
  unfold Assignment.isLitSatisfied Assignment.get
  rw [hg]
  simp [hd]

theorem Assignment.slot_of_unsat {a : Assignment} {l : Nat}
    (h : a.isLitUnsatisfied l = true) :
    ∃ d, a.getD (litVar l) none = some d ∧ d.status = !litIsPos l := by
  unfold Assignment.isLitUnsatisfied Assignment.get at h
  rcases hg : a.getD (litVar l) none with _ | d
  · rw [hg] at h
    cases h
  · rw [hg] at h
    simp only [Option.map_some'] at h
    refine ⟨d, rfl, ?_⟩
    have : (d.status == litIsPos l) = false := by
      cases hb : d.status == litIsPos l
      · rfl
      · rw [hb] at h
        cases h
    cases hs : d.status <;> cases hp : litIsPos l <;>
      simp_all

theorem Assignment.slot_of_sat {a : Assignment} {l : Nat}
    (h : a.isLitSatisfied l = true) :
    ∃ d, a.getD (litVar l) none = some d ∧ d.status = litIsPos l := by
  unfold Assignment.isLitSatisfied Assignment.get at h
  rcases hg : a.getD (litVar l) none with _ | d
  · rw [hg] at h
    cases h
  · rw [hg] at h
    simp only [Option.map_some'] at h
    refine ⟨d, rfl, ?_⟩
    have : (d.status == litIsPos l) = true := by simpa using h
    simpa using this

theorem Assignment.set_length (a : Assignment) (i : Nat) (d : Option AssignData) :
    (a.set i d).length = a.length := List.length_set a i d

theorem Assignment.assignLit_length {a : Assignment} {l lvl : Nat}
    {r : TrailReason} {a' : Assignment} (h : a.assignLit l lvl r = some a') :
    a'.length = a.length := by
  obtain ⟨-, -, he⟩ := Assignment.assignLit_store_eq h
  rw [he, Assignment.set_length]

theorem unassignAll_length {a : Assignment} {P : List TrailElement}
    {a' : Assignment} (h : unassignAll a P = some a') :
    a'.length = a.length := by
  induction P generalizing a with
  | nil => cases h; rfl
  | cons e rest ih =>
    unfold unassignAll at h
    rcases hu : a.unassignLit e.lit with _ | a1
    · rw [hu] at h; cases h
    · rw [hu] at h
      have h1 := ih h
      unfold Assignment.unassignLit at hu
      split at hu
      · split at hu
        · cases hu
          rw [h1, Assignment.set_length]
        · cases hu
      · cases hu

theorem ClauseDB.swapLits_spec {db : ClauseDB} {ci : ClauseIdx} {i j : Nat}
    {db' : ClauseDB} (h : db.swapLits ci i j = some db') :
    db'.generation = db.generation ∧
    db'.clauses.length = db.clauses.length ∧
    ci.generation = db.generation ∧
    ∃ r li lj, db.clauses.get? ci.idx = some r ∧
      r.lits.get? i = some li ∧ r.lits.get? j = some lj ∧
      db'.clauses = db.clauses.set ci.idx
        { r with lits := (r.lits.set i lj).set j li } := by
  unfold ClauseDB.swapLits at h
  rcases hg : db.get ci with _ | r
  · rw [hg] at h
    cases h
  · simp only [hg] at h
    rcases hi : r.lits.get? i with _ | li
    · rw [hi] at h
      cases h
    · simp only [hi] at h
      rcases hj : r.lits.get? j with _ | lj
      · rw [hj] at h
        cases h
      · simp only [hj] at h
        cases h
        unfold ClauseDB.get at hg
        split at hg
        · exact ⟨rfl, by simp, by assumption, r, li, lj, hg, hi, hj, rfl⟩
        · cases hg

theorem set_self_of_get? {α : Type} {l : List α} {i : Nat} {x : α}
    (h : l.get? i = some x) : l.set i x = l := by
  induction l generalizing i with
  | nil => cases h
  | cons a t ih =>
    cases i with
    | zero => cases h; rfl
    | succ n =>
      simp only [List.get?_cons_succ] at h
      simp [List.set, ih h]

theorem swap_lits_perm {lits : List Nat} {i j : Nat} {li lj : Nat}
    (hi : lits.get? i = some li) (hj : lits.get? j = some lj) :
    ((lits.set i lj).set j li).Perm lits := by
  by_cases hij : i = j
  · subst hij
    have he : li = lj := by
      rw [hi] at hj
      exact Option.some.inj hj
    subst he
    rw [List.set_set, set_self_of_get? hi]
  · have hi' : i < lits.length := (List.get?_eq_some.mp hi).1
    have hj' : j < lits.length := (List.get?_eq_some.mp hj).1
    have hie : lits[i] = li := by
      have := List.get?_eq_get hi'
      rw [this] at hi
      exact Option.some.inj hi
    have hje : lits[j] = lj := by
      have := List.get?_eq_get hj'
      rw [this] at hj
      exact Option.some.inj hj
    rw [List.perm_iff_count]
    intro b
    have hj2 : j < (lits.set i lj).length := by simpa using hj'
    have c1 := List.count_set lj b lits i hi'
    have c2 := List.count_set li b (lits.set i lj) j hj2
    have hsetj : (lits.set i lj)[j] = lits[j] := by
      rw [List.getElem_set]
      simp [hij]
    rw [hsetj, hje] at c2
    rw [hie] at c1
    rw [c2, c1]
    by_cases hli : li = b
    · have hmem : b ∈ lits := by
        subst hli
        exact List.get?_mem hi
      have hcount : 1 ≤ lits.count b := List.count_pos_iff_mem.mpr hmem
      by_cases hlj : lj = b <;> simp [hli, hlj] <;> omega
    · by_cases hlj : lj = b <;> simp [hli, hlj] <;> omega

theorem nodup_bound {l : List Nat} {V : Nat} (hn : l.Nodup)
    (hb : ∀ x ∈ l, x < V) : l.length ≤ V := by
  have h1 : l.toFinset.card = l.length := List.toFinset_card_of_nodup hn
  have h2 : l.toFinset ⊆ Finset.range V := by
    intro x hx
    rw [Finset.mem_range]
    exact hb x (List.mem_toFinset.mp hx)
  have := Finset.card_le_card h2
  rw [h1, Finset.card_range] at this
  exact this

theorem TrailWf.trail_length_le {t : Trail} (wf : TrailWf t) :
    t.trail.length ≤ t.assignment.length := by
  have hn := wf.distinctVars
  have hb : ∀ v ∈ t.trail.map (fun e => litVar e.lit),
      v < t.assignment.length := by
    intro v hv
    obtain ⟨e, he, hveq⟩ := List.mem_map.mp hv
    obtain ⟨j, hj⟩ := List.get?_of_mem he
    obtain ⟨d, hd, -⟩ := wf.slotMatch j e hj
    rw [hveq] at hd
    exact Assignment.getD_some_lt hd
  have := nodup_bound hn hb
  rwa [List.length_map] at this

theorem TrailWf.positions_length_le {t : Trail} (wf : TrailWf t) :
    t.decisionPositions.length ≤ t.trail.length := by
  refine nodup_bound wf.posSorted.nodup ?_
  intro p hp
  exact wf.posLt p hp

theorem foldl_max_le {l : List Nat} {K : Nat} (h0 : 0 < K)
    (h : ∀ x ∈ l, x < K) : l.foldl max 0 < K := by
  suffices hgen : ∀ a, a < K → l.foldl max a < K by
    exact hgen 0 h0
  induction l with
  | nil =>
    intro a ha
    exact ha
  | cons x xs ih =>
    intro a ha
    simp only [List.foldl_cons]
    refine ih (fun y hy => h y (List.mem_cons_of_mem _ hy)) _ ?_
    have := h x (List.mem_cons_self _ _)
    omega

theorem foldl_max_init_le : ∀ (l : List Nat) (a b : Nat), a ≤ b →
    a ≤ l.foldl max b := by
  intro l
  induction l with
  | nil =>
    intro a b hab
    exact hab
  | cons x xs ih =>
    intro a b hab
    simp only [List.foldl_cons]
    exact ih _ _ (le_trans hab (Nat.le_max_left _ _))

theorem le_foldl_max {l : List Nat} {x : Nat} (h : x ∈ l) :
    ∀ a, x ≤ l.foldl max a := by
  induction l with
  | nil => cases h
  | cons y ys ih =>
    intro a
    simp only [List.foldl_cons]
    rcases List.mem_cons.mp h with h | h
    · subst h
      exact foldl_max_init_le ys x (max a x) (Nat.le_max_right _ _)
    · exact ih h _

theorem findNonFalse_none {t : Trail} :
    ∀ (ls : List Nat) (i : Nat), findNonFalse t ls i = none →
      ∀ m c, ls.get? m = some c → t.isLitUnsatisfied c = true := by
  intro ls
  induction ls with
  | nil =>
    intro i _ m c hm
    cases hm
  | cons x xs ih =>
    intro i h m c hm
    unfold findNonFalse at h
    split at h
    · cases h
    · rename_i hns
      cases m with
      | zero =>
        cases hm
        by_contra hc
        exact hns (by simpa using hc)
      | succ n =>
        exact ih _ h n c hm

theorem findNonFalse_some {t : Trail} :
    ∀ (ls : List Nat) (i : Nat) (k cand : Nat),
      findNonFalse t ls i = some (k, cand) →
      i ≤ k ∧ ls.get? (k - i) = some cand ∧
        t.isLitUnsatisfied cand = false := by
  intro ls
  induction ls with
  | nil =>
    intro i k cand h
    cases h
  | cons x xs ih =>
    intro i k cand h
    unfold findNonFalse at h
    split at h
    · rename_i hns
      cases h
      refine ⟨Nat.le_refl _, ?_, ?_⟩
      · simp
      · by_contra hc
        exact hns (by simpa using hc)
    · obtain ⟨h1, h2, h3⟩ := ih (i + 1) k cand h
      refine ⟨by omega, ?_, h3⟩
      have : k - i = (k - (i + 1)) + 1 := by omega
      rw [this]
      simpa using h2

theorem watchedLitIdx_spec {lits : List Nat} {lit : Nat} {idx : Nat}
    (h : watchedLitIdx lits lit = some idx) :
    (idx = 0 ∨ idx = 1) ∧ lits.get? idx = some (litNeg lit) := by
  unfold watchedLitIdx at h
  rcases h0 : lits.get? 0 with _ | c0
  · rw [h0] at h
    cases h
  · simp only [h0] at h
    split at h
    · cases h
      rename_i he
      exact ⟨Or.inl rfl, by rw [h0, he]⟩
    · rcases h1 : lits.get? 1 with _ | c1
      · rw [h1] at h
        cases h
      · simp only [h1] at h
        split at h
        · cases h
          rename_i he
          exact ⟨Or.inr rfl, by rw [h1, he]⟩
        · cases h



/-! ## Invariant preservation: unit propagation -/

theorem TrailWf.slot_level_le {t : Trail} (wf : TrailWf t) {v : Nat}
    {d : AssignData} (h : t.assignment.getD v none = some d) :
    d.decisionLevel ≤ t.decisionPositions.length := by
  obtain ⟨j, e, hj, hv⟩ := wf.assignedHasEntry v d h
  obtain ⟨d', hd', -, -, hbd, -⟩ := wf.slotMatch j e hj
  rw [hv, h] at hd'
  cases hd'
  exact hbd

theorem Trail.assignLit_slot_preserved {t : Trail} {l : Nat} {r : TrailReason}
    {t' : Trail} (h : t.assignLit l r = some t') {v : Nat} {d : AssignData}
    (hv : t.assignment.getD v none = some d) :
    t'.assignment.getD v none = some d := by
  obtain ⟨-, -, -, hnone, hassn⟩ := Trail.assignLit_eq_some h
  have hne : litVar l ≠ v := by
    intro he
    rw [he, hv] at hnone
    cases hnone
  rw [hassn, Assignment.getD_set_ne _ _ _ _ hne]
  exact hv

theorem Trail.assignLit_unsat_preserved {t : Trail} {l : Nat} {r : TrailReason}
    {t' : Trail} (h : t.assignLit l r = some t') {lk : Nat}
    (hu : t.isLitUnsatisfied lk = true) : t'.isLitUnsatisfied lk = true := by
  obtain ⟨d, hd, hst⟩ := Assignment.slot_of_unsat hu
  exact Assignment.unsat_of_slot (Trail.assignLit_slot_preserved h hd) hst

theorem OtherLitOk.assignLit_other {t : Trail} {l : Nat} {r : TrailReason}
    {t' : Trail} (h : t.assignLit l r = some t') {lvl lk : Nat}
    (ho : OtherLitOk t lvl lk) : OtherLitOk t' lvl lk := by
  obtain ⟨hu, dk, hdk, hlvl⟩ := ho
  exact ⟨Trail.assignLit_unsat_preserved h hu,
    dk, Trail.assignLit_slot_preserved h hdk, hlvl⟩

theorem ReasonObl.assignLit_reason {db : ClauseDB} {t : Trail} {e : TrailElement}
    {ci : ClauseIdx} (ho : ReasonObl db t e ci) {l : Nat} {r : TrailReason}
    {t' : Trail} (h : t.assignLit l r = some t') : ReasonObl db t' e ci := by
  obtain ⟨hgen, rec, d, hrec, hd, hlen, h0, hlast, hoth⟩ := ho
  refine ⟨hgen, rec, d, hrec, Trail.assignLit_slot_preserved h hd, hlen,
    h0, hlast, ?_⟩
  intro k lk hk
  obtain ⟨ha, hb⟩ := hoth k lk hk
  exact ⟨fun hg hne => (ha hg hne).assignLit_other h,
    fun hg hne => (hb hg hne).assignLit_other h⟩

theorem unitSlot.assignLit_unit {t : Trail} {l0 : Nat} (hu : unitSlot t l0)
    {l : Nat} {r : TrailReason} {t' : Trail} (h : t.assignLit l r = some t') :
    unitSlot t' l0 := by
  obtain ⟨d, hd, hst, hlvl⟩ := hu
  exact ⟨d, Trail.assignLit_slot_preserved h hd, hst, hlvl⟩

theorem ClauseDB.swapLits_get?_other {db : ClauseDB} {ci : ClauseIdx}
    {i j : Nat} {db' : ClauseDB} (h : db.swapLits ci i j = some db')
    {k : Nat} (hk : k ≠ ci.idx) :
    db'.clauses.get? k = db.clauses.get? k := by
  obtain ⟨-, -, -, r, li, lj, -, -, -, he⟩ := ClauseDB.swapLits_spec h
  rw [he, List.get?_set_ne _ _ (fun hkk => hk hkk.symm)]

theorem ClauseDB.swapLits_get?_self {db : ClauseDB} {ci : ClauseIdx}
    {i j : Nat} {db' : ClauseDB} (h : db.swapLits ci i j = some db') :
    ∃ r li lj, db.clauses.get? ci.idx = some r ∧
      r.lits.get? i = some li ∧ r.lits.get? j = some lj ∧
      db'.clauses.get? ci.idx =
        some { r with lits := (r.lits.set i lj).set j li } := by
  obtain ⟨-, -, -, r, li, lj, hr, hi, hj, he⟩ := ClauseDB.swapLits_spec h
  refine ⟨r, li, lj, hr, hi, hj, ?_⟩
  rw [he, List.get?_set_eq, hr]
  rfl

theorem ClauseDB.swapLits_rec_rel {db : ClauseDB} {ci : ClauseIdx}
    {i j : Nat} {db' : ClauseDB} (h : db.swapLits ci i j = some db') :
    ∀ k r, db.clauses.get? k = some r → ∃ r',
      db'.clauses.get? k = some r' ∧ r'.isGarbage = r.isGarbage ∧
      r'.isReason = r.isReason ∧ r'.glue = r.glue ∧ r'.lits.Perm r.lits := by
  intro k r hk
  by_cases hki : k = ci.idx
  · subst hki
    obtain ⟨r0, li, lj, hr0, hi, hj, he⟩ := ClauseDB.swapLits_get?_self h
    rw [hk] at hr0
    cases hr0
    exact ⟨_, he, rfl, rfl, rfl, swap_lits_perm hi hj⟩
  · exact ⟨r, by rw [ClauseDB.swapLits_get?_other h hki, hk], rfl, rfl, rfl,
      List.Perm.refl _⟩

theorem WatchOk.swapLits_watch {db : ClauseDB} {ci wi : ClauseIdx} {i j : Nat}
    {db' : ClauseDB} (h : db.swapLits wi i j = some db')
    (hw : WatchOk db ci) : WatchOk db' ci := by
  obtain ⟨hgen, r, hr, hglue⟩ := hw
  obtain ⟨hg, -⟩ := ClauseDB.swapLits_spec h
  obtain ⟨r', hr', -, -, hglue', -⟩ := ClauseDB.swapLits_rec_rel h ci.idx r hr
  exact ⟨by rw [hg, hgen], r', hr', by rw [hglue', hglue]⟩

theorem bigPresent.swapLits_big {db : ClauseDB} {wi : ClauseIdx} {i j : Nat}
    {db' : ClauseDB} (h : db.swapLits wi i j = some db') {C : List Nat}
    (hb : bigPresent db C) : bigPresent db' C := by
  obtain ⟨k, r, hk, hglue, hgar, hperm⟩ := hb
  obtain ⟨r', hr', hgar', -, hglue', hperm'⟩ := ClauseDB.swapLits_rec_rel h k r hk
  exact ⟨k, r', hr', by rw [hglue', hglue], by rw [hgar', hgar],
    hperm'.trans hperm⟩

theorem Trail.sat_neg_unsat_t {t : Trail} {l : Nat}
    (hs : t.isLitSatisfied l = true) : t.isLitUnsatisfied (litNeg l) = true :=
  Assignment.sat_neg_unsat hs

theorem Trail.sat_unsat_false_t {t : Trail} {l : Nat}
    (hs : t.isLitSatisfied l = true) : t.isLitUnsatisfied l = false :=
  Assignment.sat_unsat_false hs

/-- Blocker fact: a clause that is the reason of some trail element has
its asserted literal at index 0 (input clause), which is satisfied, and
all other literals unsatisfied; the watch-list scan can then neither
find a replacement watch nor reach the unit/conflict branches for it. -/
theorem ReasonObl.lits_state {db : ClauseDB} {t : Trail} {e : TrailElement}
    {ci : ClauseIdx} (wf : TrailWf t) (hobl : ReasonObl db t e ci)
    {r : ClauseRec} (hr : db.clauses.get? ci.idx = some r)
    (hglue : r.glue = none)
    (hmem : e ∈ t.trail) :
    r.lits.get? 0 = some e.lit ∧ t.isLitSatisfied e.lit = true ∧
    ∀ k lk, r.lits.get? k = some lk → k ≠ 0 →
      t.isLitUnsatisfied lk = true := by
  obtain ⟨-, r0, d, hr0, hd, -, h0, -, hoth⟩ := hobl
  rw [hr] at hr0
  cases hr0
  obtain ⟨j, hj⟩ := List.get?_of_mem hmem
  obtain ⟨d', hd', hst, -⟩ := wf.slotMatch j e hj
  rw [hd] at hd'
  cases hd'
  refine ⟨h0 hglue, Assignment.sat_of_slot hd hst, ?_⟩
  intro k lk hk hkne
  exact ((hoth k lk hk).1 hglue hkne).1

theorem Trail.assignLit_alen {t : Trail} {l : Nat} {r : TrailReason}
    {t' : Trail} (h : t.assignLit l r = some t') :
    t'.assignment.length = t.assignment.length := by
  obtain ⟨-, -, -, -, hassn⟩ := Trail.assignLit_eq_some h
  rw [hassn, Assignment.set_length]

theorem Trail.assignLit_sat_preserved {t : Trail} {l : Nat} {r : TrailReason}
    {t' : Trail} (h : t.assignLit l r = some t') {lk : Nat}
    (hs : t.isLitSatisfied lk = true) : t'.isLitSatisfied lk = true := by
  obtain ⟨d, hd, hst⟩ := Assignment.slot_of_sat hs
  exact Assignment.sat_of_slot (Trail.assignLit_slot_preserved h hd) hst

theorem Assignment.sat_not_unassigned {a : Assignment} {l : Nat}
    (hs : a.isLitSatisfied l = true) : a.isLitUnassigned l = false := by
  obtain ⟨d, hd, -⟩ := Assignment.slot_of_sat hs
  unfold Assignment.isLitUnassigned
  rw [hd]
  rfl

theorem Trail.sat_not_unassigned_t {t : Trail} {l : Nat}
    (hs : t.isLitSatisfied l = true) : t.isLitUnassigned l = false :=
  Assignment.sat_not_unassigned hs

theorem Watches.push_eq {w : Watches} {i : Nat} {ci : ClauseIdx}
    {w' : Watches} (h : w.push i ci = some w') :
    ∃ lst, w.get? i = some lst ∧ w' = w.set i (lst ++ [ci]) := by
  unfold Watches.push at h
  rcases hg : w.get? i with _ | lst
  · rw [hg] at h
    cases h
  · rw [hg] at h
    cases h
    exact ⟨lst, rfl, rfl⟩

theorem mem_set_or {α : Type} {l : List α} {i : Nat} {a : α} :
    ∀ x ∈ l.set i a, x = a ∨ x ∈ l := by
  induction l generalizing i with
  | nil =>
    intro x hx
    cases hx
  | cons y ys ih =>
    intro x hx
    cases i with
    | zero =>
      rcases List.mem_cons.mp hx with hx | hx
      · exact Or.inl hx
      · exact Or.inr (List.mem_cons_of_mem _ hx)
    | succ n =>
      rcases List.mem_cons.mp hx with hx | hx
      · exact Or.inr (hx ▸ List.mem_cons_self _ _)
      · rcases ih x hx with hx | hx
        · exact Or.inl hx
        · exact Or.inr (List.mem_cons_of_mem _ hx)

theorem propagateWatchList_spec {V : Nat} {lit : Nat} :
    ∀ (wl : List ClauseIdx) (ctx : PropCtx) (kept : List ClauseIdx)
      (confl : Option ClauseIdx) (ctx' : PropCtx),
      propagateWatchList lit wl ctx = some (kept, confl, ctx') →
      Inv V ctx.clauseDb ctx.trail ctx.watches →
      (∀ ci ∈ wl, WatchOk ctx.clauseDb ci) →
      ctx.trail.isLitSatisfied lit = true →
      Inv V ctx'.clauseDb ctx'.trail ctx'.watches ∧
      (∀ ci ∈ kept, WatchOk ctx'.clauseDb ci) ∧
      (∀ ci, WatchOk ctx.clauseDb ci → WatchOk ctx'.clauseDb ci) ∧
      ctx'.clauseDb.generation = ctx.clauseDb.generation ∧
      ctx'.trail.decisionPositions = ctx.trail.decisionPositions ∧
      (∃ Δ, ctx'.trail.trail = ctx.trail.trail ++ Δ) ∧
      (∀ C, bigPresent ctx.clauseDb C → bigPresent ctx'.clauseDb C) ∧
      (∀ l, unitSlot ctx.trail l → unitSlot ctx'.trail l) := by
  intro wl
  induction wl with
  | nil =>
    intro ctx kept confl ctx' h hinv hwl hsat
    unfold propagateWatchList at h
    cases h
    refine ⟨hinv, ?_, fun ci hw => hw, rfl, rfl, ⟨[], by simp⟩,
      fun C hC => hC, fun l hl => hl⟩
    intro ci hci
    cases hci
  | cons w rest ih =>
    intro ctx kept confl ctx' h hinv hwl hsat
    have hwOk : WatchOk ctx.clauseDb w := hwl w (List.mem_cons_self _ _)
    have hrestOk : ∀ ci ∈ rest, WatchOk ctx.clauseDb ci :=
      fun ci hci => hwl ci (List.mem_cons_of_mem _ hci)
    unfold propagateWatchList at h
    rcases hget : ctx.clauseDb.get w with _ | cls
    · rw [hget] at h
      cases h
    simp only [hget] at h
    rcases hwi : watchedLitIdx cls.lits lit with _ | litIdx
    · rw [hwi] at h
      cases h
    simp only [hwi] at h
    rcases hoth : cls.lits.get? (1 - litIdx) with _ | other
    · rw [hoth] at h
      cases h
    simp only [hoth] at h
    -- facts about the fetched clause
    have hgetIdx : ctx.clauseDb.clauses.get? w.idx = some cls := by
      unfold ClauseDB.get at hget
      split at hget
      · exact hget
      · cases hget
    have hglue : cls.glue = none := by
      obtain ⟨-, r, hr, hg⟩ := hwOk
      rw [hgetIdx] at hr
      cases hr
      exact hg
    obtain ⟨hIdx01, hwatched⟩ := watchedLitIdx_spec hwi
    -- case split on the branch taken
    by_cases hsatOther : ctx.trail.isLitSatisfied other = true
    · -- clause satisfied by the other watched literal: untouched
      rw [if_pos hsatOther] at h
      rcases hrec : propagateWatchList lit rest ctx with _ | out
      · rw [hrec] at h
        cases h
      obtain ⟨kept1, confl1, ctx1⟩ := out
      simp only [hrec] at h
      cases h
      obtain ⟨hinv', hkept', htrans', hgen', hdp', hΔ', hbig', hunit'⟩ :=
        ih ctx _ _ _ hrec hinv hrestOk hsat
      refine ⟨hinv', ?_, htrans', hgen', hdp', hΔ', hbig', hunit'⟩
      intro ci hci
      rcases List.mem_cons.mp hci with hci | hci
      · rw [hci]
        exact htrans' w hwOk
      · exact hkept' ci hci
    · rw [if_neg hsatOther] at h
      rcases hfind : findNonFalse ctx.trail (cls.lits.drop 2) 2 with _ | kc
      · -- no replacement watch found
        simp only [hfind] at h
        by_cases hun : ctx.trail.isLitUnassigned other = true
        · -- unit: assign `other` with reason `w`
          rw [if_pos hun] at h
          rcases hassign : ctx.trail.assignLit other (.propagated w)
              with _ | t2
          · rw [hassign] at h
            cases h
          simp only [hassign] at h
          rcases hswap : ctx.clauseDb.swapLits w 0 (1 - litIdx) with _ | db2
          · rw [hswap] at h
            cases h
          simp only [hswap] at h
          rcases hrec : propagateWatchList lit rest
              { ctx with
                trail := t2
                clauseDb := db2
                stats := { ctx.stats with
                  propagations := ctx.stats.propagations + 1 } } with _ | out
          · rw [hrec] at h
            cases h
          obtain ⟨kept1, confl1, ctx1⟩ := out
          simp only [hrec] at h
          cases h
          -- the asserted literal was unassigned, so no trail element can
          -- already use `w` as its reason (blocker argument)
          have hnoReason : ∀ e ∈ ctx.trail.trail, e.reason ≠ .propagated w := by
            intro e he hre
            have hobl := hinv.reasons e he w hre
            obtain ⟨h0, hesat, hoth2⟩ :=
              ReasonObl.lits_state hinv.wf hobl hgetIdx hglue he
            rcases hIdx01 with h01 | h01
            · -- watched index 0 holds ¬lit, but index 0 holds the
              -- satisfied asserted literal
              rw [h01] at hwatched
              rw [hwatched] at h0
              have he2 : e.lit = litNeg lit := (Option.some.inj h0).symm
              have h1 := Trail.sat_neg_unsat_t hsat
              rw [← he2] at h1
              rw [Trail.sat_unsat_false_t hesat] at h1
              cases h1
            · -- watched index 1, so `other` is index 0 = asserted literal
              have hoth0 : cls.lits.get? 0 = some other := by
                rw [h01] at hoth
                simpa using hoth
              rw [hoth0] at h0
              have he2 : e.lit = other := (Option.some.inj h0).symm
              rw [he2] at hesat
              rw [Trail.sat_not_unassigned_t hesat] at hun
              cases hun
          obtain ⟨htr2, hdp2, hvlt, hnone2, hassn2⟩ :=
            Trail.assignLit_eq_some hassign
          have hdp2' : t2.decisionPositions = ctx.trail.decisionPositions := by
            rw [hdp2]
            simp
          -- the swapped clause record
          obtain ⟨r0, l0, lo, hr0, hl0, hlo, hself⟩ :=
            ClauseDB.swapLits_get?_self hswap
          rw [hgetIdx] at hr0
          cases hr0
          rw [hoth] at hlo
          cases hlo
          obtain ⟨hgen2, hlen2, -, -⟩ := ClauseDB.swapLits_spec hswap
          -- slot of the new element
          have hslotNew : t2.assignment.getD (litVar other) none =
              some ⟨litIsPos other, ctx.trail.decisionPositions.length,
                .propagated w⟩ := by
            rw [hassn2, hdp2']
            exact Assignment.getD_set_self _ _ _ hvlt
          -- unsatisfied facts about the other positions of the clause
          have hunsatTail : ∀ k lk, cls.lits.get? k = some lk → 2 ≤ k →
              ctx.trail.isLitUnsatisfied lk = true := by
            intro k lk hk h2k
            refine findNonFalse_none _ 2 hfind (k - 2) lk ?_
            rw [List.get?_drop]
            rw [show 2 + (k - 2) = k by omega]
            exact hk
          have hneglitUnsat : ctx.trail.isLitUnsatisfied (litNeg lit) = true :=
            Trail.sat_neg_unsat_t hsat
          -- the new clause literal layout
          have hlits2 : ∀ k lk,
              ((cls.lits.set 0 other).set (1 - litIdx) l0).get? k = some lk →
              k ≠ 0 → (ctx.trail.isLitUnsatisfied lk = true) := by
            intro k lk hk hk0
            rcases hIdx01 with h01 | h01
            · -- litIdx = 0, otherIdx = 1: position 1 now holds l0 = ¬lit
              rw [h01] at hwatched hk
              simp only [Nat.sub_zero] at hk
              rw [hwatched] at hl0
              have hl0eq : l0 = litNeg lit := (Option.some.inj hl0).symm
              by_cases hk1 : k = 1
              · subst hk1
                rw [List.get?_set_eq] at hk
                have h2 : (cls.lits.set 0 other).get? 1 = cls.lits.get? 1 :=
                  List.get?_set_ne _ _ (by omega)
                rw [h2] at hk
                rcases hg1 : cls.lits.get? 1 with _ | x
                · rw [hg1] at hk
                  cases hk
                · rw [hg1] at hk
                  simp only [Option.map_eq_map, Option.map_some'] at hk
                  cases hk
                  rw [hl0eq]
                  exact hneglitUnsat
              · have h2 : ((cls.lits.set 0 other).set 1 l0).get? k =
                    cls.lits.get? k := by
                  rw [List.get?_set_ne _ _ (show (1 : Nat) ≠ k by omega),
                    List.get?_set_ne _ _ (show (0 : Nat) ≠ k by omega)]
                rw [h2] at hk
                exact hunsatTail k lk hk (by omega)
            · -- litIdx = 1, otherIdx = 0: other = cls[0]; sets collapse
              have hoth0 : cls.lits.get? 0 = some other := by
                rw [h01] at hoth
                simpa using hoth
              rw [h01] at hwatched hk
              simp only [Nat.sub_self] at hk
              rw [hoth0] at hl0
              cases hl0
              have hcollapse : (cls.lits.set 0 other).set 0 other =
                  cls.lits := by
                rw [List.set_set, set_self_of_get? hoth0]
              rw [hcollapse] at hk
              by_cases hk1 : k = 1
              · subst hk1
                rw [hwatched] at hk
                cases hk
                exact hneglitUnsat
              · exact hunsatTail k lk hk (by omega)
          -- the new element's reason obligation
          have hoblNew : ReasonObl db2 t2 ⟨other, .propagated w⟩ w := by
            unfold ReasonObl
            refine ⟨hwOk.1.trans hgen2.symm, _, _, hself, hslotNew,
              ?_, ?_, ?_, ?_⟩
            · simp only [List.length_set]
              rcases hIdx01 with h01 | h01
              · have hoth1 : cls.lits.get? 1 = some other := by
                  rw [h01] at hoth
                  simpa using hoth
                have := (List.get?_eq_some.mp hoth1).1
                omega
              · rw [h01] at hwatched
                have := (List.get?_eq_some.mp hwatched).1
                omega
            · intro _
              show ((cls.lits.set 0 other).set (1 - litIdx) l0).get? 0 =
                some other
              rcases hIdx01 with h01 | h01
              · rw [h01]
                simp only [Nat.sub_zero]
                rw [List.get?_set_ne _ _ (by omega), List.get?_set_eq, hl0]
                rfl
              · have hoth0 : cls.lits.get? 0 = some other := by
                  rw [h01] at hoth
                  simpa using hoth
                have hl0eq : l0 = other := by
                  rw [hoth0] at hl0
                  exact (Option.some.inj hl0).symm
                rw [h01]
                simp only [Nat.sub_self, List.set_set]
                rw [hl0eq, set_self_of_get? hoth0]
                exact hoth0
            · intro hgne
              exact absurd hglue hgne
            · intro k lk hk
              constructor
              · intro _ hk0
                have hu := hlits2 k lk hk hk0
                obtain ⟨dk, hdk, hdkst⟩ := Assignment.slot_of_unsat hu
                refine ⟨Trail.assignLit_unsat_preserved hassign hu, dk,
                  Trail.assignLit_slot_preserved hassign hdk, ?_⟩
                exact TrailWf.slot_level_le hinv.wf hdk
              · intro hgne
                exact absurd hglue hgne
          -- invariant for the recursive call's context
          have hinv2 : Inv V db2 t2 ctx.watches := by
            refine ⟨hinv.wf.assignLit_wf hassign, ?_, ?_, ?_⟩
            · rw [Trail.assignLit_alen hassign, hinv.alen]
            · intro lst hlst ci hci
              exact (hinv.watchOk lst hlst ci hci).swapLits_watch hswap
            · intro e he ci hci
              rw [htr2] at he
              rcases List.mem_append.mp he with he | he
              · -- old element
                have hobl := (hinv.reasons e he ci hci).assignLit_reason hassign
                by_cases hidx : ci.idx = w.idx
                · exfalso
                  have hcieq : ci = w := by
                    have h1 : ci.generation = ctx.clauseDb.generation :=
                      (hinv.reasons e he ci hci).1
                    have h2 : w.generation = ctx.clauseDb.generation := hwOk.1
                    cases ci
                    cases w
                    simp_all
                  rw [hcieq] at hci
                  exact hnoReason e he hci
                · obtain ⟨hg0, r1, d1, hr1, hd1, hlen1, h01, hlast1, hoth1⟩ :=
                    hobl
                  refine ⟨hg0.trans hgen2.symm, r1, d1, ?_, hd1, hlen1,
                    h01, hlast1, hoth1⟩
                  rw [ClauseDB.swapLits_get?_other hswap hidx]
                  exact hr1
              · -- the freshly pushed element
                simp only [List.mem_singleton] at he
                subst he
                simp only at hci
                cases hci
                exact hoblNew
          obtain ⟨hinv', hkept', htrans', hgen', hdp', hΔ', hbig', hunit'⟩ :=
            ih _ _ _ _ hrec hinv2 (fun ci hci =>
              (hrestOk ci hci).swapLits_watch hswap)
              (Trail.assignLit_sat_preserved hassign hsat)
          refine ⟨hinv', ?_, ?_, by simp only at hgen' ⊢; rw [hgen', hgen2],
            ?_, ?_, ?_, ?_⟩
          · intro ci hci
            rcases List.mem_cons.mp hci with hci | hci
            · rw [hci]
              exact htrans' w (hwOk.swapLits_watch hswap)
            · exact hkept' ci hci
          · intro ci hw2
            exact htrans' ci (hw2.swapLits_watch hswap)
          · simp only at hdp'
            rw [hdp', hdp2']
          · obtain ⟨Δ, hΔ⟩ := hΔ'
            simp only at hΔ
            rw [hΔ, htr2]
            exact ⟨_, by rw [List.append_assoc]⟩
          · intro C hC
            exact hbig' C (hC.swapLits_big hswap)
          · intro l hl
            exact hunit' l (hl.assignLit_unit hassign)
        · -- conflict: `other` is unsatisfied
          rw [if_neg hun] at h
          cases h
          refine ⟨hinv, ?_, fun ci hw2 => hw2, rfl, rfl, ⟨[], by simp⟩,
            fun C hC => hC, fun l hl => hl⟩
          intro ci hci
          rcases List.mem_cons.mp hci with hci | hci
          · exact hci ▸ hwOk
          · exact hrestOk ci hci
      · -- replacement watch found at position k
        obtain ⟨k, cand⟩ := kc
        simp only [hfind] at h
        obtain ⟨h2k, hcandGet, hcandNotUnsat⟩ :=
          findNonFalse_some _ 2 k cand hfind
        have hkGet : cls.lits.get? k = some cand := by
          rw [List.get?_drop] at hcandGet
          rw [show 2 + (k - 2) = k by omega] at hcandGet
          exact hcandGet
        split at h
        · cases h
        rcases hpush : ctx.watches.push (litToIdx cand) w with _ | ws
        · rw [hpush] at h
          cases h
        simp only [hpush] at h
        rcases hswap : ctx.clauseDb.swapLits w litIdx k with _ | db2
        · rw [hswap] at h
          cases h
        simp only [hswap] at h
        -- no trail element can use `w` as its reason: the candidate
        -- position would have to be unsatisfied
        have hnoReason : ∀ e ∈ ctx.trail.trail, e.reason ≠ .propagated w := by
          intro e he hre
          have hobl := hinv.reasons e he w hre
          obtain ⟨h0, hesat, hoth2⟩ :=
            ReasonObl.lits_state hinv.wf hobl hgetIdx hglue he
          have := hoth2 k cand hkGet (by omega)
          rw [this] at hcandNotUnsat
          cases hcandNotUnsat
        obtain ⟨lstC, hlstC, hwseq⟩ := Watches.push_eq hpush
        have hinv2 : Inv V db2 ctx.trail ws := by
          refine ⟨hinv.wf, hinv.alen, ?_, ?_⟩
          · intro lst hlst ci hci
            rw [hwseq] at hlst
            rcases mem_set_or lst hlst with hlst | hlst
            · subst hlst
              rcases List.mem_append.mp hci with hci | hci
              · exact (hinv.watchOk lstC (List.get?_mem hlstC) ci hci).swapLits_watch
                  hswap
              · simp only [List.mem_singleton] at hci
                exact (hci ▸ hwOk).swapLits_watch hswap
            · exact (hinv.watchOk lst hlst ci hci).swapLits_watch hswap
          · intro e he ci hci
            have hobl := hinv.reasons e he ci hci
            by_cases hidx : ci.idx = w.idx
            · exfalso
              have hcieq : ci = w := by
                have h1 : ci.generation = ctx.clauseDb.generation := hobl.1
                have h2 : w.generation = ctx.clauseDb.generation := hwOk.1
                cases ci
                cases w
                simp_all
              rw [hcieq] at hci
              exact hnoReason e he hci
            · obtain ⟨hg0, r1, d1, hr1, hd1, hlen1, h01, hlast1, hoth1⟩ := hobl
              obtain ⟨hgen2, -⟩ := ClauseDB.swapLits_spec hswap
              refine ⟨hg0.trans hgen2.symm, r1, d1, ?_, hd1, hlen1,
                h01, hlast1, hoth1⟩
              rw [ClauseDB.swapLits_get?_other hswap hidx]
              exact hr1
        obtain ⟨hgen2, -⟩ := ClauseDB.swapLits_spec hswap
        obtain ⟨hinv', hkept', htrans', hgen', hdp', hΔ', hbig', hunit'⟩ :=
          ih _ kept confl ctx' h hinv2 (fun ci hci =>
            (hrestOk ci hci).swapLits_watch hswap) hsat
        refine ⟨hinv', hkept', ?_, by simp only at hgen'; rw [hgen', hgen2],
          hdp', hΔ', ?_, hunit'⟩
        · intro ci hw2
          exact htrans' ci (hw2.swapLits_watch hswap)
        · intro C hC
          exact hbig' C (hC.swapLits_big hswap)

theorem SolverInv.trail_le {V : Nat} {s : Solver} (hinv : SolverInv V s) :
    s.trail.trail.length ≤ V := by
  have := hinv.wf.trail_length_le
  rw [hinv.alen] at this
  exact this

theorem propagateStep_inv {V : Nat} {s : Solver} {elem : TrailElement}
    {lw kept : List ClauseIdx} {confl : Option ClauseIdx} {ctx : PropCtx}
    (hinv : SolverInv V s)
    (hlw : s.watches.get? (litToIdx (litNeg elem.lit)) = some lw)
    (hwlr : propagateWatchList elem.lit lw
      ⟨s.clauseDb, s.trail, s.watches, s.stats⟩ = some (kept, confl, ctx))
    (hsat : s.trail.isLitSatisfied elem.lit = true) :
    SolverInv V { s with
      clauseDb := ctx.clauseDb
      trail := ctx.trail
      watches := ctx.watches.set (litToIdx (litNeg elem.lit)) kept
      stats := ctx.stats } ∧
    ctx.clauseDb.generation = s.clauseDb.generation ∧
    ctx.trail.decisionPositions = s.trail.decisionPositions ∧
    (∃ Δ, ctx.trail.trail = s.trail.trail ++ Δ) ∧
    (∀ C, bigPresent s.clauseDb C → bigPresent ctx.clauseDb C) ∧
    (∀ l, unitSlot s.trail l → unitSlot ctx.trail l) := by
  have hwl : ∀ ci ∈ lw, WatchOk s.clauseDb ci :=
    hinv.watchOk lw (List.get?_mem hlw)
  obtain ⟨hinv', hkept', htrans', hgen', hdp', hΔ', hbig', hunit'⟩ :=
    propagateWatchList_spec lw ⟨s.clauseDb, s.trail, s.watches, s.stats⟩
      kept confl ctx hwlr hinv hwl hsat
  refine ⟨⟨hinv'.wf, hinv'.alen, ?_, hinv'.reasons⟩,
    hgen', hdp', hΔ', hbig', hunit'⟩
  intro lst hlst ci hci
  rcases mem_set_or lst hlst with hlst | hlst
  · exact hkept' ci (hlst ▸ hci)
  · exact hinv'.watchOk lst hlst ci hci

theorem propagateGo_spec {V : Nat} :
    ∀ (fuel trailPos : Nat) (s : Solver) (res : PropagationResult)
      (s' : Solver),
      Solver.propagateGo fuel trailPos s = .ok (res, s') →
      SolverInv V s →
      SolverInv V s' ∧
      s'.clauseDb.generation = s.clauseDb.generation ∧
      s'.trail.decisionPositions = s.trail.decisionPositions ∧
      (∃ Δ, s'.trail.trail = s.trail.trail ++ Δ) ∧
      (∀ C, bigPresent s.clauseDb C → bigPresent s'.clauseDb C) ∧
      (∀ l, unitSlot s.trail l → unitSlot s'.trail l) ∧
      s'.triviallyUnsat = s.triviallyUnsat ∧
      s'.limits = s.limits := by
  intro fuel
  induction fuel with
  | zero =>
    intro trailPos s res s' h hinv
    cases h
  | succ n ih =>
    intro trailPos s res s' h hinv
    unfold Solver.propagateGo at h
    rcases hget : s.trail.get trailPos with _ | elem
    · simp only [hget] at h
      split at h
      · cases h
        exact ⟨⟨hinv.wf, hinv.alen, hinv.watchOk, hinv.reasons⟩, rfl, rfl,
          ⟨[], by simp⟩, fun C hC => hC, fun l hl => hl, rfl, rfl⟩
      · cases h
    · simp only [hget] at h
      split at h
      · cases h
      rename_i hsat'
      rcases hlw : s.watches.get? (litToIdx (litNeg elem.lit)) with _ | lw
      · rw [hlw] at h
        cases h
      simp only [hlw] at h
      rcases hwlr : propagateWatchList elem.lit lw
          ⟨s.clauseDb, s.trail, s.watches, s.stats⟩ with _ | out
      · rw [hwlr] at h
        cases h
      obtain ⟨kept, confl, ctx⟩ := out
      simp only [hwlr] at h
      have hsat : s.trail.isLitSatisfied elem.lit = true := by
        by_contra hc
        exact hsat' (by simpa using hc)
      obtain ⟨hinv2, hgen2, hdp2, hΔ2, hbig2, hunit2⟩ :=
        propagateStep_inv hinv hlw hwlr hsat
      rcases confl with _ | c
      · -- no conflict in this list: continue with next trail position
        obtain ⟨hinv', hgen', hdp', hΔ', hbig', hunit', htu', hlim'⟩ :=
          ih (trailPos + 1) _ res s' h hinv2
        refine ⟨hinv', by simp only at hgen' ⊢; rw [hgen', hgen2],
          by simp only at hdp' ⊢; rw [hdp', hdp2], ?_, ?_, ?_, htu', hlim'⟩
        · obtain ⟨Δ1, hΔ1⟩ := hΔ2
          obtain ⟨Δ2, hΔ2'⟩ := hΔ'
          simp only at hΔ2'
          rw [hΔ2', hΔ1]
          exact ⟨_, by rw [List.append_assoc]⟩
        · intro C hC
          exact hbig' C (hbig2 C hC)
        · intro l hl
          exact hunit' l (hunit2 l hl)
      · -- conflict found
        cases h
        exact ⟨hinv2, hgen2, hdp2, hΔ2, hbig2, hunit2, rfl, rfl⟩

theorem propagateGo_no_fuelOut {V : Nat} :
    ∀ (fuel trailPos : Nat) (s : Solver), SolverInv V s → 1 ≤ fuel →
      V + 2 ≤ fuel + trailPos →
      Solver.propagateGo fuel trailPos s ≠ .fuelOut := by
  intro fuel
  induction fuel with
  | zero =>
    intro trailPos s hinv h1 h2
    omega
  | succ n ih =>
    intro trailPos s hinv h1 h2 hcon
    unfold Solver.propagateGo at hcon
    rcases hget : s.trail.get trailPos with _ | elem
    · simp only [hget] at hcon
      split at hcon
      · cases hcon
      · cases hcon
    · simp only [hget] at hcon
      split at hcon
      · cases hcon
      rcases hlw : s.watches.get? (litToIdx (litNeg elem.lit)) with _ | lw
      · rw [hlw] at hcon
        cases hcon
      simp only [hlw] at hcon
      rcases hwlr : propagateWatchList elem.lit lw
          ⟨s.clauseDb, s.trail, s.watches, s.stats⟩ with _ | out
      · rw [hwlr] at hcon
        cases hcon
      obtain ⟨kept, confl, ctx⟩ := out
      simp only [hwlr] at hcon
      rename_i hsat'
      have hsat : s.trail.isLitSatisfied elem.lit = true := by
        by_contra hc
        exact hsat' (by simpa using hc)
      obtain ⟨hinv2, -, -, -, -, -⟩ := propagateStep_inv hinv hlw hwlr hsat
      rcases confl with _ | c
      · -- recursion: the element at `trailPos` bounds the position
        have hpos : trailPos < s.trail.trail.length := by
          unfold Trail.get at hget
          exact (List.get?_eq_some.mp hget).1
        have hbound : s.trail.trail.length ≤ V := hinv.trail_le
        exact ih (trailPos + 1) _ hinv2 (by omega) (by omega) hcon
      · cases hcon

theorem Solver.propagate_spec {V : Nat} {s : Solver} {fuel : Nat}
    {res : PropagationResult} {s' : Solver}
    (h : s.propagate fuel = .ok (res, s')) (hinv : SolverInv V s) :
    SolverInv V s' ∧
    s'.clauseDb.generation = s.clauseDb.generation ∧
    s'.trail.decisionPositions = s.trail.decisionPositions ∧
    (∃ Δ, s'.trail.trail = s.trail.trail ++ Δ) ∧
    (∀ C, bigPresent s.clauseDb C → bigPresent s'.clauseDb C) ∧
    (∀ l, unitSlot s.trail l → unitSlot s'.trail l) ∧
    s'.triviallyUnsat = s.triviallyUnsat ∧
    s'.limits = s.limits :=
  propagateGo_spec fuel s.unpropagatedLitPos s res s' h hinv


/-! ## Invariant preservation: conflict analysis, supporting facts -/

theorem mapM_option_forall₂ {α β : Type} {f : α → Option β} :
    ∀ {l : List α} {ys : List β}, l.mapM f = some ys →
      List.Forall₂ (fun x y => f x = some y) l ys := by
  intro l
  induction l with
  | nil =>
    intro ys h
    rw [List.mapM_nil] at h
    cases h
    exact List.Forall₂.nil
  | cons x xs ih =>
    intro ys h
    rw [List.mapM_cons] at h
    rcases hfx : f x with _ | y
    · rw [hfx] at h
      cases h
    · rw [hfx] at h
      rcases hrest : xs.mapM f with _ | ys'
      · rw [hrest] at h
        cases h
      · rw [hrest] at h
        cases h
        exact List.Forall₂.cons hfx (ih hrest)

theorem forall₂_mem_left {α β : Type} {R : α → β → Prop} :
    ∀ {l : List α} {ys : List β}, List.Forall₂ R l ys →
      ∀ x ∈ l, ∃ y ∈ ys, R x y := by
  intro l ys h
  induction h with
  | nil =>
    intro x hx
    cases hx
  | cons hR hrest ih =>
    intro x hx
    rcases List.mem_cons.mp hx with hx | hx
    · exact ⟨_, List.mem_cons_self _ _, hx ▸ hR⟩
    · obtain ⟨y, hy, hRy⟩ := ih x hx
      exact ⟨y, List.mem_cons_of_mem _ hy, hRy⟩

theorem forall₂_mem_right {α β : Type} {R : α → β → Prop} :
    ∀ {l : List α} {ys : List β}, List.Forall₂ R l ys →
      ∀ y ∈ ys, ∃ x ∈ l, R x y := by
  intro l ys h
  induction h with
  | nil =>
    intro y hy
    cases hy
  | cons hR hrest ih =>
    intro y hy
    rcases List.mem_cons.mp hy with hy | hy
    · exact ⟨_, List.mem_cons_self _ _, hy ▸ hR⟩
    · obtain ⟨x, hx, hRx⟩ := ih y hy
      exact ⟨x, List.mem_cons_of_mem _ hx, hRx⟩

theorem clearPoppedReasons_get? :
    ∀ (popped : List TrailElement) (db db' : ClauseDB),
      clearPoppedReasons db popped = some db' →
      ∀ k r, db.clauses.get? k = some r → ∃ r',
        db'.clauses.get? k = some r' ∧ r'.isGarbage = r.isGarbage ∧
        r'.glue = r.glue ∧ r'.lits = r.lits := by
  intro popped
  induction popped with
  | nil =>
    intro db db' h k r hk
    cases h
    exact ⟨r, hk, rfl, rfl, rfl⟩
  | cons e rest ih =>
    intro db db' h k r hk
    unfold clearPoppedReasons at h
    rcases he : e.reason with _ | c | _
    · simp only [he] at h
      exact ih db db' h k r hk
    · simp only [he] at h
      rcases hm : db.modify c (fun r => { r with isReason := false })
          with _ | db1
      · rw [hm] at h
        cases h
      · rw [hm] at h
        obtain ⟨-, -, r0, hr0, hdb1⟩ := ClauseDB.modify_spec hm
        by_cases hkc : k = c.idx
        · subst hkc
          rw [hr0] at hk
          cases hk
          have hk1 : db1.clauses.get? c.idx =
              some { r with isReason := false } := by
            rw [hdb1, List.get?_set_eq, hr0]
            rfl
          obtain ⟨r', hr', hg, hgl, hl⟩ := ih db1 db' h c.idx _ hk1
          exact ⟨r', hr', hg, hgl, hl⟩
        · have hk1 : db1.clauses.get? k = some r := by
            rw [hdb1, List.get?_set_ne _ _ (fun hkk => hkc hkk.symm)]
            exact hk
          exact ih db1 db' h k r hk1
    · simp only [he] at h
      exact ih db db' h k r hk

theorem Trail.getDecisionLevel_litNeg (t : Trail) (l : Nat) :
    t.getDecisionLevel (litNeg l) = t.getDecisionLevel l := by
  unfold Trail.getDecisionLevel Assignment.getData
  rw [litVar_litNeg]

theorem findUip_spec {t : Trail} {a : AnalyzeState} :
    ∀ (pos uip pos' : Nat), findUip t a pos = some (uip, pos') →
      ∃ e, t.trail.get? pos' = some e ∧ e.lit = uip ∧
        t.getDecisionLevel uip = some t.currentDecisionLevel := by
  intro pos
  induction pos with
  | zero =>
    intro uip pos' h
    cases h
  | succ n ih =>
    intro uip pos' h
    unfold findUip at h
    rcases hget : t.get n with _ | e
    · rw [hget] at h
      cases h
    simp only [hget] at h
    split at h
    · exact ih _ _ h
    rcases hlvl : t.getDecisionLevel e.lit with _ | lvl
    · rw [hlvl] at h
      cases h
    simp only [hlvl] at h
    split at h
    · rename_i heq
      cases h
      exact ⟨e, hget, rfl, by rw [hlvl, heq]⟩
    · exact ih _ _ h

theorem AnalyzeState.analyzeLiteral_newClause {a : AnalyzeState} {t : Trail}
    {l : Nat} {a' : AnalyzeState} (h : a.analyzeLiteral t l = some a') :
    ∀ x ∈ a'.newClause, x ∈ a.newClause ∨
      (t.isLitUnsatisfied x = true ∧
        ∃ lvl, t.getDecisionLevel x = some lvl ∧
          lvl < t.currentDecisionLevel) := by
  unfold AnalyzeState.analyzeLiteral at h
  split at h
  · cases h
    intro x hx
    exact Or.inl hx
  · rcases hlvl : t.getDecisionLevel l with _ | litLevel
    · rw [hlvl] at h
      cases h
    simp only [hlvl] at h
    split at h
    · cases h
    split at h
    · cases h
    rename_i hunsat hle
    have hunsat' : t.isLitUnsatisfied l = true := by
      by_contra hc
      exact hunsat (by simpa using hc)
    by_cases hlt : litLevel < t.currentDecisionLevel
    · rw [if_pos hlt] at h
      split at h
      · cases h
      rename_i sn hsneq
      cases sn
      · simp only [Bool.false_eq_true, if_false] at h
        split at h
        · cases h
          intro x hx
          have hx1 : x ∈ a.newClause ++ [l] := hx
          rcases List.mem_append.mp hx1 with hx2 | hx2
          · exact Or.inl hx2
          · simp only [List.mem_singleton] at hx2
            subst hx2
            exact Or.inr ⟨hunsat', litLevel, hlvl, hlt⟩
        · cases h
      · simp only [eq_self_iff_true, if_true] at h
        split at h
        · cases h
          intro x hx
          have hx1 : x ∈ a.newClause ++ [l] := hx
          rcases List.mem_append.mp hx1 with hx2 | hx2
          · exact Or.inl hx2
          · simp only [List.mem_singleton] at hx2
            subst hx2
            exact Or.inr ⟨hunsat', litLevel, hlvl, hlt⟩
        · cases h
    · rw [if_neg hlt] at h
      split at h
      · cases h
      rename_i sn hsneq
      cases sn
      · simp only [Bool.false_eq_true, if_false] at h
        split at h
        · cases h
          intro x hx
          have hx1 : x ∈ a.newClause := hx
          exact Or.inl hx1
        · cases h
      · simp only [eq_self_iff_true, if_true] at h
        split at h
        · cases h
          intro x hx
          have hx1 : x ∈ a.newClause := hx
          exact Or.inl hx1
        · cases h

theorem AnalyzeState.analyzeReason_newClause {t : Trail} {uip : Option Nat} :
    ∀ (reason : List Nat) (a : AnalyzeState) (a' : AnalyzeState),
      a.analyzeReason t uip reason = some a' →
      ∀ x ∈ a'.newClause, x ∈ a.newClause ∨
        (t.isLitUnsatisfied x = true ∧
          ∃ lvl, t.getDecisionLevel x = some lvl ∧
            lvl < t.currentDecisionLevel) := by
  intro reason
  induction reason with
  | nil =>
    intro a a' h
    cases h
    intro x hx
    exact Or.inl hx
  | cons ol rest ih =>
    intro a a' h
    unfold AnalyzeState.analyzeReason at h
    split at h
    · exact ih a a' h
    · rcases hlit : a.analyzeLiteral t ol with _ | a1
      · rw [hlit] at h
        cases h
      · rw [hlit] at h
        intro x hx
        rcases ih a1 a' h x hx with hx1 | hx1
        · exact AnalyzeState.analyzeLiteral_newClause hlit x hx1
        · exact Or.inr hx1

theorem analyzeGo_spec {db : ClauseDB} {t : Trail} :
    ∀ (fuel : Nat) (reason : List Nat) (uip? : Option Nat) (pos : Nat)
      (a a' : AnalyzeState) (uip : Nat),
      analyzeGo db t fuel reason uip? pos a = some (a', uip) →
      (∀ x ∈ a.newClause, t.isLitUnsatisfied x = true ∧
        ∃ lvl, t.getDecisionLevel x = some lvl ∧
          lvl < t.currentDecisionLevel) →
      (∀ x ∈ a'.newClause, t.isLitUnsatisfied x = true ∧
        ∃ lvl, t.getDecisionLevel x = some lvl ∧
          lvl < t.currentDecisionLevel) ∧
      t.getDecisionLevel uip = some t.currentDecisionLevel := by
  intro fuel
  induction fuel with
  | zero =>
    intro reason uip? pos a a' uip h ha
    cases h
  | succ n ih =>
    intro reason uip? pos a a' uip h ha
    unfold analyzeGo at h
    rcases hr : a.analyzeReason t uip? reason with _ | a1
    · rw [hr] at h
      cases h
    simp only [hr] at h
    have ha1 : ∀ x ∈ a1.newClause, t.isLitUnsatisfied x = true ∧
        ∃ lvl, t.getDecisionLevel x = some lvl ∧
          lvl < t.currentDecisionLevel := by
      intro x hx
      rcases AnalyzeState.analyzeReason_newClause reason a a1 hr x hx
          with hx1 | hx1
      · exact ha x hx1
      · exact hx1
    rcases hfu : findUip t a1 pos with _ | up
    · rw [hfu] at h
      cases h
    obtain ⟨u, pos'⟩ := up
    simp only [hfu] at h
    split at h
    · cases h
      obtain ⟨e, -, -, hlvl⟩ := findUip_spec pos _ _ hfu
      exact ⟨ha1, hlvl⟩
    · rcases hrc : t.getReasonCls u with _ | rIdx
      · rw [hrc] at h
        cases h
      simp only [hrc] at h
      rcases hcls : db.get rIdx with _ | cls
      · rw [hcls] at h
        cases h
      simp only [hcls] at h
      exact ih cls.lits (some u) pos' _ a' uip h ha1

theorem Trail.backtrack_alen {t : Trail} {lvl : Nat} {t' : Trail}
    {popped : List TrailElement} {resume : Nat}
    (h : t.backtrack lvl = some (t', popped, resume)) :
    t'.assignment.length = t.assignment.length := by
  rcases Trail.backtrack_eq h with ⟨-, heq⟩ | ⟨pos, -, -, -, -, -, hu⟩
  · cases heq
    rfl
  · exact unassignAll_length hu

theorem OtherLitOk.backtrack_other {t : Trail} (wf : TrailWf t) {lvl : Nat}
    {t' : Trail} {popped : List TrailElement} {resume : Nat}
    (h : t.backtrack lvl = some (t', popped, resume)) {lv lk : Nat}
    (ho : OtherLitOk t lv lk) (hle : lv ≤ lvl) : OtherLitOk t' lv lk := by
  obtain ⟨hu, dk, hdk, hlvl⟩ := ho
  have hkeep := wf.backtrack_keep h (litVar lk) dk hdk (by omega)
  obtain ⟨dk2, hdk2, hst⟩ := Assignment.slot_of_unsat hu
  rw [hdk] at hdk2
  cases hdk2
  exact ⟨Assignment.unsat_of_slot hkeep hst, dk, hkeep, hlvl⟩


theorem ReasonObl.trans_db_reason {db db' : ClauseDB} {t : Trail} {e : TrailElement}
    {ci : ClauseIdx} (hobl : ReasonObl db t e ci)
    (hgen : db'.generation = db.generation)
    (hpres : ∀ k r, db.clauses.get? k = some r → ∃ r',
      db'.clauses.get? k = some r' ∧ r'.glue = r.glue ∧ r'.lits = r.lits) :
    ReasonObl db' t e ci := by
  obtain ⟨hg, r, d, hr, hd, hlen, h0, hlast, hoth⟩ := hobl
  obtain ⟨r', hr', hglue', hlits'⟩ := hpres ci.idx r hr
  refine ⟨by rw [hgen, hg], r', d, hr', hd, by rw [hlits']; exact hlen,
    ?_, ?_, ?_⟩
  · intro hgn
    rw [hglue'] at hgn
    rw [hlits']
    exact h0 hgn
  · intro hgn
    rw [hglue'] at hgn
    rw [hlits']
    exact hlast hgn
  · intro k lk hk
    rw [hlits'] at hk
    obtain ⟨ha, hb⟩ := hoth k lk hk
    refine ⟨?_, ?_⟩
    · intro hgn hk0
      rw [hglue'] at hgn
      exact ha hgn hk0
    · intro hgn hkl
      rw [hglue'] at hgn
      rw [hlits'] at hkl
      exact hb hgn hkl

theorem WatchOk.trans_db_watch {db db' : ClauseDB} {ci : ClauseIdx}
    (hw : WatchOk db ci) (hgen : db'.generation = db.generation)
    (hpres : ∀ k r, db.clauses.get? k = some r → ∃ r',
      db'.clauses.get? k = some r' ∧ r'.glue = r.glue ∧ r'.lits = r.lits) :
    WatchOk db' ci := by
  obtain ⟨hg, r, hr, hglue⟩ := hw
  obtain ⟨r', hr', hglue', -⟩ := hpres ci.idx r hr
  exact ⟨by rw [hgen, hg], r', hr', by rw [hglue', hglue]⟩

theorem bigPresent.trans_db_big {db db' : ClauseDB} {C : List Nat}
    (hb : bigPresent db C) (hgen : db'.generation = db.generation)
    (hpres : ∀ k r, db.clauses.get? k = some r → ∃ r',
      db'.clauses.get? k = some r' ∧ r'.isGarbage = r.isGarbage ∧
      r'.glue = r.glue ∧ r'.lits = r.lits) : bigPresent db' C := by
  obtain ⟨i, r, hi, hglue, hgar, hperm⟩ := hb
  obtain ⟨r', hr', hgar', hglue', hlits'⟩ := hpres i r hi
  exact ⟨i, r', hr', by rw [hglue', hglue], by rw [hgar', hgar],
    by rw [hlits']; exact hperm⟩

theorem ReasonObl.backtrack_reason {db : ClauseDB} {t : Trail} {e : TrailElement}
    {ci : ClauseIdx} (wf : TrailWf t) (hobl : ReasonObl db t e ci)
    {lvl : Nat} {t' : Trail} {popped : List TrailElement} {res : Nat}
    (h : t.backtrack lvl = some (t', popped, res))
    (hle : ∀ d, t.assignment.getD (litVar e.lit) none = some d →
      d.decisionLevel ≤ lvl) :
    ReasonObl db t' e ci := by
  obtain ⟨hg, r, d, hr, hd, hlen, h0, hlast, hoth⟩ := hobl
  have hdle := hle d hd
  have hkeep := wf.backtrack_keep h _ d hd hdle
  refine ⟨hg, r, d, hr, hkeep, hlen, h0, hlast, ?_⟩
  intro k lk hk
  obtain ⟨ha, hb⟩ := hoth k lk hk
  refine ⟨?_, ?_⟩
  · intro hgn hk0
    exact (ha hgn hk0).backtrack_other wf h hdle
  · intro hgn hkl
    exact (hb hgn hkl).backtrack_other wf h hdle

theorem unitSlot.backtrack_unit {t : Trail} (wf : TrailWf t) {lvl : Nat}
    {t' : Trail} {popped : List TrailElement} {res : Nat}
    (h : t.backtrack lvl = some (t', popped, res)) {l : Nat}
    (hu : unitSlot t l) : unitSlot t' l := by
  obtain ⟨d, hd, hst, hl0⟩ := hu
  exact ⟨d, wf.backtrack_keep h _ d hd (by omega), hst, hl0⟩

theorem analyzeContradiction_spec {V : Nat} {s : Solver} {c : ClauseIdx}
    {s' : Solver} (h : s.analyzeContradiction c = some (.done, s'))
    (hinv : SolverInv V s) :
    SolverInv V s' ∧
    s'.clauseDb.generation = s.clauseDb.generation ∧
    (∀ C, bigPresent s.clauseDb C → bigPresent s'.clauseDb C) ∧
    (∀ l, unitSlot s.trail l → unitSlot s'.trail l) ∧
    s'.triviallyUnsat = s.triviallyUnsat ∧
    s'.limits = s.limits ∧
    ∃ b p, b < s.trail.decisionPositions.length ∧
      s.trail.decisionPositions.get? b = some p ∧
      s'.trail.decisionPositions = s.trail.decisionPositions.take b ∧
      s'.trail.trail.length = p + 1 := by
  unfold Solver.analyzeContradiction at h
  rcases h0 : s.beforeLastDecisionPropagated with _ | ok
  · simp [h0] at h
  cases ok with
  | false => simp [h0] at h
  | true =>
  simp only [h0] at h
  rw [if_neg (by simp)] at h
  by_cases hub : ¬ s.unpropagatedLitPos ≤ s.trail.assignedVars
  · rw [if_pos hub] at h
    cases h
  rw [if_neg hub] at h
  rcases h1 : s.clauseDb.get c with _ | confl
  · simp [h1] at h
  simp only [h1] at h
  by_cases hall : ¬ (confl.lits.all fun l => s.trail.isLitUnsatisfied l) = true
  · rw [if_pos hall] at h
    cases h
  rw [if_neg hall] at h
  by_cases hlvl0 : s.trail.currentDecisionLevel = 0
  · rw [if_pos hlvl0] at h
    simp at h
  rw [if_neg hlvl0] at h
  rcases h2 : analyzeGo s.clauseDb s.trail (s.trail.trail.length + 1)
      confl.lits none s.trail.trail.length
      (AnalyzeState.reset s.trail.totalVars s.trail.currentDecisionLevel)
      with _ | au
  · simp [h2] at h
  simp only [h2] at h
  obtain ⟨a, uip⟩ := au
  obtain ⟨hnewC, huipLvl⟩ := analyzeGo_spec _ confl.lits none
      s.trail.trail.length _ a uip h2 (by
        intro x hx
        have hx0 : x ∈ ([] : List Nat) := hx
        cases hx0)
  rcases h3 : s.trail.getDecisionLevel (litNeg uip) with _ | lastLvl
  · simp [h3] at h
  simp only [h3] at h
  rw [Trail.getDecisionLevel_litNeg] at h3
  rw [huipLvl] at h3
  have hlast : lastLvl = s.trail.currentDecisionLevel :=
    (Option.some.inj h3).symm
  subst hlast
  rcases h4 : a.newClause.mapM (fun l => s.trail.getDecisionLevel l)
      with _ | lvls
  · rw [h4] at h
    exact absurd h (by simp)
  simp only [h4] at h
  by_cases h5 : ¬ (lvls.all fun lvl =>
      decide (lvl < s.trail.currentDecisionLevel)) = true
  · rw [if_pos h5] at h
    cases h
  rw [if_neg h5] at h
  have hlvlsAll : ∀ x ∈ lvls, x < s.trail.currentDecisionLevel := by
    intro x hx
    have h5' : (lvls.all fun lvl =>
        decide (lvl < s.trail.currentDecisionLevel)) = true := by
      by_contra hc
      exact h5 hc
    exact of_decide_eq_true (List.all_eq_true.mp h5' x hx)
  have hfa := mapM_option_forall₂ h4
  have hbjlt : List.foldl max 0 lvls < s.trail.currentDecisionLevel :=
    foldl_max_le (by omega) hlvlsAll
  have hbjlen : List.foldl max 0 lvls < s.trail.decisionPositions.length :=
    hbjlt
  have hbjget : s.trail.decisionPositions.get? (List.foldl max 0 lvls) =
      some (s.trail.decisionPositions.get ⟨List.foldl max 0 lvls, hbjlen⟩) :=
    List.get?_eq_get hbjlen
  rcases h6 : s.trail.backtrack (lvls.foldl max 0) with _ | tpr
  · simp [h6] at h
  simp only [h6] at h
  obtain ⟨t, popped, resume⟩ := tpr
  obtain hbe := Trail.backtrack_eq h6
  rcases hbe with ⟨hnone, -⟩ | ⟨pos, hposeq, hpop, hres, htr, hdp, hun⟩
  · rw [hbjget] at hnone
    cases hnone
  simp only at hpop hres htr hdp
  have hposlt : pos < s.trail.trail.length :=
    hinv.wf.posLt pos (List.get?_mem hposeq)
  have htlen : t.trail.length = pos := by
    rw [htr, List.length_take]
    omega
  have htdplen : t.decisionPositions.length = List.foldl max 0 lvls := by
    rw [hdp, List.length_take]
    omega
  have hwf2 : TrailWf t := hinv.wf.backtrack_wf h6
  have halen2 : t.assignment.length = V := by
    rw [Trail.backtrack_alen h6, hinv.alen]
  -- survival of the kept trail elements with their levels
  have hkeptElem : ∀ e ∈ t.trail, ∃ j, j < pos ∧
      s.trail.trail.get? j = some e := by
    intro e he
    obtain ⟨j, hj⟩ := List.get?_of_mem he
    have hjlt : j < pos := by
      have := (List.get?_eq_some.mp hj).1
      rw [htlen] at this
      exact this
    rw [htr, List.get?_take hjlt] at hj
    exact ⟨j, hjlt, hj⟩
  have hkeptLevel : ∀ e ∈ t.trail, ∀ d,
      s.trail.assignment.getD (litVar e.lit) none = some d →
      d.decisionLevel ≤ List.foldl max 0 lvls := by
    intro e he d hd
    obtain ⟨j, hjlt, hj⟩ := hkeptElem e he
    obtain ⟨d', hd', -, -, -, hiff⟩ := hinv.wf.slotMatch j e hj
    rw [hd] at hd'
    cases hd'
    exact (hiff _ pos hposeq).mp hjlt
  rcases h7 : clearPoppedReasons s.clauseDb popped with _ | db
  · simp [h7] at h
  simp only [h7] at h
  obtain ⟨hg7, hl7⟩ := clearPoppedReasons_spec _ _ _ h7
  have hpres7 := clearPoppedReasons_get? _ _ _ h7
  -- facts about the literals of the learned clause
  have hnewCS : ∀ x ∈ a.newClause,
      ∃ dk, s.trail.assignment.getD (litVar x) none = some dk ∧
        dk.status = !litIsPos x ∧
        dk.decisionLevel ≤ List.foldl max 0 lvls := by
    intro x hx
    obtain ⟨hunsat, lvlx, hlvlx, -⟩ := hnewC x hx
    obtain ⟨dk, hdk, hst⟩ := Assignment.slot_of_unsat hunsat
    refine ⟨dk, hdk, hst, ?_⟩
    obtain ⟨y, hy, hfy⟩ := forall₂_mem_left hfa x hx
    have hdky : dk.decisionLevel = y := by
      unfold Trail.getDecisionLevel Assignment.getData at hfy
      rw [hdk] at hfy
      simp only [Option.map_some'] at hfy
      exact Option.some.inj hfy
    rw [hdky]
    exact le_foldl_max hy 0
  have hnewCT : ∀ x ∈ a.newClause,
      ∃ dk, t.assignment.getD (litVar x) none = some dk ∧
        dk.status = !litIsPos x ∧
        dk.decisionLevel ≤ List.foldl max 0 lvls := by
    intro x hx
    obtain ⟨dk, hdk, hst, hle⟩ := hnewCS x hx
    exact ⟨dk, hinv.wf.backtrack_keep h6 _ dk hdk hle, hst, hle⟩
  by_cases h8 : (a.newClause ++ [litNeg uip]).length = 1
  · -- unit learned clause: flipped UIP becomes a level-0 axiom
    rw [if_pos h8] at h
    by_cases h9 : ¬ List.foldl max 0 lvls = 0
    · rw [if_pos h9] at h
      exact absurd h (by simp)
    rw [if_neg h9] at h
    rcases h10 : t.assignLit (litNeg uip) TrailReason.axm with _ | t2
    · rw [h10] at h
      exact absurd h (by simp)
    simp only [h10] at h
    cases h
    obtain ⟨htr10, hdp10, -, -, -⟩ := Trail.assignLit_eq_some h10
    have hdp10' : t2.decisionPositions = t.decisionPositions := by
      rw [hdp10]
      simp
    refine ⟨⟨hwf2.assignLit_wf h10, ?_, ?_, ?_⟩, hg7, ?_, ?_, rfl, rfl,
      List.foldl max 0 lvls, pos, hbjlen, hposeq, ?_, ?_⟩
    · rw [Trail.assignLit_alen h10, halen2]
    · intro lst hlst ci hci
      exact (hinv.watchOk lst hlst ci hci).trans_db_watch hg7 (by
        intro k r hk
        obtain ⟨r', hr', -, hgl, hl⟩ := hpres7 k r hk
        exact ⟨r', hr', hgl, hl⟩)
    · intro e he ci hci
      rw [htr10] at he
      rcases List.mem_append.mp he with he | he
      · obtain ⟨j, hjlt, hj⟩ := hkeptElem e he
        have hobl := hinv.reasons e (List.get?_mem hj) ci hci
        have hobl2 := hobl.backtrack_reason hinv.wf h6 (hkeptLevel e he)
        exact (hobl2.trans_db_reason hg7 (by
          intro k r hk
          obtain ⟨r', hr', -, hgl, hl⟩ := hpres7 k r hk
          exact ⟨r', hr', hgl, hl⟩)).assignLit_reason h10
      · simp only [List.mem_singleton] at he
        subst he
        simp only at hci
        cases hci
    · intro C hC
      exact hC.trans_db_big hg7 (fun k r hk => hpres7 k r hk)
    · intro l hl
      exact ((hl.backtrack_unit hinv.wf h6).assignLit_unit h10 :)
    · rw [hdp10', hdp]
    · rw [htr10, List.length_append, htlen]
      rfl
  · -- learned clause of length ≥ 2
    rw [if_neg h8] at h
    by_cases h11 : a.levelsInClause.length = 0
    · rw [if_pos h11] at h
      exact absurd h (by simp)
    rw [if_neg h11] at h
    by_cases h12 : ¬ a.levelsInClause.length =
        calculateLdb t (a.newClause ++ [litNeg uip])
    · rw [if_pos h12] at h
      exact absurd h (by simp)
    rw [if_neg h12] at h
    rcases h13 : t.assignLit (litNeg uip)
        (TrailReason.propagated (db.insertClause (a.newClause ++ [litNeg uip])
          (some a.levelsInClause.length)).2) with _ | t2
    · rw [h13] at h
      exact absurd h (by simp)
    simp only [h13] at h
    rcases h14 : ((db.insertClause (a.newClause ++ [litNeg uip])
        (some a.levelsInClause.length)).1).modify
        ((db.insertClause (a.newClause ++ [litNeg uip])
          (some a.levelsInClause.length)).2)
        (fun r => { r with isReason := true }) with _ | db3
    · rw [h14] at h
      exact absurd h (by simp)
    simp only [h14] at h
    cases h
    obtain ⟨htr13, hdp13, hvlt13, hnone13, hassn13⟩ :=
      Trail.assignLit_eq_some h13
    have hdp13' : t2.decisionPositions = t.decisionPositions := by
      rw [hdp13]
      simp
    -- the combined clause-arena rewrite facts
    obtain ⟨hg14, hl14, r0, hr0, hdb3⟩ := ClauseDB.modify_spec h14
    simp only [ClauseDB.insertClause] at hr0 hdb3 hg14 hl14 h13 htr13 hassn13
    have hnewrec : (db.clauses ++
        [ClauseRec.mk false false (some a.levelsInClause.length)
          (a.newClause ++ [litNeg uip])]).get? db.clauses.length =
        some (ClauseRec.mk false false (some a.levelsInClause.length)
          (a.newClause ++ [litNeg uip])) := List.get?_concat_length _ _
    rw [hnewrec] at hr0
    cases hr0
    rw [set_concat_length] at hdb3
    have hpresIM : ∀ k r, db.clauses.get? k = some r →
        db3.clauses.get? k = some r := by
      intro k r hk
      have hklt : k < db.clauses.length := (List.get?_eq_some.mp hk).1
      rw [hdb3, List.get?_append hklt]
      exact hk
    have hprestot : ∀ k r, s.clauseDb.clauses.get? k = some r → ∃ r',
        db3.clauses.get? k = some r' ∧ r'.isGarbage = r.isGarbage ∧
        r'.glue = r.glue ∧ r'.lits = r.lits := by
      intro k r hk
      obtain ⟨r', hr', hga, hgl, hl⟩ := hpres7 k r hk
      exact ⟨r', hpresIM k r' hr', hga, hgl, hl⟩
    have hgen3 : db3.generation = s.clauseDb.generation := by
      rw [hg14, hg7]
    -- the slot written for the flipped UIP
    have hslotNew : t2.assignment.getD (litVar (litNeg uip)) none =
        some ⟨litIsPos (litNeg uip), t.decisionPositions.length,
          TrailReason.propagated ⟨db.clauses.length, db.generation⟩⟩ := by
      rw [hassn13, hdp13']
      exact Assignment.getD_set_self _ _ _ hvlt13
    -- the reason obligation of the new element
    have hlenNC : 1 ≤ a.newClause.length := by
      have h8' : (a.newClause ++ [litNeg uip]).length ≠ 1 := h8
      simp only [List.length_append, List.length_singleton] at h8'
      omega
    have hoblNew : ReasonObl db3 t2
        ⟨litNeg uip, TrailReason.propagated
          ⟨db.clauses.length, db.generation⟩⟩
        ⟨db.clauses.length, db.generation⟩ := by
      unfold ReasonObl
      have hrecNew : db3.clauses.get? db.clauses.length = some
          (ClauseRec.mk false true (some a.levelsInClause.length)
            (a.newClause ++ [litNeg uip])) := by
        rw [hdb3]
        exact List.get?_concat_length _ _
      refine ⟨by rw [hgen3]; exact hg7, _, _, hrecNew, hslotNew,
        ?_, ?_, ?_, ?_⟩
      · simp only [List.length_append, List.length_singleton]
        omega
      · intro hgn
        cases hgn
      · intro _
        simp only [List.length_append, List.length_singleton,
          Nat.add_sub_cancel]
        exact List.get?_concat_length _ _
      · intro k lk hk
        constructor
        · intro hgn
          cases hgn
        · intro _ hkne
          simp only [List.length_append, List.length_singleton,
            Nat.add_sub_cancel] at hkne
          simp only at hk
          have hklt : k < a.newClause.length + 1 := by
            have := (List.get?_eq_some.mp hk).1
            simpa using this
          have hklt2 : k < a.newClause.length := by omega
          rw [List.get?_append hklt2] at hk
          have hmem : lk ∈ a.newClause := List.get?_mem hk
          obtain ⟨dk, hdk, hst, hle⟩ := hnewCT lk hmem
          refine ⟨Assignment.unsat_of_slot
            (Trail.assignLit_slot_preserved h13 hdk) hst, dk,
            Trail.assignLit_slot_preserved h13 hdk, ?_⟩
          simp only
          rw [htdplen]
          exact hle
    refine ⟨⟨hwf2.assignLit_wf h13, ?_, ?_, ?_⟩, hgen3, ?_, ?_, rfl, rfl,
      List.foldl max 0 lvls, pos, hbjlen, hposeq, ?_, ?_⟩
    · rw [Trail.assignLit_alen h13, halen2]
    · intro lst hlst ci hci
      exact (hinv.watchOk lst hlst ci hci).trans_db_watch hgen3 (by
        intro k r hk
        obtain ⟨r', hr', -, hgl, hl⟩ := hprestot k r hk
        exact ⟨r', hr', hgl, hl⟩)
    · intro e he ci hci
      rw [htr13] at he
      rcases List.mem_append.mp he with he | he
      · obtain ⟨j, hjlt, hj⟩ := hkeptElem e he
        have hobl := hinv.reasons e (List.get?_mem hj) ci hci
        have hobl2 := hobl.backtrack_reason hinv.wf h6 (hkeptLevel e he)
        exact (hobl2.trans_db_reason hgen3 (by
          intro k r hk
          obtain ⟨r', hr', -, hgl, hl⟩ := hprestot k r hk
          exact ⟨r', hr', hgl, hl⟩)).assignLit_reason h13
      · simp only [List.mem_singleton] at he
        subst he
        simp only at hci
        cases hci
        exact hoblNew
    · intro C hC
      exact hC.trans_db_big hgen3 hprestot
    · intro l hl
      exact ((hl.backtrack_unit hinv.wf h6).assignLit_unit h13 :)
    · rw [hdp13', hdp]
    · rw [htr13, List.length_append, htlen]
      rfl


theorem mem_gcSortInsert {db : ClauseDB} {i : Nat} :
    ∀ (l : List Nat) (x : Nat), x ∈ gcSortInsert db i l → x = i ∨ x ∈ l := by
  intro l
  induction l with
  | nil =>
    intro x hx
    simp only [gcSortInsert, List.mem_singleton] at hx
    exact Or.inl hx
  | cons j js ih =>
    intro x hx
    unfold gcSortInsert at hx
    split at hx
    · rcases List.mem_cons.mp hx with hx | hx
      · exact Or.inr (hx ▸ List.mem_cons_self _ _)
      · rcases ih x hx with hx | hx
        · exact Or.inl hx
        · exact Or.inr (List.mem_cons_of_mem _ hx)
    · rcases List.mem_cons.mp hx with hx | hx
      · exact Or.inl hx
      · exact Or.inr hx

theorem mem_gcSort {db : ClauseDB} :
    ∀ (l : List Nat) (x : Nat), x ∈ gcSort db l → x ∈ l := by
  intro l
  induction l with
  | nil =>
    intro x hx
    cases hx
  | cons i is ih =>
    intro x hx
    unfold gcSort at hx
    rcases mem_gcSortInsert _ x hx with hx | hx
    · exact hx ▸ List.mem_cons_self _ _
    · exact List.mem_cons_of_mem _ (ih x hx)

theorem markGarbage_get? (s : Solver) :
    ∀ k r, s.clauseDb.clauses.get? k = some r →
      ∃ r', (s.markGarbage).clauseDb.clauses.get? k = some r' ∧
        r'.isReason = r.isReason ∧ r'.glue = r.glue ∧ r'.lits = r.lits ∧
        (r'.isGarbage = r.isGarbage ∨ 2 < r.glue.getD 0) := by
  intro k r hk
  have hklt : k < s.clauseDb.clauses.length := (List.get?_eq_some.mp hk).1
  unfold Solver.markGarbage
  simp only
  rw [List.get?_map, List.get?_range hklt]
  simp only [Option.map_some', hk]
  by_cases hmem : k ∈ (gcSort s.clauseDb
      ((List.range s.clauseDb.clauses.length).filter (fun i =>
        match s.clauseDb.clauses.get? i with
        | some r => !r.isGarbage && !r.isReason && (r.glue.getD 0 > 2 : Bool)
        | none => false))).take
      (3 * (gcSort s.clauseDb
        ((List.range s.clauseDb.clauses.length).filter (fun i =>
          match s.clauseDb.clauses.get? i with
          | some r => !r.isGarbage && !r.isReason && (r.glue.getD 0 > 2 : Bool)
          | none => false))).length / 4)
  · rw [if_pos hmem]
    refine ⟨_, rfl, rfl, rfl, rfl, Or.inr ?_⟩
    have hmem2 := List.mem_of_mem_take hmem
    have hmem3 := mem_gcSort _ k hmem2
    have := List.mem_filter.mp hmem3
    rw [hk] at this
    have hb := this.2
    simp only [Bool.and_eq_true, decide_eq_true_eq] at hb
    exact hb.2
  · rw [if_neg hmem]
    exact ⟨r, rfl, rfl, rfl, rfl, Or.inl rfl⟩

theorem markGarbage_gen (s : Solver) :
    (s.markGarbage).clauseDb.generation = s.clauseDb.generation := rfl

theorem markGarbage_len (s : Solver) :
    (s.markGarbage).clauseDb.clauses.length = s.clauseDb.clauses.length := by
  unfold Solver.markGarbage
  simp

theorem filter_get?_newIndex :
    ∀ (cls : List ClauseRec) (i : Nat) (r : ClauseRec),
      cls.get? i = some r → r.isGarbage = false →
      (cls.filter (fun c => !c.isGarbage)).get?
        (((cls.take i).filter (fun c => !c.isGarbage)).length) = some r := by
  intro cls
  induction cls with
  | nil =>
    intro i r hi _
    cases hi
  | cons c tl ih =>
    intro i r hi hgar
    cases i with
    | zero =>
      cases hi
      rw [List.take_zero]
      simp only [List.filter_nil, List.length_nil]
      rw [List.filter_cons_of_pos (by simp [hgar])]
      rfl
    | succ n =>
      simp only [List.get?_cons_succ] at hi
      rw [List.take_succ_cons]
      by_cases hc : c.isGarbage = false
      · rw [List.filter_cons_of_pos (by simp [hc]),
          List.filter_cons_of_pos (by simp [hc])]
        simp only [List.length_cons, List.get?_cons_succ]
        exact ih n r hi hgar
      · rw [List.filter_cons_of_neg (by simp at hc ⊢; exact hc),
          List.filter_cons_of_neg (by simp at hc ⊢; exact hc)]
        exact ih n r hi hgar

theorem newIndexOf_spec {db : ClauseDB} {i j : Nat}
    (h : db.newIndexOf i = some j) :
    ∃ r, db.clauses.get? i = some r ∧ r.isGarbage = false ∧
      (db.clauses.filter (fun c => !c.isGarbage)).get? j = some r := by
  unfold ClauseDB.newIndexOf at h
  rcases hi : db.clauses.get? i with _ | r
  · rw [hi] at h
    cases h
  simp only [hi] at h
  split at h
  · cases h
  rename_i hgar
  cases h
  have hgar' : r.isGarbage = false := by
    cases hg : r.isGarbage
    · rfl
    · exact absurd hg hgar
  exact ⟨r, rfl, hgar', filter_get?_newIndex _ i r hi hgar'⟩

theorem updateWatchList_mem {oldDb : ClauseDB} {newGen : Nat} :
    ∀ (lst lst' : List ClauseIdx),
      updateWatchList oldDb newGen lst = some lst' →
      ∀ ci' ∈ lst', ∃ ci ∈ lst, ci.generation + 1 = newGen ∧
        ∃ j, oldDb.newIndexOf ci.idx = some j ∧ ci' = ⟨j, newGen⟩ := by
  intro lst
  induction lst with
  | nil =>
    intro lst' h ci' hci'
    cases h
    cases hci'
  | cons w rest ih =>
    intro lst' h ci' hci'
    unfold updateWatchList at h
    split at h
    · cases h
    rename_i hgen
    rcases hni : oldDb.newIndexOf w.idx with _ | j
    · rw [hni] at h
      obtain ⟨ci, hmem, hg, hj⟩ := ih lst' h ci' hci'
      exact ⟨ci, List.mem_cons_of_mem _ hmem, hg, hj⟩
    · rw [hni] at h
      rcases hrest : updateWatchList oldDb newGen rest with _ | r'
      · rw [hrest] at h
        cases h
      · rw [hrest] at h
        cases h
        rcases List.mem_cons.mp hci' with hci' | hci'
        · refine ⟨w, List.mem_cons_self _ _, by omega, j, hni, hci'⟩
        · obtain ⟨ci, hmem, hg, hj⟩ := ih r' hrest ci' hci'
          exact ⟨ci, List.mem_cons_of_mem _ hmem, hg, hj⟩

theorem updateAllWatchLists_mem {oldDb : ClauseDB} {newGen : Nat} :
    ∀ (w w' : Watches), updateAllWatchLists oldDb newGen w = some w' →
      ∀ lst' ∈ w', ∃ lst ∈ w,
        updateWatchList oldDb newGen lst = some lst' := by
  intro w
  induction w with
  | nil =>
    intro w' h lst' hl
    cases h
    cases hl
  | cons lst rest ih =>
    intro w' h lst' hl
    unfold updateAllWatchLists at h
    rcases h1 : updateWatchList oldDb newGen lst with _ | lst1
    · rw [h1] at h
      cases h
    rw [h1] at h
    rcases h2 : updateAllWatchLists oldDb newGen rest with _ | rest1
    · rw [h2] at h
      cases h
    rw [h2] at h
    cases h
    rcases List.mem_cons.mp hl with hl | hl
    · exact ⟨lst, List.mem_cons_self _ _, hl ▸ h1⟩
    · obtain ⟨l0, hmem, he⟩ := ih rest1 h2 lst' hl
      exact ⟨l0, List.mem_cons_of_mem _ hmem, he⟩


theorem updateTrailElems_spec {oldDb : ClauseDB} {newGen : Nat} :
    ∀ (elems : List TrailElement) (a : Assignment) (tr : List TrailElement)
      (a' : Assignment),
      updateTrailElems oldDb newGen elems a = some (tr, a') →
      (elems.map (fun e => litVar e.lit)).Nodup →
      (∀ j e c, elems.get? j = some e → e.reason = .propagated c →
        ∃ d, a.getD (litVar e.lit) none = some d ∧ d.reason = e.reason) →
      tr.length = elems.length ∧
      a'.length = a.length ∧
      (∀ v, (∀ e ∈ elems, litVar e.lit ≠ v) →
        a'.getD v none = a.getD v none) ∧
      (∀ v, (a'.getD v none).map (fun d => (d.status, d.decisionLevel)) =
        (a.getD v none).map (fun d => (d.status, d.decisionLevel))) ∧
      (∀ j e, elems.get? j = some e → ∃ e', tr.get? j = some e' ∧
        e'.lit = e.lit ∧
        (((e.reason = .decision ∨ e.reason = .axm) ∧ e'.reason = e.reason ∧
            a'.getD (litVar e.lit) none = a.getD (litVar e.lit) none) ∨
         (∃ c j2 d, e.reason = .propagated c ∧
            oldDb.newIndexOf c.idx = some j2 ∧
            e'.reason = .propagated ⟨j2, newGen⟩ ∧
            a.getD (litVar e.lit) none = some d ∧ d.reason = e.reason ∧
            a'.getD (litVar e.lit) none =
              some { d with reason := .propagated ⟨j2, newGen⟩ }))) := by
  intro elems
  induction elems with
  | nil =>
    intro a tr a' h hnd hpre
    cases h
    refine ⟨rfl, rfl, fun v _ => rfl, fun v => rfl, ?_⟩
    intro j e hj
    cases hj
  | cons e0 rest ih =>
    intro a tr a' h hnd hpre
    have hnd0 : (∀ x ∈ rest, ¬ litVar x.lit = litVar e0.lit) ∧
        (rest.map (fun e => litVar e.lit)).Nodup := by
      simpa using hnd
    unfold updateTrailElems at h
    rcases hre : e0.reason with _ | c | _
    all_goals simp only [hre] at h
    -- decision case
    case decision =>
      rcases hrest : updateTrailElems oldDb newGen rest a with _ | out
      · rw [hrest] at h
        cases h
      obtain ⟨tr1, a1⟩ := out
      rw [hrest] at h
      cases h
      obtain ⟨hlen, halen, hunch, hmap, helem⟩ := ih _ _ _ hrest hnd0.2
        (fun j e c hj hc => hpre (j + 1) e c hj hc)
      refine ⟨by simp [hlen], halen, ?_, hmap, ?_⟩
      · intro v hv
        exact hunch v (fun e he => hv e (List.mem_cons_of_mem _ he))
      · intro j e hj
        cases j with
        | zero =>
          cases hj
          exact ⟨e0, rfl, rfl, Or.inl ⟨Or.inl hre, rfl, hunch _ hnd0.1⟩⟩
        | succ n =>
          simp only [List.get?_cons_succ] at hj ⊢
          exact helem n e hj
    -- axiom case
    case axm =>
      rcases hrest : updateTrailElems oldDb newGen rest a with _ | out
      · rw [hrest] at h
        cases h
      obtain ⟨tr1, a1⟩ := out
      rw [hrest] at h
      cases h
      obtain ⟨hlen, halen, hunch, hmap, helem⟩ := ih _ _ _ hrest hnd0.2
        (fun j e c hj hc => hpre (j + 1) e c hj hc)
      refine ⟨by simp [hlen], halen, ?_, hmap, ?_⟩
      · intro v hv
        exact hunch v (fun e he => hv e (List.mem_cons_of_mem _ he))
      · intro j e hj
        cases j with
        | zero =>
          cases hj
          exact ⟨e0, rfl, rfl, Or.inl ⟨Or.inr hre, rfl, hunch _ hnd0.1⟩⟩
        | succ n =>
          simp only [List.get?_cons_succ] at hj ⊢
          exact helem n e hj
    -- propagated case
    case propagated =>
      by_cases hgen : ¬ c.generation + 1 = newGen
      · rw [if_pos hgen] at h
        cases h
      rw [if_neg hgen] at h
      rcases hni : oldDb.newIndexOf c.idx with _ | j2
      · rw [hni] at h
        cases h
      simp only [hni] at h
      rcases hslot : a.getD (litVar e0.lit) none with _ | d
      · rw [hslot] at h
        cases h
      simp only [hslot] at h
      obtain ⟨d0, hd0, hd0r⟩ := hpre 0 e0 c rfl hre
      rw [hslot] at hd0
      cases hd0
      rw [hre] at hd0r
      rcases hdr : d.reason with _ | c2 | _
      · simp only [hdr] at h
        cases h
      · simp only [hdr] at h
        rw [hdr] at hd0r
        have hc2 : c2 = c := by
          cases hd0r
          rfl
        have hgen2 : ¬ ¬ c2.generation + 1 = newGen := by
          rw [hc2]
          exact hgen
        have hni2 : oldDb.newIndexOf c2.idx = some j2 := by
          rw [hc2]
          exact hni
        rw [if_neg hgen2] at h
        simp only [hni2] at h
        rcases hrest : updateTrailElems oldDb newGen rest
            (a.set (litVar e0.lit)
              (some { d with reason := .propagated ⟨j2, newGen⟩ }))
            with _ | out
        · rw [hrest] at h
          cases h
        obtain ⟨tr1, a1⟩ := out
        rw [hrest] at h
        cases h
        have hvlt : litVar e0.lit < a.length := Assignment.getD_some_lt hslot
        have hheadNe : ∀ e' ∈ rest, litVar e'.lit ≠ litVar e0.lit :=
          fun e' he' => hnd0.1 e' he'
        obtain ⟨hlen, halen, hunch, hmap, helem⟩ := ih _ _ _ hrest hnd0.2
          (by
            intro j e c' hj hc'
            obtain ⟨d', hd', hdr'⟩ := hpre (j + 1) e c' hj hc'
            have hne : litVar e0.lit ≠ litVar e.lit := by
              intro hveq
              exact hheadNe e (List.get?_mem hj) hveq.symm
            refine ⟨d', ?_, hdr'⟩
            rw [Assignment.getD_set_ne _ _ _ _ hne]
            exact hd')
        have hsetlen : (a.set (litVar e0.lit)
            (some { d with reason := .propagated ⟨j2, newGen⟩ })).length =
            a.length := Assignment.set_length _ _ _
        have hheadSlot : a'.getD (litVar e0.lit) none =
            some { d with reason := .propagated ⟨j2, newGen⟩ } := by
          rw [hunch _ (fun e' he' hveq => hheadNe e' he' hveq)]
          exact Assignment.getD_set_self _ _ _ hvlt
        refine ⟨by simp [hlen], by rw [halen, hsetlen], ?_, ?_, ?_⟩
        · intro v hv
          rw [hunch v (fun e he => hv e (List.mem_cons_of_mem _ he))]
          exact Assignment.getD_set_ne _ _ _ _
            (fun hveq => hv e0 (List.mem_cons_self _ _) hveq)
        · intro v
          rw [hmap v]
          by_cases hveq : litVar e0.lit = v
          · subst hveq
            rw [Assignment.getD_set_self _ _ _ hvlt, hslot]
            rfl
          · rw [Assignment.getD_set_ne _ _ _ _ hveq]
        · intro j e hj
          cases j with
          | zero =>
            cases hj
            exact ⟨{ e0 with reason := .propagated ⟨j2, newGen⟩ }, rfl, rfl,
              Or.inr ⟨c, j2, d, hre, hni, rfl, hslot, by rw [hdr, hre, hc2],
                hheadSlot⟩⟩
          | succ n =>
            simp only [List.get?_cons_succ] at hj ⊢
            obtain ⟨e', he', hlit, hcase⟩ := helem n e hj
            refine ⟨e', he', hlit, ?_⟩
            have hne : litVar e0.lit ≠ litVar e.lit := by
              intro hveq
              exact hheadNe e (List.get?_mem hj) hveq.symm
            rcases hcase with ⟨hdec, hrsn, hsl⟩ | ⟨c', j2', d', hc', hni', hrsn', hsl1, hdr1, hsl2⟩
            · refine Or.inl ⟨hdec, hrsn, ?_⟩
              rw [hsl, Assignment.getD_set_ne _ _ _ _ hne]
            · refine Or.inr ⟨c', j2', d', hc', hni', hrsn', ?_, hdr1, hsl2⟩
              rw [← hsl1, Assignment.getD_set_ne _ _ _ _ hne]
      · simp only [hdr] at h
        cases h


theorem Assignment.get_of_statusMap {a a' : Assignment} {l : Nat}
    (h : (a'.getD (litVar l) none).map (fun d => (d.status, d.decisionLevel)) =
      (a.getD (litVar l) none).map (fun d => (d.status, d.decisionLevel))) :
    a'.get l = a.get l := by
  unfold Assignment.get
  rcases ha : a.getD (litVar l) none with _ | d
  · rw [ha] at h
    rcases ha' : a'.getD (litVar l) none with _ | d'
    · rfl
    · rw [ha'] at h
      cases h
  · rw [ha] at h
    rcases ha' : a'.getD (litVar l) none with _ | d'
    · rw [ha'] at h
      cases h
    · rw [ha'] at h
      simp only [Option.map_some', Option.some.injEq, Prod.mk.injEq] at h
      simp only [Option.map_some', Option.some.injEq]
      rw [h.1]

theorem OtherLitOk.of_statusMap {t t' : Trail}
    (hm : ∀ v, (t'.assignment.getD v none).map
        (fun d => (d.status, d.decisionLevel)) =
      (t.assignment.getD v none).map (fun d => (d.status, d.decisionLevel)))
    {lvl lk : Nat} (h : OtherLitOk t lvl lk) : OtherLitOk t' lvl lk := by
  obtain ⟨hu, dk, hdk, hle⟩ := h
  have hg : t'.assignment.get lk = t.assignment.get lk :=
    Assignment.get_of_statusMap (hm (litVar lk))
  have hmv := hm (litVar lk)
  rw [hdk] at hmv
  rcases ha' : t'.assignment.getD (litVar lk) none with _ | dk'
  · rw [ha'] at hmv
    cases hmv
  · rw [ha'] at hmv
    simp only [Option.map_some', Option.some.injEq, Prod.mk.injEq] at hmv
    refine ⟨?_, dk', ha', by rw [hmv.2]; exact hle⟩
    unfold Trail.isLitUnsatisfied Assignment.isLitUnsatisfied at hu ⊢
    rw [hg]
    exact hu

theorem unitSlot_of_statusMap {t t' : Trail}
    (hm : ∀ v, (t'.assignment.getD v none).map
        (fun d => (d.status, d.decisionLevel)) =
      (t.assignment.getD v none).map (fun d => (d.status, d.decisionLevel)))
    {l : Nat} (h : unitSlot t l) : unitSlot t' l := by
  obtain ⟨d, hd, hstat, hlvl⟩ := h
  have hmv := hm (litVar l)
  rw [hd] at hmv
  rcases ha' : t'.assignment.getD (litVar l) none with _ | d'
  · rw [ha'] at hmv
    cases hmv
  · rw [ha'] at hmv
    simp only [Option.map_some', Option.some.injEq, Prod.mk.injEq] at hmv
    exact ⟨d', ha', by rw [hmv.1]; exact hstat, by rw [hmv.2]; exact hlvl⟩

theorem collectGarbage_spec {V : Nat} {s s' : Solver}
    (h : s.collectGarbage = some s') (hinv : SolverInv V s) :
    SolverInv V s' ∧
    s'.trail.decisionPositions = s.trail.decisionPositions ∧
    s'.trail.trail.length = s.trail.trail.length ∧
    (∀ C, bigPresent s.clauseDb C → bigPresent s'.clauseDb C) ∧
    (∀ l, unitSlot s.trail l → unitSlot s'.trail l) ∧
    s'.triviallyUnsat = s.triviallyUnsat ∧
    s'.stats = s.stats ∧
    s'.limits = s.limits ∧
    s'.unpropagatedLitPos = s.unpropagatedLitPos := by
  obtain ⟨wf, alen, watchOk, reasons⟩ := hinv
  unfold Solver.collectGarbage at h
  simp only at h
  rcases hw : updateAllWatchLists s.markGarbage.clauseDb
      (s.markGarbage.clauseDb.generation + 1) s.markGarbage.watches
      with _ | W
  · rw [hw] at h
    cases h
  simp only [hw] at h
  unfold updateTrailIndices at h
  rcases ht : updateTrailElems s.markGarbage.clauseDb
      (s.markGarbage.clauseDb.generation + 1) s.markGarbage.trail.trail
      s.markGarbage.trail.assignment with _ | out
  · rw [ht] at h
    cases h
  obtain ⟨tr, a2⟩ := out
  simp only [ht] at h
  have hpre : ∀ j e c, s.trail.trail.get? j = some e →
      e.reason = .propagated c →
      ∃ d, s.trail.assignment.getD (litVar e.lit) none = some d ∧
        d.reason = e.reason := by
    intro j e c hj hc
    obtain ⟨d, hd, -, hdr, -⟩ := wf.slotMatch j e hj
    exact ⟨d, hd, hdr⟩
  obtain ⟨hlen, halen, hunch, hmap, helem⟩ :=
    updateTrailElems_spec s.trail.trail s.trail.assignment tr a2 ht
      wf.distinctVars hpre
  -- the compacted database and rewritten trail
  have hwf : TrailWf { s.trail with trail := tr, assignment := a2 } := by
    refine ⟨?_, wf.posSorted, ?_, ?_, ?_⟩
    · intro p hp
      show p < tr.length
      rw [hlen]
      exact wf.posLt p hp
    · intro j e' hj'
      have hjlt : j < tr.length := (List.get?_eq_some.mp hj').1
      have hjlt2 : j < s.trail.trail.length := by
        rw [← hlen]
        exact hjlt
      have hje := List.get?_eq_get hjlt2
      obtain ⟨e'', hj'', hlit, hcase⟩ := helem j _ hje
      rw [hj'] at hj''
      cases hj''
      obtain ⟨d, hd, hstat, hreas, hlev, hiff⟩ := wf.slotMatch j _ hje
      rcases hcase with ⟨hdec, hrsn, hsl⟩ |
          ⟨c, j2, d2, hc, hni, hrsn, hsl1, hdr2, hsl2⟩
      · refine ⟨d, ?_, ?_, ?_, hlev, hiff⟩
        · show a2.getD (litVar e'.lit) none = some d
          rw [hlit, hsl]
          exact hd
        · rw [hlit]
          exact hstat
        · rw [hrsn]
          exact hreas
      · rw [hd] at hsl1
        cases hsl1
        refine ⟨{ d with reason := TrailReason.propagated ⟨j2, s.markGarbage.clauseDb.generation + 1⟩ }, ?_, ?_, ?_, hlev, hiff⟩
        · show a2.getD (litVar e'.lit) none = some _
          rw [hlit]
          exact hsl2
        · show d.status = litIsPos e'.lit
          rw [hlit]
          exact hstat
        · show TrailReason.propagated _ = e'.reason
          exact hrsn.symm
    · show (tr.map (fun e => litVar e.lit)).Nodup
      have hmapeq : tr.map (fun e => litVar e.lit) =
          s.trail.trail.map (fun e => litVar e.lit) := by
        apply List.ext
        intro j
        rw [List.get?_map, List.get?_map]
        rcases hje : s.trail.trail.get? j with _ | e
        · have hn : tr.get? j = none := by
            rw [List.get?_eq_none] at hje ⊢
            rw [hlen]
            exact hje
          rw [hn]
        · obtain ⟨e', hj', hlit, -⟩ := helem j e hje
          rw [hj']
          simp [hlit]
      rw [hmapeq]
      exact wf.distinctVars
    · intro v d' hv'
      have hv2 : a2.getD v none = some d' := hv'
      have hmv := hmap v
      rw [hv2] at hmv
      rcases ha : s.trail.assignment.getD v none with _ | d0
      · rw [ha] at hmv
        cases hmv
      · obtain ⟨j, e, hj, hvar⟩ := wf.assignedHasEntry v d0 ha
        obtain ⟨e', hj', hlit, -⟩ := helem j e hj
        refine ⟨j, e', hj', ?_⟩
        rw [hlit]
        exact hvar
  have hInv : Inv V
      { clauses := s.markGarbage.clauseDb.clauses.filter (fun r => !r.isGarbage), generation := s.markGarbage.clauseDb.generation + 1 }
      { s.trail with trail := tr, assignment := a2 } W := by
    refine ⟨hwf, ?_, ?_, ?_⟩
    · show a2.length = V
      rw [halen]
      exact alen
    · intro lst' hl' ci' hci'
      obtain ⟨lst, hlst, hupd⟩ := updateAllWatchLists_mem _ _ hw lst' hl'
      obtain ⟨ci, hcimem, hg, j, hnij, hcieq⟩ :=
        updateWatchList_mem lst lst' hupd ci' hci'
      obtain ⟨hgen0, r0, hr0, hglue0⟩ := watchOk lst hlst ci hcimem
      obtain ⟨rm, hrm, hrs, hglp, hlitsp, hgarp⟩ :=
        markGarbage_get? s ci.idx r0 hr0
      obtain ⟨rf, hrf, hngar, hfj⟩ := newIndexOf_spec hnij
      rw [hrm] at hrf
      cases hrf
      subst hcieq
      refine ⟨rfl, rm, hfj, ?_⟩
      rw [hglp]
      exact hglue0
    · intro e' he' ci' hre'
      obtain ⟨j, hj'⟩ := List.get?_of_mem he'
      have hjlt : j < tr.length := (List.get?_eq_some.mp hj').1
      have hjlt2 : j < s.trail.trail.length := by
        rw [← hlen]
        exact hjlt
      have hje := List.get?_eq_get hjlt2
      obtain ⟨e'', hj'', hlit, hcase⟩ := helem j _ hje
      rw [hj'] at hj''
      cases hj''
      rcases hcase with ⟨hdec, hrsn, -⟩ |
          ⟨c, j2, d2, hc, hni, hrsn, hsl1, hdr2, hsl2⟩
      · rw [hre'] at hrsn
        rcases hdec with hd | hd
        · rw [hd] at hrsn
          cases hrsn
        · rw [hd] at hrsn
          cases hrsn
      · rw [hre'] at hrsn
        have hci'eq : ci' = ⟨j2, s.markGarbage.clauseDb.generation + 1⟩ := by
          cases hrsn
          rfl
        subst hci'eq
        have hobl := reasons _ (List.get?_mem hje) c hc
        obtain ⟨hgen0, r0, d0, hr0, hd0, hlen2, hidx0, hidxL, hother⟩ := hobl
        obtain ⟨rm, hrm, hrs, hglp, hlitsp, hgarp⟩ :=
          markGarbage_get? s c.idx r0 hr0
        obtain ⟨rf, hrf, hngar, hfj⟩ := newIndexOf_spec hni
        rw [hrm] at hrf
        cases hrf
        rw [hd0] at hsl1
        cases hsl1
        refine ⟨rfl, rm, { d2 with reason := TrailReason.propagated ⟨j2, s.markGarbage.clauseDb.generation + 1⟩ }, hfj, ?_, ?_, ?_, ?_, ?_⟩
        · show a2.getD (litVar e'.lit) none = some _
          rw [hlit]
          exact hsl2
        · rw [hlitsp]
          exact hlen2
        · intro hgl
          rw [hlitsp, hlit]
          apply hidx0
          rw [hglp] at hgl
          exact hgl
        · intro hgl
          rw [hlitsp, hlit]
          apply hidxL
          intro hx
          exact hgl (hglp.trans hx)
        · intro k lk hk
          rw [hlitsp] at hk
          have hoth := hother k lk hk
          constructor
          · intro hgl hk0
            have hgl0 : r0.glue = none := by
              rw [hglp] at hgl
              exact hgl
            exact OtherLitOk.of_statusMap hmap (hoth.1 hgl0 hk0)
          · intro hgl hkL
            rw [hlitsp] at hkL
            exact OtherLitOk.of_statusMap hmap
              (hoth.2 (fun hx => hgl (hglp.trans hx)) hkL)
  have hbig : ∀ C, bigPresent s.clauseDb C →
      bigPresent { clauses := s.markGarbage.clauseDb.clauses.filter (fun r => !r.isGarbage), generation := s.markGarbage.clauseDb.generation + 1 } C := by
    intro C hC
    obtain ⟨i, r, hi, hglue, hgar, hperm⟩ := hC
    obtain ⟨rm, hrm, hrs, hglp, hlitsp, hgarp⟩ := markGarbage_get? s i r hi
    have hgar' : rm.isGarbage = false := by
      rcases hgarp with hg | hg
      · rw [hg]
        exact hgar
      · rw [hglue] at hg
        simp at hg
    refine ⟨_, rm, filter_get?_newIndex _ i rm hrm hgar', ?_, hgar', ?_⟩
    · rw [hglp]
      exact hglue
    · rw [hlitsp]
      exact hperm
  have hunit : ∀ l, unitSlot s.trail l →
      unitSlot { s.trail with trail := tr, assignment := a2 } l := by
    intro l hl
    exact unitSlot_of_statusMap hmap hl
  cases h
  exact ⟨hInv, rfl, hlen, hbig, hunit, rfl, rfl, rfl, rfl⟩

theorem maybeCollectGarbage_spec {V : Nat} {s s' : Solver}
    (h : s.maybeCollectGarbage = some s') (hinv : SolverInv V s) :
    SolverInv V s' ∧
    s'.trail.decisionPositions = s.trail.decisionPositions ∧
    s'.trail.trail.length = s.trail.trail.length ∧
    (∀ C, bigPresent s.clauseDb C → bigPresent s'.clauseDb C) ∧
    (∀ l, unitSlot s.trail l → unitSlot s'.trail l) ∧
    s'.triviallyUnsat = s.triviallyUnsat := by
  unfold Solver.maybeCollectGarbage at h
  split at h
  · cases h
    exact ⟨⟨hinv.wf, hinv.alen, hinv.watchOk, hinv.reasons⟩, rfl, rfl,
      fun C hC => hC, fun l hl => hl, rfl⟩
  · obtain ⟨hi, hp, hl, hb, hu, ht, -, -, -⟩ := collectGarbage_spec h hinv
    exact ⟨hi, hp, hl, hb, hu, ht⟩


theorem digitsVal_foldl (B : Nat) :
    ∀ (ds : List Nat) (a : Nat),
      ds.foldl (fun acc d => acc * B + d) a =
        a * B ^ ds.length + digitsVal B ds := by
  intro ds
  induction ds with
  | nil =>
    intro a
    simp [digitsVal]
  | cons d ds ih =>
    intro a
    have h2 : digitsVal B (d :: ds) = d * B ^ ds.length + digitsVal B ds := by
      show List.foldl _ (0 * B + d) ds = _
      rw [ih (0 * B + d)]
      ring
    show List.foldl _ (a * B + d) ds = _
    rw [ih (a * B + d), h2, List.length_cons, pow_succ]
    ring

theorem digitsVal_cons (B d : Nat) (ds : List Nat) :
    digitsVal B (d :: ds) = d * B ^ ds.length + digitsVal B ds := by
  show List.foldl _ (0 * B + d) ds = _
  rw [digitsVal_foldl]
  ring

theorem digitsVal_lt_pow {B : Nat} (hB : 1 ≤ B) :
    ∀ ds : List Nat, (∀ d ∈ ds, d < B) → digitsVal B ds < B ^ ds.length := by
  intro ds
  induction ds with
  | nil =>
    intro _
    simp [digitsVal]
  | cons d ds ih =>
    intro hb
    rw [digitsVal_cons, List.length_cons, pow_succ]
    have h3 := ih (fun x hx => hb x (List.mem_cons_of_mem _ hx))
    have h4 : d < B := hb d (List.mem_cons_self _ _)
    calc d * B ^ ds.length + digitsVal B ds
        < d * B ^ ds.length + B ^ ds.length := by omega
      _ = (d + 1) * B ^ ds.length := by ring
      _ ≤ B * B ^ ds.length := Nat.mul_le_mul_right _ (by omega)
      _ = B ^ ds.length * B := by ring

theorem digitsVal_append (B : Nat) (xs ys : List Nat) :
    digitsVal B (xs ++ ys) =
      digitsVal B xs * B ^ ys.length + digitsVal B ys := by
  show (xs ++ ys).foldl _ 0 = _
  rw [List.foldl_append, digitsVal_foldl]
  rfl

theorem digitsVal_lex {B : Nat} (hB : 1 ≤ B) (p : List Nat) {x y : Nat}
    (hxy : x < y) {xs ys : List Nat} (hn : xs.length = ys.length)
    (hxs : ∀ d ∈ xs, d < B) :
    digitsVal B (p ++ x :: xs) < digitsVal B (p ++ y :: ys) := by
  rw [digitsVal_append, digitsVal_append, digitsVal_cons, digitsVal_cons,
    List.length_cons, List.length_cons, hn]
  have hlt : digitsVal B xs < B ^ ys.length := by
    rw [← hn]
    exact digitsVal_lt_pow hB xs hxs
  have hmain : x * B ^ ys.length + digitsVal B xs <
      y * B ^ ys.length + digitsVal B ys := by
    calc x * B ^ ys.length + digitsVal B xs
        < x * B ^ ys.length + B ^ ys.length := by omega
      _ = (x + 1) * B ^ ys.length := by ring
      _ ≤ y * B ^ ys.length := Nat.mul_le_mul_right _ (by omega)
      _ ≤ y * B ^ ys.length + digitsVal B ys := Nat.le_add_right _ _
  omega

theorem seqVal_lt_of_lex {B K : Nat} (hB : 1 ≤ B) {s1 s2 : List Nat}
    (P : List Nat) {x y : Nat} (t1 t2 : List Nat)
    (hs1 : s1 = P ++ x :: t1) (hs2 : s2 = P ++ y :: t2) (hxy : x < y)
    (h1 : s1.length ≤ K + 1) (h2 : s2.length ≤ K + 1)
    (hb1 : ∀ d ∈ s1, d + 1 < B) :
    seqVal B K s1 < seqVal B K s2 := by
  subst hs1
  subst hs2
  unfold seqVal
  have hL : (P ++ x :: t1).map (· + 1) ++
      List.replicate (K + 1 - (P ++ x :: t1).length) 0 =
      P.map (· + 1) ++ (x + 1) ::
        (t1.map (· + 1) ++
          List.replicate (K + 1 - (P ++ x :: t1).length) 0) := by
    simp [List.map_append, List.append_assoc]
  have hR : (P ++ y :: t2).map (· + 1) ++
      List.replicate (K + 1 - (P ++ y :: t2).length) 0 =
      P.map (· + 1) ++ (y + 1) ::
        (t2.map (· + 1) ++
          List.replicate (K + 1 - (P ++ y :: t2).length) 0) := by
    simp [List.map_append, List.append_assoc]
  rw [hL, hR]
  apply digitsVal_lex hB _ (by omega)
  · simp only [List.length_append, List.length_map, List.length_replicate,
      List.length_cons] at h1 h2 ⊢
    omega
  · intro d hd
    rcases List.mem_append.mp hd with hd | hd
    · obtain ⟨q, hq, hdq⟩ := List.mem_map.mp hd
      subst hdq
      exact hb1 q (by
        rw [List.mem_append]
        exact Or.inr (List.mem_cons_of_mem _ hq))
    · rw [List.eq_of_mem_replicate hd]
      omega

theorem seqVal_lt_of_extend {B K : Nat} (hB : 1 ≤ B) {s1 s2 : List Nat}
    (z : Nat) (t2 : List Nat) (hs2 : s2 = s1 ++ z :: t2)
    (h2 : s2.length ≤ K + 1) (hb1 : ∀ d ∈ s1, d + 1 < B) :
    seqVal B K s1 < seqVal B K s2 := by
  subst hs2
  unfold seqVal
  have hlen1 : s1.length ≤ K := by
    simp only [List.length_append, List.length_cons] at h2
    omega
  have hL : s1.map (· + 1) ++ List.replicate (K + 1 - s1.length) 0 =
      s1.map (· + 1) ++ 0 :: List.replicate (K - s1.length) 0 := by
    have : K + 1 - s1.length = (K - s1.length) + 1 := by omega
    rw [this, List.replicate_succ]
  have hR : (s1 ++ z :: t2).map (· + 1) ++
      List.replicate (K + 1 - (s1 ++ z :: t2).length) 0 =
      s1.map (· + 1) ++ (z + 1) ::
        (t2.map (· + 1) ++
          List.replicate (K + 1 - (s1 ++ z :: t2).length) 0) := by
    simp [List.map_append, List.append_assoc]
  rw [hL, hR]
  apply digitsVal_lex hB _ (by omega)
  · simp only [List.length_append, List.length_map, List.length_replicate,
      List.length_cons] at h2 ⊢
    omega
  · intro d hd
    rw [List.eq_of_mem_replicate hd]
    omega

theorem nodup_lt_length_le {l : List Nat} {n : Nat} (hnd : l.Nodup)
    (hb : ∀ x ∈ l, x < n) : l.length ≤ n := by
  classical
  have h1 : l.toFinset ⊆ Finset.range n := by
    intro x hx
    rw [List.mem_toFinset] at hx
    exact Finset.mem_range.mpr (hb x hx)
  have h2 := Finset.card_le_card h1
  rw [Finset.card_range, List.toFinset_card_of_nodup hnd] at h2
  exact h2

theorem TrailWf.posLen_le {t : Trail} (wf : TrailWf t) :
    t.decisionPositions.length ≤ t.trail.length :=
  nodup_lt_length_le
    (List.Pairwise.imp (fun h => Nat.ne_of_lt h) wf.posSorted) wf.posLt

theorem SolverInv.assignLit_inv {V : Nat} {s : Solver} (hinv : SolverInv V s)
    {l : Nat} {r : TrailReason} {t' : Trail}
    (hr : ∀ ci, r ≠ .propagated ci)
    (h : s.trail.assignLit l r = some t') :
    SolverInv V { s with trail := t' } := by
  obtain ⟨htr, hdp, hlt, hnone, hassn⟩ := Trail.assignLit_eq_some h
  refine ⟨hinv.wf.assignLit_wf h, ?_, hinv.watchOk, ?_⟩
  · show t'.assignment.length = V
    rw [hassn, Assignment.set_length]
    exact hinv.alen
  · intro e he ci hci
    have he2 : e ∈ s.trail.trail ++ [⟨l, r⟩] := by
      rw [← htr]
      exact he
    rcases List.mem_append.mp he2 with he3 | he3
    · exact (hinv.reasons e he3 ci hci).assignLit_reason h
    · simp only [List.mem_singleton] at he3
      subst he3
      exact absurd hci (hr ci)


theorem take_get_drop {l : List Nat} {b p : Nat} (h : l.get? b = some p) :
    l = l.take b ++ p :: l.drop (b + 1) := by
  have hb : b < l.length := (List.get?_eq_some.mp h).1
  conv_lhs => rw [← List.take_append_drop b l]
  congr 1
  rw [List.drop_eq_get_cons hb]
  have h2 := List.get?_eq_get hb
  rw [h2] at h
  rw [Option.some.inj h]

theorem levelSeq_digit_bound {V : Nat} {s : Solver} (hinv : SolverInv V s) :
    ∀ d ∈ s.trail.levelSeq, d + 1 < V + 3 := by
  intro d hd
  have htl : s.trail.trail.length ≤ V := hinv.trail_le
  unfold Trail.levelSeq at hd
  rcases List.mem_append.mp hd with hd | hd
  · have := hinv.wf.posLt d hd
    omega
  · simp only [List.mem_singleton] at hd
    omega

theorem solveMeasure_lt {V : Nat} {s : Solver} (hinv : SolverInv V s) :
    solveMeasure V s < (V + 3) ^ (V + 2) := by
  have hposlen := hinv.wf.posLen_le
  have htl : s.trail.trail.length ≤ V := hinv.trail_le
  have hslen : s.trail.levelSeq.length ≤ V + 1 := by
    unfold Trail.levelSeq
    simp only [List.length_append, List.length_singleton]
    omega
  have hdig := levelSeq_digit_bound hinv
  unfold solveMeasure seqVal
  have hlistlen : (s.trail.levelSeq.map (· + 1) ++
      List.replicate (V + 1 + 1 - s.trail.levelSeq.length) 0).length =
      V + 2 := by
    simp only [List.length_append, List.length_map, List.length_replicate]
    omega
  have h := digitsVal_lt_pow (B := V + 3) (by omega)
    (s.trail.levelSeq.map (· + 1) ++
      List.replicate (V + 1 + 1 - s.trail.levelSeq.length) 0)
    (by
      intro d hd
      rcases List.mem_append.mp hd with hd | hd
      · obtain ⟨q, hq, hdq⟩ := List.mem_map.mp hd
        subst hdq
        exact hdig q hq
      · rw [List.eq_of_mem_replicate hd]
        omega)
  rw [hlistlen] at h
  exact h

theorem analyzeContradiction_unsat_eq {s : Solver} {c : ClauseIdx}
    {s' : Solver} (h : s.analyzeContradiction c = some (.unsat, s')) :
    s' = s := by
  unfold Solver.analyzeContradiction at h
  rcases h0 : s.beforeLastDecisionPropagated with _ | ok
  · simp [h0] at h
  cases ok with
  | false => simp [h0] at h
  | true =>
  simp only [h0] at h
  rw [if_neg (by simp)] at h
  split at h
  · cases h
  rcases h1 : s.clauseDb.get c with _ | conflictClause
  · rw [h1] at h
    cases h
  simp only [h1] at h
  split at h
  · cases h
  split at h
  · cases h
    rfl
  rcases h2 : analyzeGo s.clauseDb s.trail (s.trail.trail.length + 1)
      conflictClause.lits none s.trail.trail.length
      (AnalyzeState.reset s.trail.totalVars s.trail.currentDecisionLevel)
      with _ | au
  · rw [h2] at h
    cases h
  obtain ⟨a, uip⟩ := au
  simp only [h2] at h
  rcases h3 : s.trail.getDecisionLevel (litNeg uip) with _ | lastLvl
  · rw [h3] at h
    cases h
  simp only [h3] at h
  rcases h4 : a.newClause.mapM (fun l => s.trail.getDecisionLevel l)
      with _ | lvls
  · rw [h4] at h
    cases h
  simp only [h4] at h
  split at h
  · cases h
  rcases h5 : s.trail.backtrack (lvls.foldl max 0) with _ | out
  · rw [h5] at h
    cases h
  obtain ⟨t, popped, resume⟩ := out
  simp only [h5] at h
  rcases h6 : clearPoppedReasons s.clauseDb popped with _ | db
  · rw [h6] at h
    cases h
  simp only [h6] at h
  split at h
  · split at h
    · cases h
    rcases h7 : t.assignLit (litNeg uip) TrailReason.axm with _ | t2
    · rw [h7] at h
      cases h
    rw [h7] at h
    cases h
  · split at h
    · cases h
    split at h
    · cases h
    rcases h8 : db.insertClause (a.newClause ++ [litNeg uip])
        (some a.levelsInClause.length) with ⟨db2, ci⟩
    simp only [h8] at h
    rcases h9 : t.assignLit (litNeg uip)
        (TrailReason.propagated ci) with _ | t2
    · rw [h9] at h
      cases h
    simp only [h9] at h
    rcases h10 : db2.modify ci (fun r => { r with isReason := true })
        with _ | db3
    · rw [h10] at h
      cases h
    rw [h10] at h
    cases h

theorem solveStep_continueLoop_spec {V : Nat} {s : Solver} {fuel : Nat}
    {s' : Solver} (h : s.solveStep fuel = .ok (.continueLoop s'))
    (hinv : SolverInv V s) :
    SolverInv V s' ∧ solveMeasure V s < solveMeasure V s' ∧
    (∀ C, bigPresent s.clauseDb C → bigPresent s'.clauseDb C) ∧
    (∀ l, unitSlot s.trail l → unitSlot s'.trail l) ∧
    s'.triviallyUnsat = s.triviallyUnsat := by
  have hP := hinv.wf.posLen_le
  have hT : s.trail.trail.length ≤ V := hinv.trail_le
  have hdig := levelSeq_digit_bound hinv
  unfold Solver.solveStep at h
  rcases hp : s.propagate fuel with out | _ | _
  · obtain ⟨res, s1⟩ := out
    simp only [hp] at h
    obtain ⟨hinv1, hgen1, hdp1, hΔ1, hbig1, hunit1, htu1, hlim1⟩ :=
      Solver.propagate_spec hp hinv
    rcases res with c | _
    · -- conflict: analyze
      simp only at h
      rcases ha : s1.analyzeContradiction c with _ | ar
      · rw [ha] at h
        cases h
      obtain ⟨r, s2⟩ := ar
      rw [ha] at h
      rcases r with _ | _
      · cases h
      cases h
      obtain ⟨hinv2, hgen2, hbig2, hunit2, htu2, hlim2, b, p, hblt, hbp,
        hdp2, hlen2⟩ := analyzeContradiction_spec ha hinv1
      rw [hdp1] at hblt hbp hdp2
      refine ⟨hinv2, ?_, fun C hC => hbig2 C (hbig1 C hC),
        fun l hl => hunit2 l (hunit1 l hl), by rw [htu2, htu1]⟩
      have hpd : s.trail.decisionPositions =
          s.trail.decisionPositions.take b ++ p ::
            s.trail.decisionPositions.drop (b + 1) := take_get_drop hbp
      have hplt : p < s.trail.trail.length := hinv.wf.posLt p
        (List.get?_mem hbp)
      apply seqVal_lt_of_lex (B := V + 3) (K := V + 1) (by omega)
        (s.trail.decisionPositions.take b)
        (x := p) (y := p + 1)
        (s.trail.decisionPositions.drop (b + 1) ++
          [s.trail.trail.length])
        []
      · show s.trail.decisionPositions ++ [s.trail.trail.length] = _
        conv_lhs => rw [hpd]
        simp [List.append_assoc]
      · show s'.trail.decisionPositions ++ [s'.trail.trail.length] = _
        rw [hdp2, hlen2]
      · omega
      · show s.trail.levelSeq.length ≤ V + 2
        unfold Trail.levelSeq
        simp only [List.length_append, List.length_singleton, List.length_cons, List.length_nil]
        omega
      · show s'.trail.levelSeq.length ≤ V + 2
        unfold Trail.levelSeq
        rw [hdp2, hlen2]
        simp only [List.length_append, List.length_singleton,
          List.length_cons, List.length_nil, List.length_take]
        omega
      · exact hdig
    · -- done: decide branch
      simp only at h
      split at h
      · split at h
        · cases h
        · cases h
      rcases hg : s1.maybeCollectGarbage with _ | s2
      · rw [hg] at h
        cases h
      simp only [hg] at h
      rcases hv : s2.pickDecisionVar with _ | v
      · rw [hv] at h
        cases h
      simp only [hv] at h
      rcases hal : s2.trail.assignLit (varLit v) TrailReason.decision
          with _ | t2
      · rw [hal] at h
        cases h
      simp only [hal] at h
      cases h
      obtain ⟨hinv2, hdp2, hlen2, hbig2, hunit2, htu2⟩ :=
        maybeCollectGarbage_spec hg hinv1
      have hinv' := hinv2.assignLit_inv (r := TrailReason.decision)
        (fun ci hcon => by cases hcon) hal
      obtain ⟨htr3, hdp3, hlt3, hnone3, hassn3⟩ := Trail.assignLit_eq_some hal
      refine ⟨hinv', ?_, ?_, ?_, ?_⟩
      · -- measure strictly increases on a decision
        obtain ⟨Δ, hΔ⟩ := hΔ1
        have hL2 : s.trail.trail.length ≤ s2.trail.trail.length := by
          rw [hlen2, hΔ]
          simp
        have hdp4 : t2.decisionPositions =
            s.trail.decisionPositions ++ [s2.trail.trail.length] := by
          rw [hdp3, if_pos rfl, hdp2, hdp1]
        have hlen4 : t2.trail.length = s2.trail.trail.length + 1 := by
          rw [htr3]
          simp
        have hs2seq : t2.levelSeq = s.trail.decisionPositions ++
            s2.trail.trail.length :: [s2.trail.trail.length + 1] := by
          unfold Trail.levelSeq
          rw [hdp4, hlen4]
          simp [List.append_assoc]
        have hs2len : s2.trail.trail.length ≤ V := by
          have := hinv2.trail_le
          exact this
        rcases Nat.lt_or_ge s.trail.trail.length s2.trail.trail.length
            with hlt | hge
        · apply seqVal_lt_of_lex (B := V + 3) (K := V + 1) (by omega)
            s.trail.decisionPositions
            (x := s.trail.trail.length) (y := s2.trail.trail.length)
            [] [s2.trail.trail.length + 1]
          · rfl
          · exact hs2seq
          · exact hlt
          · show s.trail.levelSeq.length ≤ V + 2
            unfold Trail.levelSeq
            simp only [List.length_append, List.length_singleton, List.length_cons, List.length_nil]
            omega
          · rw [hs2seq]
            simp only [List.length_append, List.length_cons,
              List.length_singleton, List.length_nil]
            omega
          · exact hdig
        · have hEq : s.trail.trail.length = s2.trail.trail.length := by
            omega
          apply seqVal_lt_of_extend (B := V + 3) (K := V + 1) (by omega)
            (s2.trail.trail.length + 1) []
          · rw [hs2seq, ← hEq]
            show _ = (s.trail.decisionPositions ++ [s.trail.trail.length]) ++
              (s.trail.trail.length + 1) :: []
            rw [hEq]
            simp [List.append_assoc]
          · rw [hs2seq]
            simp only [List.length_append, List.length_cons,
              List.length_singleton, List.length_nil]
            omega
          · exact hdig
      · intro C hC
        exact hbig2 C (hbig1 C hC)
      · intro l hl
        exact (hunit2 l (hunit1 l hl)).assignLit_unit hal
      · show s2.triviallyUnsat = s.triviallyUnsat
        rw [htu2, htu1]
  · simp only [hp] at h
    cases h
  · simp only [hp] at h
    cases h

theorem solveStep_satFound_spec {V : Nat} {s : Solver} {fuel : Nat}
    {m : List Int} {s' : Solver}
    (h : s.solveStep fuel = .ok (.satFound m s')) (hinv : SolverInv V s) :
    SolverInv V s' ∧ m = s'.trail.asVec ∧ s'.checkAssignment = true ∧
    s'.allVarsAssigned = true ∧
    (∀ C, bigPresent s.clauseDb C → bigPresent s'.clauseDb C) ∧
    (∀ l, unitSlot s.trail l → unitSlot s'.trail l) := by
  unfold Solver.solveStep at h
  rcases hp : s.propagate fuel with out | _ | _
  · obtain ⟨res, s1⟩ := out
    simp only [hp] at h
    obtain ⟨hinv1, hgen1, hdp1, hΔ1, hbig1, hunit1, htu1, hlim1⟩ :=
      Solver.propagate_spec hp hinv
    rcases res with c | _
    · simp only at h
      rcases ha : s1.analyzeContradiction c with _ | ar
      · rw [ha] at h
        cases h
      obtain ⟨r, s2⟩ := ar
      rw [ha] at h
      rcases r with _ | _
      · cases h
      · cases h
    · simp only at h
      split at h
      · rename_i hall
        split at h
        · rename_i hchk
          cases h
          exact ⟨hinv1, rfl, hchk, hall, hbig1, hunit1⟩
        · cases h
      · rcases hg : s1.maybeCollectGarbage with _ | s2
        · rw [hg] at h
          cases h
        simp only [hg] at h
        rcases hv : s2.pickDecisionVar with _ | v
        · rw [hv] at h
          cases h
        simp only [hv] at h
        rcases hal : s2.trail.assignLit (varLit v) TrailReason.decision
            with _ | t2
        · rw [hal] at h
          cases h
        simp only [hal] at h
        cases h
  · simp only [hp] at h
    cases h
  · simp only [hp] at h
    cases h

theorem solveStep_unsatFound_spec {V : Nat} {s : Solver} {fuel : Nat}
    {s' : Solver} (h : s.solveStep fuel = .ok (.unsatFound s'))
    (hinv : SolverInv V s) :
    SolverInv V s' ∧
    (∀ C, bigPresent s.clauseDb C → bigPresent s'.clauseDb C) ∧
    (∀ l, unitSlot s.trail l → unitSlot s'.trail l) := by
  unfold Solver.solveStep at h
  rcases hp : s.propagate fuel with out | _ | _
  · obtain ⟨res, s1⟩ := out
    simp only [hp] at h
    obtain ⟨hinv1, hgen1, hdp1, hΔ1, hbig1, hunit1, htu1, hlim1⟩ :=
      Solver.propagate_spec hp hinv
    rcases res with c | _
    · simp only at h
      rcases ha : s1.analyzeContradiction c with _ | ar
      · rw [ha] at h
        cases h
      obtain ⟨r, s2⟩ := ar
      rw [ha] at h
      rcases r with _ | _
      · cases h
        have he := analyzeContradiction_unsat_eq ha
        subst he
        exact ⟨hinv1, hbig1, hunit1⟩
      · cases h
    · simp only at h
      split at h
      · split at h
        · cases h
        · cases h
      · rcases hg : s1.maybeCollectGarbage with _ | s2
        · rw [hg] at h
          cases h
        simp only [hg] at h
        rcases hv : s2.pickDecisionVar with _ | v
        · rw [hv] at h
          cases h
        simp only [hv] at h
        rcases hal : s2.trail.assignLit (varLit v) TrailReason.decision
            with _ | t2
        · rw [hal] at h
          cases h
        simp only [hal] at h
        cases h
  · simp only [hp] at h
    cases h
  · simp only [hp] at h
    cases h

theorem solveStep_no_fuelOut {V : Nat} {s : Solver} {fuel : Nat}
    (hinv : SolverInv V s) (h2 : V + 2 ≤ fuel) :
    s.solveStep fuel ≠ .fuelOut := by
  intro hcon
  unfold Solver.solveStep at hcon
  rcases hp : s.propagate fuel with out | _ | _
  · obtain ⟨res, s1⟩ := out
    simp only [hp] at hcon
    rcases res with c | _
    · simp only at hcon
      rcases ha : s1.analyzeContradiction c with _ | ar
      · rw [ha] at hcon
        cases hcon
      obtain ⟨r, s2⟩ := ar
      rw [ha] at hcon
      rcases r with _ | _
      · cases hcon
      · cases hcon
    · simp only at hcon
      split at hcon
      · split at hcon
        · cases hcon
        · cases hcon
      · rcases hg : s1.maybeCollectGarbage with _ | s2
        · rw [hg] at hcon
          cases hcon
        simp only [hg] at hcon
        rcases hv : s2.pickDecisionVar with _ | v
        · rw [hv] at hcon
          cases hcon
        simp only [hv] at hcon
        rcases hal : s2.trail.assignLit (varLit v) TrailReason.decision
            with _ | t2
        · rw [hal] at hcon
          cases hcon
        simp only [hal] at hcon
        cases hcon
  · simp only [hp] at hcon
    cases hcon
  · exact propagateGo_no_fuelOut fuel s.unpropagatedLitPos s hinv
      (by omega) (by omega) hp

theorem solveLoop_no_fuelOut {V : Nat} :
    ∀ (fuel : Nat) (s : Solver), SolverInv V s →
      (V + 3) ^ (V + 2) + V + 2 ≤ fuel + solveMeasure V s →
      Solver.solveLoop fuel s ≠ .fuelOut := by
  intro fuel
  induction fuel with
  | zero =>
    intro s hinv hle hcon
    have hmb := solveMeasure_lt hinv
    omega
  | succ n ih =>
    intro s hinv hle hcon
    have hmb := solveMeasure_lt hinv
    unfold Solver.solveLoop at hcon
    rcases hstep : s.solveStep (n + 1) with out | _ | _
    · obtain (s2 | ⟨m, s2⟩ | s2) := out
      · simp only [hstep] at hcon
        obtain ⟨hinv2, hmeas, -, -, -⟩ :=
          solveStep_continueLoop_spec hstep hinv
        exact ih s2 hinv2 (by omega) hcon
      · simp only [hstep] at hcon
        cases hcon
      · simp only [hstep] at hcon
        cases hcon
    · simp only [hstep] at hcon
      cases hcon
    · exact solveStep_no_fuelOut hinv (by omega) hstep


theorem Watches.expand_mem {w : Watches} {l : Nat} {lst : List ClauseIdx}
    (h : lst ∈ w.expand l) : lst ∈ w ∨ lst = [] := by
  unfold Watches.expand at h
  split at h
  · rcases List.mem_append.mp h with h | h
    · exact Or.inl h
    · exact Or.inr (List.eq_of_mem_replicate h)
  · exact Or.inl h

theorem Solver.expand_inv {s : Solver}
    (hinv : SolverInv s.trail.assignment.length s) (mv w0 : Nat) :
    SolverInv ((s.trail.expand mv).assignment.length)
      { s with trail := s.trail.expand mv,
               watches := s.watches.expand w0 } ∧
    (∀ l, unitSlot s.trail l → unitSlot (s.trail.expand mv) l) := by
  have hgetD : ∀ w, (s.trail.expand mv).assignment.getD w none =
      s.trail.assignment.getD w none := by
    intro w
    show (s.trail.assignment.expand mv).getD w none = _
    exact Assignment.expand_getD _ _ _
  have hm : ∀ v, ((s.trail.expand mv).assignment.getD v none).map
      (fun d => (d.status, d.decisionLevel)) =
      (s.trail.assignment.getD v none).map
        (fun d => (d.status, d.decisionLevel)) := by
    intro v
    rw [hgetD]
  have hwf : TrailWf (s.trail.expand mv) := by
    refine ⟨hinv.wf.posLt, hinv.wf.posSorted, ?_, hinv.wf.distinctVars, ?_⟩
    · intro j e hj
      obtain ⟨d, hd, hst, hre, hbd, hiff⟩ := hinv.wf.slotMatch j e hj
      refine ⟨d, ?_, hst, hre, hbd, hiff⟩
      rw [hgetD]
      exact hd
    · intro v d hv
      rw [hgetD] at hv
      exact hinv.wf.assignedHasEntry v d hv
  refine ⟨⟨hwf, rfl, ?_, ?_⟩, ?_⟩
  · intro lst hlst ci hci
    rcases Watches.expand_mem hlst with hlst | hlst
    · exact hinv.watchOk lst hlst ci hci
    · subst hlst
      cases hci
  · intro e he ci hci
    obtain ⟨hgen, r, d, hr, hd, hlen, h0, hL, hoth⟩ :=
      hinv.reasons e he ci hci
    refine ⟨hgen, r, d, hr, ?_, hlen, h0, hL, ?_⟩
    · rw [hgetD]
      exact hd
    · intro k lk hk
      obtain ⟨ha, hb⟩ := hoth k lk hk
      exact ⟨fun hg hne => OtherLitOk.of_statusMap hm (ha hg hne),
        fun hg hne => OtherLitOk.of_statusMap hm (hb hg hne)⟩
  · intro l hl
    exact unitSlot_of_statusMap hm hl

theorem SolverInv.initial : SolverInv 0 Solver.initial := by
  refine ⟨⟨?_, ?_, ?_, ?_, ?_⟩, rfl, ?_, ?_⟩
  · intro p hp
    cases hp
  · exact List.Pairwise.nil
  · intro j e hj
    cases hj
  · exact List.nodup_nil
  · intro v d hv
    cases hv
  · intro lst hlst
    cases hlst
  · intro e he
    cases he


theorem Watches.push_mem {w : Watches} {i : Nat} {ci : ClauseIdx}
    {w' : Watches} (h : w.push i ci = some w') :
    ∀ lst ∈ w', ∀ x ∈ lst, (x = ci ∨ ∃ lst0 ∈ w, x ∈ lst0) := by
  unfold Watches.push at h
  rcases hg : w.get? i with _ | lst0
  · rw [hg] at h
    cases h
  rw [hg] at h
  cases h
  intro lst hlst x hx
  rcases mem_set_or lst hlst with hlst | hlst
  · subst hlst
    rcases List.mem_append.mp hx with hx | hx
    · exact Or.inr ⟨lst0, List.get?_mem hg, hx⟩
    · simp only [List.mem_singleton] at hx
      exact Or.inl hx
  · exact Or.inr ⟨lst, hlst, hx⟩

theorem ReasonObl.insert_big {db : ClauseDB} {t : Trail} {e : TrailElement}
    {ci : ClauseIdx} (ho : ReasonObl db t e ci) {lits : List Nat}
    {glue : Option Nat} :
    ReasonObl (db.insertClause lits glue).1 t e ci := by
  obtain ⟨hgen, r, d, hr, hd, hlen, h0, hL, hoth⟩ := ho
  refine ⟨hgen, r, d, ?_, hd, hlen, h0, hL, hoth⟩
  show (db.clauses ++ [(⟨false, false, glue, lits⟩ : ClauseRec)]).get? ci.idx = some r
  rw [List.get?_append (List.get?_eq_some.mp hr).1]
  exact hr

theorem bigPresent.insert {db : ClauseDB} {C : List Nat}
    (h : bigPresent db C) {lits : List Nat} {glue : Option Nat} :
    bigPresent (db.insertClause lits glue).1 C := by
  obtain ⟨i, r, hi, hglue, hgar, hperm⟩ := h
  refine ⟨i, r, ?_, hglue, hgar, hperm⟩
  show (db.clauses ++ [(⟨false, false, glue, lits⟩ : ClauseRec)]).get? i = some r
  rw [List.get?_append (List.get?_eq_some.mp hi).1]
  exact hi

theorem addClause_inv {s : Solver} {ints : List Int} {s' : Solver}
    (h : s.addClause ints = some s')
    (hinv : SolverInv s.trail.assignment.length s)
    (hdp : s.trail.decisionPositions = []) :
    SolverInv s'.trail.assignment.length s' ∧
    s'.trail.decisionPositions = [] ∧
    (s.triviallyUnsat = true → s'.triviallyUnsat = true) ∧
    (∀ l, unitSlot s.trail l → unitSlot s'.trail l) ∧
    (∀ C, bigPresent s.clauseDb C → bigPresent s'.clauseDb C) := by
  unfold Solver.addClause at h
  rcases hm : ints.mapM
      (fun i => if litNewOk i then some (Lit.ofInt i) else none)
      with _ | cls0
  · rw [hm] at h
    cases h
  simp only [hm] at h
  rcases htaut : (normaliseClause cls0).2 with _ | _
  · -- not a tautology
    rw [htaut] at h
    simp only [Bool.false_eq_true, if_false] at h
    rcases hcls : (normaliseClause cls0).1 with _ | ⟨l0, rest⟩
    · rw [hcls] at h
      simp only [List.isEmpty_nil, if_true] at h
      cases h
      exact ⟨⟨hinv.wf, hinv.alen, hinv.watchOk, hinv.reasons⟩, hdp,
        fun _ => rfl, fun l hl => hl, fun C hC => hC⟩
    rcases rest with _ | ⟨l1, rest2⟩
    · -- unit clause
      rw [hcls] at h
      simp only [List.isEmpty_cons, Bool.false_eq_true, if_false] at h
      obtain ⟨hinv1, hunit1⟩ := Solver.expand_inv hinv
        (maxVarOf [l0]) (litNeg (varLit (maxVarOf [l0])))
      split at h
      · -- contradicting unit: flag set
        cases h
        exact ⟨⟨hinv1.wf, hinv1.alen, hinv1.watchOk, hinv1.reasons⟩, hdp,
          fun _ => rfl, hunit1, fun C hC => hC⟩
      · rcases ha : (s.trail.expand (maxVarOf [l0])).assignLit l0
            TrailReason.axm with _ | t2
        · rw [ha] at h
          cases h
        rw [ha] at h
        cases h
        obtain ⟨htr2, hdp2, hlt2, hnone2, hassn2⟩ := Trail.assignLit_eq_some ha
        have hinv2 := hinv1.assignLit_inv (r := TrailReason.axm)
          (fun ci hcon => by cases hcon) ha
        have hlen2 : t2.assignment.length =
            (s.trail.expand (maxVarOf [l0])).assignment.length := by
          rw [hassn2, Assignment.set_length]
        refine ⟨?_, ?_, fun hT => hT, ?_, fun C hC => hC⟩
        · show SolverInv t2.assignment.length _
          rw [hlen2]
          exact hinv2
        · show t2.decisionPositions = []
          rw [hdp2, if_neg (by intro hcon; cases hcon)]
          exact hdp
        · intro l hl
          exact (hunit1 l hl).assignLit_unit ha
    · -- clause of length at least two
      rw [hcls] at h
      simp only [List.isEmpty_cons, Bool.false_eq_true, if_false,
        ClauseDB.insertClause] at h
      obtain ⟨hinv1, hunit1⟩ := Solver.expand_inv hinv
        (maxVarOf (l0 :: l1 :: rest2))
        (litNeg (varLit (maxVarOf (l0 :: l1 :: rest2))))
      rcases hp1 : (s.watches.expand
          (litNeg (varLit (maxVarOf (l0 :: l1 :: rest2))))).push (litToIdx l0)
          ⟨s.clauseDb.clauses.length, s.clauseDb.generation⟩ with _ | w1
      · rw [hp1] at h
        cases h
      simp only [hp1] at h
      rcases hp2 : w1.push (litToIdx l1)
          ⟨s.clauseDb.clauses.length, s.clauseDb.generation⟩ with _ | w2
      · rw [hp2] at h
        cases h
      simp only [hp2] at h
      cases h
      have hgetnew : (s.clauseDb.clauses ++
          [(⟨false, false, none, l0 :: l1 :: rest2⟩ : ClauseRec)]).get?
            s.clauseDb.clauses.length =
          some (⟨false, false, none, l0 :: l1 :: rest2⟩ : ClauseRec) := by
        rw [List.get?_append_right (Nat.le_refl _), Nat.sub_self]
        rfl
      have hwOkNew : WatchOk
          ⟨s.clauseDb.clauses ++ [(⟨false, false, none, l0 :: l1 :: rest2⟩ : ClauseRec)],
            s.clauseDb.generation⟩
          ⟨s.clauseDb.clauses.length, s.clauseDb.generation⟩ :=
        ⟨rfl, (⟨false, false, none, l0 :: l1 :: rest2⟩ : ClauseRec), hgetnew, rfl⟩
      refine ⟨⟨hinv1.wf, hinv1.alen, ?_, ?_⟩, hdp, fun hT => hT, hunit1, ?_⟩
      · intro lst hlst ci hci
        rcases Watches.push_mem hp2 lst hlst ci hci with hci2 | ⟨lst1, hlst1, hci2⟩
        · subst hci2
          exact hwOkNew
        rcases Watches.push_mem hp1 lst1 hlst1 ci hci2
            with hci3 | ⟨lst0, hlst0, hci3⟩
        · subst hci3
          exact hwOkNew
        · obtain ⟨hgen, r, hr, hglue⟩ := hinv1.watchOk lst0 hlst0 ci hci3
          refine ⟨hgen, r, ?_, hglue⟩
          show (s.clauseDb.clauses ++ _).get? ci.idx = some r
          rw [List.get?_append (List.get?_eq_some.mp hr).1]
          exact hr
      · intro e he ci hci
        exact (hinv1.reasons e he ci hci).insert_big
      · intro C hC
        exact hC.insert
  · -- tautology: dropped
    rw [htaut] at h
    simp only [if_true] at h
    cases h
    exact ⟨hinv, hdp, fun hT => hT, fun l hl => hl, fun C hC => hC⟩


theorem addClause_produces {s : Solver} {ints : List Int} {s' : Solver}
    (h : s.addClause ints = some s')
    (hdp : s.trail.decisionPositions = []) {cls0 : List Nat}
    (hm0 : ints.mapM
      (fun i => if litNewOk i then some (Lit.ofInt i) else none) = some cls0)
    (ht : (normaliseClause cls0).2 = false) :
    s'.triviallyUnsat = true ∨
    (∃ l, (normaliseClause cls0).1 = [l] ∧ unitSlot s'.trail l) ∨
    (2 ≤ (normaliseClause cls0).1.length ∧
      bigPresent s'.clauseDb (normaliseClause cls0).1) := by
  unfold Solver.addClause at h
  rw [hm0] at h
  simp only at h
  rw [ht] at h
  simp only [Bool.false_eq_true, if_false] at h
  rcases hcls : (normaliseClause cls0).1 with _ | ⟨l0, rest⟩
  · rw [hcls] at h
    simp only [List.isEmpty_nil, if_true] at h
    cases h
    exact Or.inl rfl
  rcases rest with _ | ⟨l1, rest2⟩
  · -- unit clause
    rw [hcls] at h
    simp only [List.isEmpty_cons, Bool.false_eq_true, if_false] at h
    split at h
    · cases h
      exact Or.inl rfl
    · rcases ha : (s.trail.expand (maxVarOf [l0])).assignLit l0
          TrailReason.axm with _ | t2
      · rw [ha] at h
        cases h
      rw [ha] at h
      cases h
      obtain ⟨htr2, hdp2, hlt2, hnone2, hassn2⟩ := Trail.assignLit_eq_some ha
      have hdpn : t2.decisionPositions = [] := by
        rw [hdp2, if_neg (by intro hcon; cases hcon)]
        exact hdp
      refine Or.inr (Or.inl ⟨l0, rfl, ?_⟩)
      refine ⟨⟨litIsPos l0, t2.decisionPositions.length, TrailReason.axm⟩,
        ?_, rfl, ?_⟩
      · show t2.assignment.getD (litVar l0) none = _
        rw [hassn2]
        exact Assignment.getD_set_self _ _ _ hlt2
      · show t2.decisionPositions.length = 0
        rw [hdpn]
        rfl
  · -- length at least two
    rw [hcls] at h
    simp only [List.isEmpty_cons, Bool.false_eq_true, if_false,
      ClauseDB.insertClause] at h
    rcases hp1 : (s.watches.expand
        (litNeg (varLit (maxVarOf (l0 :: l1 :: rest2))))).push (litToIdx l0)
        ⟨s.clauseDb.clauses.length, s.clauseDb.generation⟩ with _ | w1
    · rw [hp1] at h
      cases h
    simp only [hp1] at h
    rcases hp2 : w1.push (litToIdx l1)
        ⟨s.clauseDb.clauses.length, s.clauseDb.generation⟩ with _ | w2
    · rw [hp2] at h
      cases h
    simp only [hp2] at h
    cases h
    refine Or.inr (Or.inr ⟨by simp, ?_⟩)
    refine ⟨s.clauseDb.clauses.length,
      ⟨false, false, none, l0 :: l1 :: rest2⟩, ?_, rfl, rfl, ?_⟩
    · show (s.clauseDb.clauses ++
        [(⟨false, false, none, l0 :: l1 :: rest2⟩ : ClauseRec)]).get? _ =
          some _
      rw [List.get?_append_right (Nat.le_refl _), Nat.sub_self]
      rfl
    · exact List.Perm.refl _

theorem solverFromList_go : ∀ (F : List (List Int)) (s s' : Solver),
    F.foldlM Solver.addClause s = some s' →
    SolverInv s.trail.assignment.length s →
    s.trail.decisionPositions = [] →
    SolverInv s'.trail.assignment.length s' ∧
    s'.trail.decisionPositions = [] ∧
    (s.triviallyUnsat = true → s'.triviallyUnsat = true) ∧
    (∀ l, unitSlot s.trail l → unitSlot s'.trail l) ∧
    (∀ C, bigPresent s.clauseDb C → bigPresent s'.clauseDb C) ∧
    (∀ ints ∈ F, ∀ cls0,
      ints.mapM (fun i => if litNewOk i then some (Lit.ofInt i) else none) =
        some cls0 →
      (normaliseClause cls0).2 = false →
      s'.triviallyUnsat = true ∨
      (∃ l, (normaliseClause cls0).1 = [l] ∧ unitSlot s'.trail l) ∨
      (2 ≤ (normaliseClause cls0).1.length ∧
        bigPresent s'.clauseDb (normaliseClause cls0).1)) := by
  intro F
  induction F with
  | nil =>
    intro s s' h hinv hdp
    cases h
    refine ⟨hinv, hdp, fun hT => hT, fun l hl => hl, fun C hC => hC, ?_⟩
    intro ints hmem
    cases hmem
  | cons ints F ih =>
    intro s s' h hinv hdp
    rw [List.foldlM_cons] at h
    rcases ha : s.addClause ints with _ | s1
    · rw [ha] at h
      cases h
    rw [ha] at h
    simp only [Option.bind_eq_bind, Option.some_bind] at h
    obtain ⟨hinv1, hdp1, htu1, hunit1, hbig1⟩ := addClause_inv ha hinv hdp
    obtain ⟨hinvF, hdpF, htuF, hunitF, hbigF, hprodF⟩ := ih s1 s' h hinv1 hdp1
    refine ⟨hinvF, hdpF, fun hT => htuF (htu1 hT),
      fun l hl => hunitF l (hunit1 l hl),
      fun C hC => hbigF C (hbig1 C hC), ?_⟩
    intro ints2 hmem cls0 hm2 ht2
    rcases List.mem_cons.mp hmem with hmem | hmem
    · subst hmem
      rcases addClause_produces ha hdp hm2 ht2 with hT | ⟨l, hleq, hsl⟩ |
          ⟨hlen, hbp⟩
      · exact Or.inl (htuF hT)
      · exact Or.inr (Or.inl ⟨l, hleq, hunitF l hsl⟩)
      · exact Or.inr (Or.inr ⟨hlen, hbigF _ hbp⟩)
    · exact hprodF ints2 hmem cls0 hm2 ht2

theorem solverFromList_spec {F : List (List Int)} {s' : Solver}
    (h : solverFromList F = some s') :
    SolverInv s'.trail.assignment.length s' ∧
    s'.trail.decisionPositions = [] ∧
    (∀ ints ∈ F, ∀ cls0,
      ints.mapM (fun i => if litNewOk i then some (Lit.ofInt i) else none) =
        some cls0 →
      (normaliseClause cls0).2 = false →
      s'.triviallyUnsat = true ∨
      (∃ l, (normaliseClause cls0).1 = [l] ∧ unitSlot s'.trail l) ∨
      (2 ≤ (normaliseClause cls0).1.length ∧
        bigPresent s'.clauseDb (normaliseClause cls0).1)) := by
  obtain ⟨h1, h2, -, -, -, h6⟩ :=
    solverFromList_go F Solver.initial s' h SolverInv.initial rfl
  exact ⟨h1, h2, h6⟩

theorem mem_sortInsertByVar {l : Nat} :
    ∀ {ys : List Nat} {x : Nat}, x ∈ sortInsertByVar l ys → x = l ∨ x ∈ ys := by
  intro ys
  induction ys with
  | nil =>
    intro x hx
    simp only [sortInsertByVar, List.mem_singleton] at hx
    exact Or.inl hx
  | cons y ys ih =>
    intro x hx
    unfold sortInsertByVar at hx
    split at hx
    · rcases List.mem_cons.mp hx with hx | hx
      · exact Or.inr (hx ▸ List.mem_cons_self _ _)
      · rcases ih hx with hx | hx
        · exact Or.inl hx
        · exact Or.inr (List.mem_cons_of_mem _ hx)
    · rcases List.mem_cons.mp hx with hx | hx
      · exact Or.inl hx
      · exact Or.inr hx

theorem mem_sortByVar : ∀ {c : List Nat} {x : Nat}, x ∈ sortByVar c → x ∈ c := by
  intro c
  induction c with
  | nil =>
    intro x hx
    cases hx
  | cons a tl ih =>
    intro x hx
    unfold sortByVar at hx
    rcases mem_sortInsertByVar hx with hx | hx
    · exact hx ▸ List.mem_cons_self _ _
    · exact List.mem_cons_of_mem _ (ih hx)

theorem mem_dedupAdj : ∀ (c : List Nat) (x : Nat), x ∈ dedupAdj c → x ∈ c := by
  intro c
  induction c with
  | nil =>
    intro x hx
    cases hx
  | cons a tl ih =>
    intro x hx
    cases tl with
    | nil => exact hx
    | cons b tl2 =>
      unfold dedupAdj at hx
      split at hx
      · exact List.mem_cons_of_mem _ (ih x hx)
      · rcases List.mem_cons.mp hx with hx | hx
        · exact hx ▸ List.mem_cons_self _ _
        · exact List.mem_cons_of_mem _ (ih x hx)

theorem mem_normalised_var_pos {ints : List Int} {cls0 : List Nat}
    (hm : ints.mapM
      (fun i => if litNewOk i then some (Lit.ofInt i) else none) =
        some cls0) :
    ∀ l ∈ (normaliseClause cls0).1, 1 ≤ litVar l := by
  have h2 : ∀ l ∈ cls0, 1 ≤ litVar l := by
    intro l hl
    obtain ⟨i, hi, hrel⟩ := forall₂_mem_right (mapM_option_forall₂ hm) l hl
    split at hrel
    · rename_i hok
      cases hrel
      unfold litNewOk at hok
      simp only [Bool.and_eq_true, bne_iff_ne, decide_eq_true_eq] at hok
      have hne : i.natAbs ≠ 0 := Int.natAbs_ne_zero.mpr hok.1
      unfold Lit.ofInt litVar
      split
      · omega
      · omega
    · cases hrel
  intro l hl
  have hl2 : l ∈ dedupAdj (sortByVar cls0) := hl
  exact h2 l (mem_sortByVar (mem_dedupAdj _ l hl2))

theorem isLitSatisfied_slot {t : Trail} {l : Nat}
    (h : t.isLitSatisfied l = true) :
    ∃ d, t.assignment.getD (litVar l) none = some d ∧
      d.status = litIsPos l := by
  unfold Trail.isLitSatisfied Assignment.isLitSatisfied Assignment.get at h
  rcases hd : t.assignment.getD (litVar l) none with _ | d
  · rw [hd] at h
    cases h
  · rw [hd] at h
    simp only [Option.map_some', beq_iff_eq, Option.some.injEq] at h
    exact ⟨d, rfl, h⟩

theorem slot_lit_true {t : Trail} {l : Nat} {d : AssignData}
    (hd : t.assignment.getD (litVar l) none = some d)
    (hstat : d.status = litIsPos l) (hv : 1 ≤ litVar l) :
    t.asVec.get? (litVar l - 1) = some (intOfLit l) := by
  have hlt : litVar l < t.assignment.length := Assignment.getD_some_lt hd
  have hklt : litVar l - 1 < t.totalVars := by
    unfold Trail.totalVars Assignment.lenVars
    omega
  unfold Trail.asVec
  rw [List.get?_map, List.get?_range hklt]
  simp only [Option.map_some']
  have hket : litVar l - 1 + 1 = litVar l := by omega
  have hofInt : Lit.ofInt (Int.ofNat (litVar l - 1 + 1)) = 2 * litVar l := by
    rw [hket]
    unfold Lit.ofInt
    have hnn : ¬ Int.ofNat (litVar l) < 0 := not_lt.mpr (Int.ofNat_nonneg _)
    rw [if_neg hnn]
    simp
  have hvl : litVar (2 * litVar l) = litVar l := by
    unfold litVar
    omega
  have hip : litIsPos (2 * litVar l) = true := by
    unfold litIsPos
    simp [Nat.mul_mod_right]
  have hsat : t.isLitSatisfied (2 * litVar l) = d.status := by
    unfold Trail.isLitSatisfied Assignment.isLitSatisfied Assignment.get
    rw [hvl, hd]
    simp only [Option.map_some', hip]
    cases hst : d.status
    · simp
    · simp
  rw [hofInt, hsat, hstat, hket]
  unfold intOfLit
  cases hpos : litIsPos l
  · simp [hpos]
  · simp [hpos]


theorem solveSteps_inv {V : Nat} :
    ∀ (n fuel : Nat) (s s' : Solver), solveSteps n fuel s = .ok s' →
      SolverInv V s → SolverInv V s' := by
  intro n
  induction n with
  | zero =>
    intro fuel s s' h hinv
    cases h
    exact ⟨hinv.wf, hinv.alen, hinv.watchOk, hinv.reasons⟩
  | succ k ih =>
    intro fuel s s' h hinv
    unfold solveSteps at h
    rcases hstep : s.solveStep fuel with out | _ | _
    · obtain (s2 | ⟨m2, s2⟩ | s2) := out
      · simp only [hstep] at h
        obtain ⟨hinv2, -, -, -, -⟩ := solveStep_continueLoop_spec hstep hinv
        exact ih fuel s2 s' h hinv2
      · simp only [hstep] at h
        cases h
        obtain ⟨hinv2, -, -, -, -, -⟩ := solveStep_satFound_spec hstep hinv
        exact hinv2
      · simp only [hstep] at h
        cases h
        obtain ⟨hinv2, -, -⟩ := solveStep_unsatFound_spec hstep hinv
        exact hinv2
    · simp only [hstep] at h
      cases h
    · simp only [hstep] at h
      cases h

theorem solveLoop_sat {V : Nat} :
    ∀ (fuel : Nat) (s : Solver) (m : List Int),
      Solver.solveLoop fuel s = .sat m → SolverInv V s →
      ∃ sf, SolverInv V sf ∧ m = sf.trail.asVec ∧
        sf.checkAssignment = true ∧ sf.allVarsAssigned = true ∧
        (∀ C, bigPresent s.clauseDb C → bigPresent sf.clauseDb C) ∧
        (∀ l, unitSlot s.trail l → unitSlot sf.trail l) := by
  intro fuel
  induction fuel with
  | zero =>
    intro s m h hinv
    cases h
  | succ n ih =>
    intro s m h hinv
    unfold Solver.solveLoop at h
    rcases hstep : s.solveStep (n + 1) with out | _ | _
    · obtain (s2 | ⟨m2, s2⟩ | s2) := out
      · simp only [hstep] at h
        obtain ⟨hinv2, -, hbig2, hunit2, -⟩ :=
          solveStep_continueLoop_spec hstep hinv
        obtain ⟨sf, h1, h2, h3, h4, h5, h6⟩ := ih s2 m h hinv2
        exact ⟨sf, h1, h2, h3, h4, fun C hC => h5 C (hbig2 C hC),
          fun l hl => h6 l (hunit2 l hl)⟩
      · simp only [hstep] at h
        cases h
        obtain ⟨hinvf, hmeq, hchk, hall, hbig, hunit⟩ :=
          solveStep_satFound_spec hstep hinv
        exact ⟨s2, hinvf, hmeq, hchk, hall, hbig, hunit⟩
      · simp only [hstep] at h
        cases h
    · simp only [hstep] at h
      cases h
    · simp only [hstep] at h
      cases h

/-- C5 (confirmed): for every formula — every finite list of clauses fed
through `add_clause` — `solve` terminates: some finite fuel makes the
fueled main loop finish without exhausting its fuel.  The bound is
`(V+3)^(V+2) + V + 2` for `V` the size of the assignment store, because
every outer loop iteration strictly increases the base-`(V+3)` value of
the trail's level profile, which is bounded by `(V+3)^(V+2)`. -/
theorem c5_solve_terminates (F : List (List Int)) :
    ∃ fuel, runSolve F fuel ≠ .fuelOut := by
  rcases hs : solverFromList F with _ | s0
  · refine ⟨0, ?_⟩
    unfold runSolve
    rw [hs]
    intro hcon
    cases hcon
  · obtain ⟨hinv, -, -⟩ := solverFromList_spec hs
    refine ⟨(s0.trail.assignment.length + 3) ^ (s0.trail.assignment.length + 2)
      + s0.trail.assignment.length + 2, ?_⟩
    unfold runSolve
    simp only [hs]
    unfold Solver.solve
    split
    · intro hcon
      cases hcon
    · exact solveLoop_no_fuelOut _ s0 hinv (by omega)

/-- C1 (confirmed): whenever the whole pipeline answers `Sat(m)`, every
clause of the normalized formula — duplicate literals removed, tautological
clauses dropped — contains a literal that is true under the model `m`: the
model's entry for the literal's variable is exactly that literal's signed
integer form. -/
theorem c1_sat_model_satisfies_normalized {F : List (List Int)} {fuel : Nat}
    {m : List Int} (h : runSolve F fuel = .sat m) :
    ∀ ints ∈ F, ∀ cls0,
      ints.mapM (fun i => if litNewOk i then some (Lit.ofInt i) else none) =
        some cls0 →
      (normaliseClause cls0).2 = false →
      ∃ l ∈ (normaliseClause cls0).1,
        m.get? (litVar l - 1) = some (intOfLit l) := by
  unfold runSolve at h
  rcases hs : solverFromList F with _ | s0
  · rw [hs] at h
    cases h
  simp only [hs] at h
  unfold Solver.solve at h
  split at h
  · cases h
  rename_i htu
  obtain ⟨hinv0, hdp0, hprod⟩ := solverFromList_spec hs
  obtain ⟨sf, hinvf, hmeq, hchk, hall, hbigf, hunitf⟩ :=
    solveLoop_sat fuel s0 m h hinv0
  intro ints hmem cls0 hmm hnt
  have hvars := mem_normalised_var_pos hmm
  rcases hprod ints hmem cls0 hmm hnt with hT | ⟨l, hleq, hsl⟩ | ⟨hlen, hbp⟩
  · exact absurd hT htu
  · obtain ⟨d, hd, hstat, -⟩ := hunitf l hsl
    have hlm : l ∈ (normaliseClause cls0).1 := by
      rw [hleq]
      exact List.mem_singleton.mpr rfl
    refine ⟨l, hlm, ?_⟩
    rw [hmeq]
    exact slot_lit_true hd hstat (hvars l hlm)
  · obtain ⟨i, r, hi, -, -, hperm⟩ := hbigf _ hbp
    have hsat : sf.trail.isClauseSatisfied r.lits = true := by
      unfold Solver.checkAssignment at hchk
      rw [List.all_eq_true] at hchk
      exact hchk r (List.get?_mem hi)
    unfold Trail.isClauseSatisfied at hsat
    rw [List.any_eq_true] at hsat
    obtain ⟨l, hlmem, hlsat⟩ := hsat
    have hlC : l ∈ (normaliseClause cls0).1 := hperm.subset hlmem
    obtain ⟨d, hd, hstat⟩ := isLitSatisfied_slot hlsat
    refine ⟨l, hlC, ?_⟩
    rw [hmeq]
    exact slot_lit_true hd hstat (hvars l hlC)

theorem c1_witness :
    runSolve [[1, 2]] 10 = .sat [1, 2] ∧
    ∃ l ∈ (normaliseClause [2, 4]).1,
      [(1 : Int), 2].get? (litVar l - 1) = some (intOfLit l) :=
  ⟨rfl, c1_sat_model_satisfies_normalized
    (rfl : runSolve [[1, 2]] 10 = .sat [1, 2]) [1, 2]
    (List.mem_singleton.mpr rfl) [2, 4] rfl rfl⟩

/-- C2 (amended): in every state reachable by whole outer solver loop
iterations from an ingested formula, every trail literal whose reason is
`Propagated(h)` satisfies the corrected reason-clause shape: the handle `h`
is current (same generation as the arena), the clause has at least two
literals, the literal sits at index 0 when the reason clause is an input
clause (no recorded LBD glue) but at the LAST index when it is a learned
clause (glue recorded), and every other literal of the clause is
unsatisfied with its recorded decision level at most the level of the
propagated literal. -/
theorem c2_amended_reason_clause_shape {F : List (List Int)} {n fuel : Nat}
    {s0 s' : Solver} (h0 : solverFromList F = some s0)
    (h : solveSteps n fuel s0 = .ok s') :
    ∀ e ∈ s'.trail.trail, ∀ ci, e.reason = .propagated ci →
      ReasonObl s'.clauseDb s'.trail e ci := by
  obtain ⟨hinv0, -, -⟩ := solverFromList_spec h0
  exact (solveSteps_inv n fuel s0 s' h hinv0).reasons

theorem c2_amended_witness :
    solverFromList [[1], [-1, 2]] = some c2S0 ∧
    solveSteps 1 20 c2S0 = .ok c2S1 ∧
    (∀ e ∈ c2S1.trail.trail, ∀ ci, e.reason = .propagated ci →
      ReasonObl c2S1.clauseDb c2S1.trail e ci) :=
  ⟨rfl, rfl, c2_amended_reason_clause_shape
    (rfl : solverFromList [[1], [-1, 2]] = some c2S0)
    (rfl : solveSteps 1 20 c2S0 = .ok c2S1)⟩

end Dissat
